import Mathlib

/-!
Verification of the NavigateX core data structures (src/NavigateX.cpp) against
their specification.  The C++ classes are shallowly embedded as Lean functions:
`AVLTree` mirrors the `AVLNode`/`AVLTree` implementation, `Graph` mirrors the
adjacency-list graph engine, and the presentation-layer validation from
`dsa-visualization.js` is embedded separately as `JSGraph`.  C++ `int` is
modelled as `Int` (signed overflow is undefined behaviour in the source and is
not modelled); `std::string` comparison is the lexicographic order on `String`.
-/

namespace NavigateX

/-! ## AVL tree: embedding of `struct AVLNode` and the `AVLTree` class -/

/-- `struct AVLNode { string key; int value; AVLNode *left, *right; int height; }`.
`nil` models the null pointer.  The `height` field is the stored (cached) height,
exactly as in the source; it is a `Nat` because the source only ever stores
values `≥ 1` in it. -/
inductive AVLTree where
  | nil : AVLTree
  | node (key : String) (value : Int) (left right : AVLTree) (height : Nat) : AVLTree
deriving Repr, DecidableEq

namespace AVLTree

/-- `int getHeight(AVLNode* node) { return node ? node->height : 0; }` -/
def getHeight : AVLTree → Nat
  | .nil => 0
  | .node _ _ _ _ h => h

/-- `int getBalance(AVLNode* node)`: stored height of left minus stored height
of right (0 for null). -/
def getBalance : AVLTree → Int
  | .nil => 0
  | .node _ _ l r _ => (getHeight l : Int) - (getHeight r : Int)

/-- Key of a node.  The source dereferences `node->key` only on non-null
nodes; the `nil` case is never reached in verified states and returns a dummy. -/
def nodeKey : AVLTree → String
  | .nil => ""
  | .node k _ _ _ _ => k

/-- `AVLNode* rightRotate(AVLNode* y)`: `x = y->left; T2 = x->right;
x->right = y; y->left = T2;` then both heights are recomputed from the
children's stored heights (first `y`, then `x`).  The source dereferences
`y->left` unconditionally; a null left child is undefined behaviour there and
unreachable here, so that case returns the tree unchanged. -/
def rightRotate : AVLTree → AVLTree
  | .node ky vy (.node kx vx xl xr _) yr _ =>
      let y := AVLTree.node ky vy xr yr (max (getHeight xr) (getHeight yr) + 1)
      AVLTree.node kx vx xl y (max (getHeight xl) (getHeight y) + 1)
  | t => t

/-- `AVLNode* leftRotate(AVLNode* x)`: mirror image of `rightRotate`
(heights recomputed first for `x`, then for `y`). -/
def leftRotate : AVLTree → AVLTree
  | .node kx vx xl (.node ky vy yl yr _) _ =>
      let x := AVLTree.node kx vx xl yl (max (getHeight xl) (getHeight yl) + 1)
      AVLTree.node ky vy x yr (max (getHeight x) (getHeight yr) + 1)
  | t => t

/-- The tail of `insertHelper` after the recursive call: `node->height = 1 +
max(getHeight(node->left), getHeight(node->right));` followed by the four
key-comparison rotation cases, in source order (LL, RR, LR, RL). -/
def rebalanceInsert (t : AVLTree) (key : String) : AVLTree :=
  match t with
  | .nil => .nil
  | .node k v l r _ =>
    let h := 1 + max (getHeight l) (getHeight r)
    let node := AVLTree.node k v l r h
    let balance := getBalance node
    if 1 < balance ∧ key < nodeKey l then rightRotate node
    else if balance < -1 ∧ nodeKey r < key then leftRotate node
    else if 1 < balance ∧ nodeKey l < key then
      rightRotate (AVLTree.node k v (leftRotate l) r h)
    else if balance < -1 ∧ key < nodeKey r then
      leftRotate (AVLTree.node k v l (rightRotate r) h)
    else node

/-- `AVLNode* insertHelper(AVLNode* node, string key, int value)`.  A null node
becomes a fresh leaf of height 1; an equal key overwrites the value and returns
early (no height update, no rebalancing); otherwise the subtree is replaced by
the recursive result and the height-update/rebalance tail runs. -/
def insertHelper : AVLTree → String → Int → AVLTree
  | .nil, key, value => .node key value .nil .nil 1
  | .node k v l r h, key, value =>
    if key < k then rebalanceInsert (.node k v (insertHelper l key value) r h) key
    else if k < key then rebalanceInsert (.node k v l (insertHelper r key value) h) key
    else .node k value l r h

/-- `AVLNode* minValueNode(AVLNode* node)`: leftmost key/value pair.  Only
called on non-null nodes in the source; the `nil` case returns a dummy. -/
def minValueNode : AVLTree → String × Int
  | .nil => ("", 0)
  | .node k v l _ _ =>
    match l with
    | .nil => (k, v)
    | .node lk lv ll lr lh => minValueNode (.node lk lv ll lr lh)

/-- The tail of `deleteHelper`: `if (!node) return node;` then height update
and the four balance-factor rotation cases, in source order. -/
def rebalanceDelete (t : AVLTree) : AVLTree :=
  match t with
  | .nil => .nil
  | .node k v l r _ =>
    let h := 1 + max (getHeight l) (getHeight r)
    let node := AVLTree.node k v l r h
    let balance := getBalance node
    if 1 < balance ∧ 0 ≤ getBalance l then rightRotate node
    else if 1 < balance ∧ getBalance l < 0 then
      rightRotate (AVLTree.node k v (leftRotate l) r h)
    else if balance < -1 ∧ getBalance r ≤ 0 then leftRotate node
    else if balance < -1 ∧ 0 < getBalance r then
      leftRotate (AVLTree.node k v l (rightRotate r) h)
    else node

/-- `AVLNode* deleteHelper(AVLNode* node, string key)`.  The one-child case
`*node = *temp; delete temp;` copies the child's fields over the node, which is
the same as returning the child subtree; the two-child case copies the in-order
successor's key/value and deletes that key from the right subtree. -/
def deleteHelper : AVLTree → String → AVLTree
  | .nil, _ => .nil
  | .node k v l r h, key =>
    let cut :=
      if key < k then AVLTree.node k v (deleteHelper l key) r h
      else if k < key then AVLTree.node k v l (deleteHelper r key) h
      else
        match l, r with
        | .nil, rr => rr
        | .node lk lv ll lr lh, .nil => .node lk lv ll lr lh
        | .node lk lv ll lr lh, .node rk rv rl rr rh =>
          let s := minValueNode (.node rk rv rl rr rh)
          AVLTree.node s.1 s.2 (.node lk lv ll lr lh)
            (deleteHelper (.node rk rv rl rr rh) s.1) h
    rebalanceDelete cut

/-- `AVLNode* searchHelper(AVLNode* node, string key)`: returns the node found
(or null), testing equality first, then descending left or right. -/
def searchHelper : AVLTree → String → AVLTree
  | .nil, _ => .nil
  | .node k v l r h, key =>
    if k = key then .node k v l r h
    else if key < k then searchHelper l key
    else searchHelper r key

/-- `int* search(string key)`: the value at the found node, or absent. -/
def search (root : AVLTree) (key : String) : Option Int :=
  match searchHelper root key with
  | .nil => none
  | .node _ v _ _ _ => some v

/-- `void inorderHelper(AVLNode*, vector<pair<string,int>>&)`: left subtree,
then the node's pair, then the right subtree. -/
def inorderHelper : AVLTree → List (String × Int)
  | .nil => []
  | .node k v l r _ => inorderHelper l ++ (k, v) :: inorderHelper r

/-- `vector<pair<string,int>> inorderTraversal()`. -/
def inorderTraversal (root : AVLTree) : List (String × Int) :=
  inorderHelper root

/-- `void insert(string key, int value) { root = insertHelper(root, key, value); }` -/
def insert (root : AVLTree) (key : String) (value : Int) : AVLTree :=
  insertHelper root key value

/-- `bool remove(string key)`: returns false and leaves the tree untouched when
`search` misses, otherwise runs `deleteHelper` and returns true. -/
def remove (root : AVLTree) (key : String) : Bool × AVLTree :=
  if (search root key).isSome then (true, deleteHelper root key) else (false, root)

end AVLTree

/-! ## AVL tree: invariants -/

namespace AVLTree

/-- True height of the tree, ignoring the stored `height` fields. -/
def realHeight : AVLTree → Nat
  | .nil => 0
  | .node _ _ l r _ => 1 + max (realHeight l) (realHeight r)

/-- Every stored `height` field equals `1 + max` of the children's stored
heights (with 0 for null children). -/
def heightInv : AVLTree → Bool
  | .nil => true
  | .node _ _ l r h =>
    heightInv l && heightInv r && (h == 1 + max (getHeight l) (getHeight r))

/-- AVL balance over the stored heights: at every node the two children's
stored heights differ by at most one. -/
def balancedB : AVLTree → Bool
  | .nil => true
  | .node _ _ l r _ =>
    balancedB l && balancedB r &&
      (getHeight l ≤ getHeight r + 1) && (getHeight r ≤ getHeight l + 1)

/-- AVL balance over the true (recomputed) heights. -/
def balancedReal : AVLTree → Bool
  | .nil => true
  | .node _ _ l r _ =>
    balancedReal l && balancedReal r &&
      (realHeight l ≤ realHeight r + 1) && (realHeight r ≤ realHeight l + 1)

/-- `p` holds for every key stored in the tree. -/
def allKeys (p : String → Bool) : AVLTree → Bool
  | .nil => true
  | .node k _ l r _ => p k && allKeys p l && allKeys p r

/-- Binary-search-tree ordering: all left keys below the node key, all right
keys above, recursively (lexicographic `String` order, as in the source). -/
def orderedB : AVLTree → Bool
  | .nil => true
  | .node k _ l r _ =>
    allKeys (fun x => decide (x < k)) l && allKeys (fun x => decide (k < x)) r &&
      orderedB l && orderedB r

/-- Some node of the tree holds key `k`. -/
def containsKey : AVLTree → String → Bool
  | .nil, _ => false
  | .node k _ l r _, key => k == key || containsKey l key || containsKey r key

/-- Some node of the tree holds the pair `(k, v)`. -/
def hasKV : AVLTree → String → Int → Bool
  | .nil, _, _ => false
  | .node k v l r _, key, value =>
    (k == key && v == value) || hasKV l key value || hasKV r key value

/-- The shape of a tree: keys, structure and stored heights, with all values
zeroed out.  Two trees with the same shape differ at most in stored values. -/
def shape : AVLTree → AVLTree
  | .nil => .nil
  | .node k _ l r h => .node k 0 (shape l) (shape r) h

/-- The combined invariant maintained by every reachable tree state. -/
def Inv (t : AVLTree) : Prop :=
  orderedB t = true ∧ heightInv t = true ∧ balancedB t = true

end AVLTree

/-! ## AVL tree: basic lemmas -/

namespace AVLTree

@[simp] theorem getHeight_nil : getHeight .nil = 0 := rfl

@[simp] theorem getHeight_node {k : String} {v : Int} {l r : AVLTree} {h : Nat} :
    getHeight (.node k v l r h) = h := rfl

@[simp] theorem realHeight_nil : realHeight .nil = 0 := rfl

@[simp] theorem realHeight_node {k : String} {v : Int} {l r : AVLTree} {h : Nat} :
    realHeight (.node k v l r h) = 1 + max (realHeight l) (realHeight r) := rfl

@[simp] theorem nodeKey_node {k : String} {v : Int} {l r : AVLTree} {h : Nat} :
    nodeKey (.node k v l r h) = k := rfl

@[simp] theorem getBalance_node {k : String} {v : Int} {l r : AVLTree} {h : Nat} :
    getBalance (.node k v l r h) = (getHeight l : Int) - (getHeight r : Int) := rfl

@[simp] theorem heightInv_nil : heightInv .nil = true := rfl

@[simp] theorem balancedB_nil : balancedB .nil = true := rfl

@[simp] theorem orderedB_nil : orderedB .nil = true := rfl

@[simp] theorem allKeys_nil {p : String → Bool} : allKeys p .nil = true := rfl

@[simp] theorem containsKey_nil {key : String} : containsKey .nil key = false := rfl

@[simp] theorem hasKV_nil {key : String} {value : Int} :
    hasKV .nil key value = false := rfl

@[simp] theorem shape_nil : shape .nil = .nil := rfl

@[simp] theorem shape_node {k : String} {v : Int} {l r : AVLTree} {h : Nat} :
    shape (.node k v l r h) = .node k 0 (shape l) (shape r) h := rfl

theorem heightInv_node {k : String} {v : Int} {l r : AVLTree} {h : Nat} :
    heightInv (.node k v l r h) = true ↔
      heightInv l = true ∧ heightInv r = true ∧
        h = 1 + max (getHeight l) (getHeight r) := by
  simp [heightInv, Bool.and_eq_true, and_assoc]

theorem balancedB_node {k : String} {v : Int} {l r : AVLTree} {h : Nat} :
    balancedB (.node k v l r h) = true ↔
      balancedB l = true ∧ balancedB r = true ∧
        getHeight l ≤ getHeight r + 1 ∧ getHeight r ≤ getHeight l + 1 := by
  simp [balancedB, Bool.and_eq_true, and_assoc]

theorem allKeys_node {p : String → Bool} {k : String} {v : Int} {l r : AVLTree}
    {h : Nat} :
    allKeys p (.node k v l r h) = true ↔
      p k = true ∧ allKeys p l = true ∧ allKeys p r = true := by
  simp [allKeys, Bool.and_eq_true, and_assoc]

theorem orderedB_node {k : String} {v : Int} {l r : AVLTree} {h : Nat} :
    orderedB (.node k v l r h) = true ↔
      allKeys (fun x => decide (x < k)) l = true ∧
        allKeys (fun x => decide (k < x)) r = true ∧
        orderedB l = true ∧ orderedB r = true := by
  simp [orderedB, Bool.and_eq_true, and_assoc]

theorem allKeys_mono {p q : String → Bool} (hpq : ∀ x, p x = true → q x = true) :
    ∀ {t : AVLTree}, allKeys p t = true → allKeys q t = true := by
  intro t
  induction t with
  | nil => simp [allKeys]
  | node k v l r h ihl ihr =>
    simp only [allKeys_node]
    rintro ⟨h1, h2, h3⟩
    exact ⟨hpq k h1, ihl h2, ihr h3⟩

theorem allKeys_combine {p q w : String → Bool}
    (hpq : ∀ x, p x = true → q x = true → w x = true) :
    ∀ {t : AVLTree}, allKeys p t = true → allKeys q t = true →
      allKeys w t = true := by
  intro t
  induction t with
  | nil => simp [allKeys]
  | node k v l r h ihl ihr =>
    simp only [allKeys_node]
    rintro ⟨h1, h2, h3⟩ ⟨g1, g2, g3⟩
    exact ⟨hpq k h1 g1, ihl h2 g2, ihr h3 g3⟩

theorem containsKey_false_of_allKeys {t : AVLTree} {key : String}
    (h : allKeys (fun x => decide (x ≠ key)) t = true) :
    containsKey t key = false := by
  induction t with
  | nil => simp [containsKey]
  | node k v l r hh ihl ihr =>
    simp only [allKeys_node, decide_eq_true_eq] at h
    simp [containsKey, ihl h.2.1, ihr h.2.2, beq_iff_eq]
    exact h.1

theorem getHeight_eq_realHeight {t : AVLTree} (h : heightInv t = true) :
    getHeight t = realHeight t := by
  induction t with
  | nil => rfl
  | node k v l r hh ihl ihr =>
    rcases heightInv_node.mp h with ⟨hl, hr, heq⟩
    simp [heq, ihl hl, ihr hr]

theorem balancedB_eq_balancedReal {t : AVLTree} (h : heightInv t = true) :
    balancedB t = balancedReal t := by
  induction t with
  | nil => rfl
  | node k v l r hh ihl ihr =>
    rcases heightInv_node.mp h with ⟨hl, hr, _⟩
    simp only [balancedB, balancedReal, ihl hl, ihr hr,
      getHeight_eq_realHeight hl, getHeight_eq_realHeight hr]

@[simp] theorem rightRotate_node {ky kx : String} {vy vx : Int}
    {xl xr yr : AVLTree} {lh h : Nat} :
    rightRotate (.node ky vy (.node kx vx xl xr lh) yr h) =
      .node kx vx xl (.node ky vy xr yr (max (getHeight xr) (getHeight yr) + 1))
        (max (getHeight xl) (max (getHeight xr) (getHeight yr) + 1) + 1) := rfl

@[simp] theorem leftRotate_node {kx ky : String} {vx vy : Int}
    {xl yl yr : AVLTree} {rh h : Nat} :
    leftRotate (.node kx vx xl (.node ky vy yl yr rh) h) =
      .node ky vy (.node kx vx xl yl (max (getHeight xl) (getHeight yl) + 1)) yr
        (max (max (getHeight xl) (getHeight yl) + 1) (getHeight yr) + 1) := rfl

/-- Behaviour of `rightRotate` on `node k v (node ak o al ar ah) B h₀`:
provided the pieces are well-formed, suitably bounded in height, and ordered
below/above the two pivot keys, the rotated tree is well-formed and its height
is determined by the pieces.  The stored heights `ah` and `h₀` of the two
rotated nodes are never read by the source, so no hypothesis constrains them. -/
theorem rightRotate_spec
    {k ak : String} {v o : Int} {al ar B : AVLTree} {ah h₀ : Nat}
    (hOal : orderedB al = true) (hOar : orderedB ar = true)
    (hOB : orderedB B = true)
    (hHal : heightInv al = true) (hHar : heightInv ar = true)
    (hHB : heightInv B = true)
    (hBal : balancedB al = true) (hBar : balancedB ar = true)
    (hBB : balancedB B = true)
    (hak_l : allKeys (fun x => decide (x < ak)) al = true)
    (hak_r : allKeys (fun x => decide (ak < x)) ar = true)
    (haklt : ak < k)
    (hlt_ar : allKeys (fun x => decide (x < k)) ar = true)
    (hgt_B : allKeys (fun x => decide (k < x)) B = true)
    (c1 : getHeight ar ≤ getHeight B + 1) (c2 : getHeight B ≤ getHeight ar + 1)
    (c3 : getHeight al ≤ 1 + max (getHeight ar) (getHeight B) + 1)
    (c4 : 1 + max (getHeight ar) (getHeight B) ≤ getHeight al + 1) :
    orderedB (rightRotate (.node k v (.node ak o al ar ah) B h₀)) = true ∧
    heightInv (rightRotate (.node k v (.node ak o al ar ah) B h₀)) = true ∧
    balancedB (rightRotate (.node k v (.node ak o al ar ah) B h₀)) = true ∧
    getHeight (rightRotate (.node k v (.node ak o al ar ah) B h₀)) =
      max (getHeight al) (max (getHeight ar) (getHeight B) + 1) + 1 ∧
    (∀ p : String → Bool, p k = true → p ak = true → allKeys p al = true →
      allKeys p ar = true → allKeys p B = true →
      allKeys p (rightRotate (.node k v (.node ak o al ar ah) B h₀)) = true) := by
  rw [rightRotate_node]
  refine ⟨?_, ?_, ?_, ?_, ?_⟩
  · rw [orderedB_node]
    refine ⟨hak_l, ?_, hOal, ?_⟩
    · rw [allKeys_node]
      refine ⟨by simpa using haklt, hak_r, ?_⟩
      exact allKeys_mono (fun x hx => by
        simp only [decide_eq_true_eq] at hx ⊢
        exact lt_trans haklt hx) hgt_B
    · rw [orderedB_node]
      exact ⟨hlt_ar, hgt_B, hOar, hOB⟩
  · rw [heightInv_node]
    refine ⟨hHal, ?_, ?_⟩
    · rw [heightInv_node]
      exact ⟨hHar, hHB, by omega⟩
    · simp only [getHeight_node]
      omega
  · rw [balancedB_node]
    refine ⟨hBal, ?_, ?_, ?_⟩
    · rw [balancedB_node]
      exact ⟨hBar, hBB, c1, c2⟩
    · simp only [getHeight_node]; omega
    · simp only [getHeight_node]; omega
  · simp
  · intro p hpk hpak hpal hpar hpB
    rw [allKeys_node]
    refine ⟨hpak, hpal, ?_⟩
    rw [allKeys_node]
    exact ⟨hpk, hpar, hpB⟩

/-- Mirror image of `rightRotate_spec` for `leftRotate` on
`node k v A (node bk o bl br bh) h₀`. -/
theorem leftRotate_spec
    {k bk : String} {v o : Int} {A bl br : AVLTree} {bh h₀ : Nat}
    (hOA : orderedB A = true) (hObl : orderedB bl = true)
    (hObr : orderedB br = true)
    (hHA : heightInv A = true) (hHbl : heightInv bl = true)
    (hHbr : heightInv br = true)
    (hBA : balancedB A = true) (hBbl : balancedB bl = true)
    (hBbr : balancedB br = true)
    (hbk_l : allKeys (fun x => decide (x < bk)) bl = true)
    (hbk_r : allKeys (fun x => decide (bk < x)) br = true)
    (hbkgt : k < bk)
    (hlt_A : allKeys (fun x => decide (x < k)) A = true)
    (hgt_bl : allKeys (fun x => decide (k < x)) bl = true)
    (c1 : getHeight A ≤ getHeight bl + 1) (c2 : getHeight bl ≤ getHeight A + 1)
    (c3 : getHeight br ≤ 1 + max (getHeight A) (getHeight bl) + 1)
    (c4 : 1 + max (getHeight A) (getHeight bl) ≤ getHeight br + 1) :
    orderedB (leftRotate (.node k v A (.node bk o bl br bh) h₀)) = true ∧
    heightInv (leftRotate (.node k v A (.node bk o bl br bh) h₀)) = true ∧
    balancedB (leftRotate (.node k v A (.node bk o bl br bh) h₀)) = true ∧
    getHeight (leftRotate (.node k v A (.node bk o bl br bh) h₀)) =
      max (max (getHeight A) (getHeight bl) + 1) (getHeight br) + 1 ∧
    (∀ p : String → Bool, p k = true → p bk = true → allKeys p A = true →
      allKeys p bl = true → allKeys p br = true →
      allKeys p (leftRotate (.node k v A (.node bk o bl br bh) h₀)) = true) := by
  rw [leftRotate_node]
  refine ⟨?_, ?_, ?_, ?_, ?_⟩
  · rw [orderedB_node]
    refine ⟨?_, hbk_r, ?_, hObr⟩
    · rw [allKeys_node]
      refine ⟨by simpa using hbkgt, ?_, hbk_l⟩
      exact allKeys_mono (fun x hx => by
        simp only [decide_eq_true_eq] at hx ⊢
        exact lt_trans hx hbkgt) hlt_A
    · rw [orderedB_node]
      exact ⟨hlt_A, hgt_bl, hOA, hObl⟩
  · rw [heightInv_node]
    refine ⟨?_, hHbr, ?_⟩
    · rw [heightInv_node]
      exact ⟨hHA, hHbl, by omega⟩
    · simp only [getHeight_node]
      omega
  · rw [balancedB_node]
    refine ⟨?_, hBbr, ?_, ?_⟩
    · rw [balancedB_node]
      exact ⟨hBA, hBbl, c1, c2⟩
    · simp only [getHeight_node]; omega
    · simp only [getHeight_node]; omega
  · simp
  · intro p hpk hpbk hpA hpbl hpbr
    rw [allKeys_node]
    refine ⟨hpbk, ?_, hpbr⟩
    rw [allKeys_node]
    exact ⟨hpk, hpA, hpbl⟩

theorem rebalanceInsert_node {k : String} {v : Int} {A B : AVLTree} {h₀ : Nat}
    {key : String} :
    rebalanceInsert (.node k v A B h₀) key =
      (if 1 < (getHeight A : Int) - getHeight B ∧ key < nodeKey A then
        rightRotate (.node k v A B (1 + max (getHeight A) (getHeight B)))
      else if (getHeight A : Int) - getHeight B < -1 ∧ nodeKey B < key then
        leftRotate (.node k v A B (1 + max (getHeight A) (getHeight B)))
      else if 1 < (getHeight A : Int) - getHeight B ∧ nodeKey A < key then
        rightRotate (.node k v (leftRotate A) B (1 + max (getHeight A) (getHeight B)))
      else if (getHeight A : Int) - getHeight B < -1 ∧ key < nodeKey B then
        leftRotate (.node k v A (rightRotate B) (1 + max (getHeight A) (getHeight B)))
      else .node k v A B (1 + max (getHeight A) (getHeight B))) := rfl

theorem rebalanceInsert_noRotate {k : String} {v : Int} {A B : AVLTree}
    {h₀ : Nat} {key : String}
    (c1 : getHeight A ≤ getHeight B + 1) (c2 : getHeight B ≤ getHeight A + 1) :
    rebalanceInsert (.node k v A B h₀) key =
      .node k v A B (1 + max (getHeight A) (getHeight B)) := by
  rw [rebalanceInsert_node,
    if_neg (fun hc => absurd hc.1 (by omega)),
    if_neg (fun hc => absurd hc.1 (by omega)),
    if_neg (fun hc => absurd hc.1 (by omega)),
    if_neg (fun hc => absurd hc.1 (by omega))]


/-- When an insertion increased a subtree's stored height, the result is a
node whose taller child is on the side the inserted key went (or the subtree
was empty).  This is exactly the information the source's key-comparison
rotation cases rely on one level up.  (Wrapped in a definition so that the
arithmetic antecedent stays opaque to arithmetic automation.) -/
def GrowthInfo (t res : AVLTree) (key : String) : Prop :=
  getHeight res = getHeight t + 1 →
    ∃ rk rv rl rr rh, res = .node rk rv rl rr rh ∧
      ((key < rk ∧ getHeight rl = getHeight rr + 1) ∨
        (rk < key ∧ getHeight rr = getHeight rl + 1) ∨ getHeight t = 0)

theorem growthInfo_iff {t res : AVLTree} {key : String} :
    GrowthInfo t res key ↔
      (getHeight res = getHeight t + 1 →
        ∃ rk rv rl rr rh, res = .node rk rv rl rr rh ∧
          ((key < rk ∧ getHeight rl = getHeight rr + 1) ∨
            (rk < key ∧ getHeight rr = getHeight rl + 1) ∨ getHeight t = 0)) :=
  Iff.rfl

/-- Main preservation theorem for `insertHelper`: on a well-formed tree it
preserves ordering, stored-height correctness and balance; the stored height
grows by at most one; every key bound satisfied by the tree and the new key is
satisfied by the result; and the growth-shape information of `GrowthInfo`. -/
theorem insertHelper_main (key : String) (value : Int) :
    ∀ t : AVLTree, orderedB t = true → heightInv t = true → balancedB t = true →
      (orderedB (insertHelper t key value) = true ∧
        heightInv (insertHelper t key value) = true ∧
        balancedB (insertHelper t key value) = true) ∧
      (getHeight (insertHelper t key value) = getHeight t ∨
        getHeight (insertHelper t key value) = getHeight t + 1) ∧
      (∀ p : String → Bool, allKeys p t = true → p key = true →
        allKeys p (insertHelper t key value) = true) ∧
      GrowthInfo t (insertHelper t key value) key := by
  intro t
  induction t with
  | nil =>
    intro _ _ _
    refine ⟨⟨by simp [insertHelper, orderedB, allKeys],
      by simp [insertHelper, heightInv],
      by simp [insertHelper, balancedB]⟩,
      Or.inr (by simp [insertHelper]), ?_, ?_⟩
    · intro p _ hpk
      simp [insertHelper, allKeys, hpk]
    · rw [growthInfo_iff]
      intro _
      exact ⟨key, value, .nil, .nil, 1, rfl, Or.inr (Or.inr rfl)⟩
  | node k v l r h ihl ihr =>
    intro hO hH hB
    rcases orderedB_node.mp hO with ⟨hall_l, hall_r, hOl, hOr⟩
    rcases heightInv_node.mp hH with ⟨hHl, hHr, hEq⟩
    rcases balancedB_node.mp hB with ⟨hBl, hBr, hb1, hb2⟩
    rcases lt_trichotomy key k with hlt | hkeq | hgt
    · -- key < k : insert into the left subtree
      have hstep : insertHelper (.node k v l r h) key value =
          rebalanceInsert (.node k v (insertHelper l key value) r h) key := by
        simp only [insertHelper]
        rw [if_pos hlt]
      rcases ihl hOl hHl hBl with ⟨⟨iO, iH, iB⟩, iHt, iP, iG⟩
      set L := insertHelper l key value with hLdef
      clear ihr
      have hallL : allKeys (fun x => decide (x < k)) L = true :=
        iP _ hall_l (by simpa using hlt)
      rcases iHt with hsame | hgrow
      · -- left subtree height unchanged: no rotation
        have hnr : rebalanceInsert (.node k v L r h) key =
            .node k v L r (1 + max (getHeight L) (getHeight r)) :=
          rebalanceInsert_noRotate (by omega) (by omega)
        rw [hstep, hnr]
        refine ⟨⟨orderedB_node.mpr ⟨hallL, hall_r, iO, hOr⟩,
          heightInv_node.mpr ⟨iH, hHr, rfl⟩,
          balancedB_node.mpr ⟨iB, hBr, by omega, by omega⟩⟩, ?_, ?_, ?_⟩
        · left
          simp only [getHeight_node]
          omega
        · intro p hp hpk
          rcases allKeys_node.mp hp with ⟨hpk', hpl, hpr⟩
          exact allKeys_node.mpr ⟨hpk', iP p hpl hpk, hpr⟩
        · rw [growthInfo_iff]
          intro hgg
          simp only [getHeight_node] at hgg
          exact absurd hgg (by omega)
      · -- left subtree height grew by one
        by_cases hlb : getHeight L ≤ getHeight r + 1
        · -- still balanced: no rotation
          have hnr : rebalanceInsert (.node k v L r h) key =
              .node k v L r (1 + max (getHeight L) (getHeight r)) :=
            rebalanceInsert_noRotate hlb (by omega)
          rw [hstep, hnr]
          refine ⟨⟨orderedB_node.mpr ⟨hallL, hall_r, iO, hOr⟩,
            heightInv_node.mpr ⟨iH, hHr, rfl⟩,
            balancedB_node.mpr ⟨iB, hBr, hlb, by omega⟩⟩, ?_, ?_, ?_⟩
          · simp only [getHeight_node]
            omega
          · intro p hp hpk
            rcases allKeys_node.mp hp with ⟨hpk', hpl, hpr⟩
            exact allKeys_node.mpr ⟨hpk', iP p hpl hpk, hpr⟩
          · rw [growthInfo_iff]
            intro hgg
            simp only [getHeight_node] at hgg
            exact ⟨k, v, L, r, _, rfl, Or.inl ⟨hlt, by omega⟩⟩
        · -- imbalance of two: a rotation fires
          have hL2 : getHeight L = getHeight r + 2 := by omega
          rcases growthInfo_iff.mp iG (by omega) with ⟨rk, rv, rl, rr, rh, hLeq, hshape⟩
          clear iG
          have hrh : rh = getHeight r + 2 := by rw [hLeq] at hL2; exact hL2
          have hrhg : rh = getHeight l + 1 := by
            rw [hLeq] at hgrow; exact hgrow
          rw [hLeq] at hstep iO iH iB hallL iP
          rcases orderedB_node.mp iO with ⟨hrk_l, hrk_r, hOrl, hOrr⟩
          rcases heightInv_node.mp iH with ⟨hHrl, hHrr, hEqL⟩
          rcases balancedB_node.mp iB with ⟨hBrl, hBrr, hbL1, hbL2⟩
          rcases allKeys_node.mp hallL with ⟨hrkk', hall_rl, hall_rr⟩
          simp only [decide_eq_true_eq] at hrkk'
          rcases hshape with ⟨hkrk, hside⟩ | ⟨hrkk, hside⟩ | hzero
          · -- left-left case: single right rotation
            have hrot : rebalanceInsert (.node k v (.node rk rv rl rr rh) r h) key =
                rightRotate (.node k v (.node rk rv rl rr rh) r
                  (1 + max (getHeight (AVLTree.node rk rv rl rr rh)) (getHeight r))) := by
              rw [rebalanceInsert_node, if_pos]
              constructor
              · simp only [getHeight_node]
                omega
              · simpa using hkrk
            obtain ⟨sO, sH, sB, sHt, sP⟩ :=
              rightRotate_spec (k := k) (v := v) (o := rv)
                hOrl hOrr hOr hHrl hHrr hHr hBrl hBrr hBr
                hrk_l hrk_r hrkk' hall_rr hall_r
                (by omega) (by omega) (by omega) (by omega)
            rw [hstep, hrot]
            refine ⟨⟨sO, sH, sB⟩, ?_, ?_, ?_⟩
            · left
              rw [sHt]
              simp only [getHeight_node]
              omega
            · intro p hp hpk
              rcases allKeys_node.mp hp with ⟨hpk', hpl, hpr⟩
              rcases allKeys_node.mp (iP p hpl hpk) with ⟨hprk, hprl, hprr⟩
              exact sP p hpk' hprk hprl hprr hpr
            · rw [growthInfo_iff]
              intro hgg
              rw [sHt] at hgg
              simp only [getHeight_node] at hgg
              exact absurd hgg (by omega)
          · -- left-right case: double rotation
            rcases rr with - | ⟨ck, cv, cl, cr, ch⟩
            · exact absurd hside (by simp)
            simp only [getHeight_node] at hEqL hbL1 hbL2 hside
            rcases orderedB_node.mp hOrr with ⟨hck_l, hck_r, hOcl, hOcr⟩
            rcases heightInv_node.mp hHrr with ⟨hHcl, hHcr, hEqC⟩
            rcases balancedB_node.mp hBrr with ⟨hBcl, hBcr, hbC1, hbC2⟩
            rcases allKeys_node.mp hall_rr with ⟨hckk', hall_cl, hall_cr⟩
            rcases allKeys_node.mp hrk_r with ⟨hrkck, hrk_cl, hrk_cr⟩
            simp only [decide_eq_true_eq] at hckk' hrkck
            have hrot : rebalanceInsert
                (.node k v (.node rk rv rl (.node ck cv cl cr ch) rh) r h) key =
                rightRotate (.node k v
                  (leftRotate (.node rk rv rl (.node ck cv cl cr ch) rh)) r
                  (1 + max (getHeight (AVLTree.node rk rv rl
                    (.node ck cv cl cr ch) rh)) (getHeight r))) := by
              rw [rebalanceInsert_node,
                if_neg (fun hc => absurd hc.2 (by simpa using lt_asymm hrkk)),
                if_neg (fun hc => absurd hc.1 (by simp only [getHeight_node]; omega)),
                if_pos]
              constructor
              · simp only [getHeight_node]
                omega
              · simpa using hrkk
            rw [hstep, hrot, leftRotate_node]
            have hOal : orderedB (.node rk rv rl cl
                (max (getHeight rl) (getHeight cl) + 1)) = true :=
              orderedB_node.mpr ⟨hrk_l, hrk_cl, hOrl, hOcl⟩
            have hHal : heightInv (.node rk rv rl cl
                (max (getHeight rl) (getHeight cl) + 1)) = true :=
              heightInv_node.mpr ⟨hHrl, hHcl, by omega⟩
            have hBal : balancedB (.node rk rv rl cl
                (max (getHeight rl) (getHeight cl) + 1)) = true :=
              balancedB_node.mpr ⟨hBrl, hBcl, by omega, by omega⟩
            have hak_l : allKeys (fun x => decide (x < ck)) (.node rk rv rl cl
                (max (getHeight rl) (getHeight cl) + 1)) = true := by
              refine allKeys_node.mpr ⟨by simpa using hrkck, ?_, hck_l⟩
              exact allKeys_mono (fun x hx => by
                simp only [decide_eq_true_eq] at hx ⊢
                exact lt_trans hx hrkck) hrk_l
            obtain ⟨sO, sH, sB, sHt, sP⟩ :=
              rightRotate_spec (k := k) (v := v) (o := cv)
                hOal hOcr hOr hHal hHcr hHr hBal hBcr hBr
                hak_l hck_r hckk' hall_cr hall_r
                (by omega) (by omega)
                (by simp only [getHeight_node]; omega)
                (by simp only [getHeight_node]; omega)
            refine ⟨⟨sO, sH, sB⟩, ?_, ?_, ?_⟩
            · left
              rw [sHt]
              simp only [getHeight_node]
              omega
            · intro p hp hpk
              rcases allKeys_node.mp hp with ⟨hpk', hpl, hpr⟩
              rcases allKeys_node.mp (iP p hpl hpk) with ⟨hprk, hprl, hprr⟩
              rcases allKeys_node.mp hprr with ⟨hpck, hpcl, hpcr⟩
              refine sP p hpk' hpck ?_ hpcr hpr
              exact allKeys_node.mpr ⟨hprk, hprl, hpcl⟩
            · rw [growthInfo_iff]
              intro hgg
              rw [sHt] at hgg
              simp only [getHeight_node] at hgg
              exact absurd hgg (by omega)
          · -- the grown subtree cannot have been empty
            exact absurd hzero (by omega)
    · -- key already present at this node: value overwritten in place
      subst hkeq
      have hstep : insertHelper (.node key v l r h) key value =
          .node key value l r h := by
        simp only [insertHelper]
        rw [if_neg (lt_irrefl key), if_neg (lt_irrefl key)]
      rw [hstep]
      refine ⟨⟨orderedB_node.mpr ⟨hall_l, hall_r, hOl, hOr⟩,
        heightInv_node.mpr ⟨hHl, hHr, hEq⟩,
        balancedB_node.mpr ⟨hBl, hBr, hb1, hb2⟩⟩,
        Or.inl rfl, ?_, ?_⟩
      · intro p hp hpk
        rcases allKeys_node.mp hp with ⟨hpk', hpl, hpr⟩
        exact allKeys_node.mpr ⟨hpk', hpl, hpr⟩
      · rw [growthInfo_iff]
        intro hgg
        simp only [getHeight_node] at hgg
        omega
    · -- k < key : insert into the right subtree
      have hstep : insertHelper (.node k v l r h) key value =
          rebalanceInsert (.node k v l (insertHelper r key value) h) key := by
        simp only [insertHelper]
        rw [if_neg (lt_asymm hgt), if_pos hgt]
      rcases ihr hOr hHr hBr with ⟨⟨iO, iH, iB⟩, iHt, iP, iG⟩
      set R := insertHelper r key value with hRdef
      clear ihl
      have hallR : allKeys (fun x => decide (k < x)) R = true :=
        iP _ hall_r (by simpa using hgt)
      rcases iHt with hsame | hgrow
      · have hnr : rebalanceInsert (.node k v l R h) key =
            .node k v l R (1 + max (getHeight l) (getHeight R)) :=
          rebalanceInsert_noRotate (by omega) (by omega)
        rw [hstep, hnr]
        refine ⟨⟨orderedB_node.mpr ⟨hall_l, hallR, hOl, iO⟩,
          heightInv_node.mpr ⟨hHl, iH, rfl⟩,
          balancedB_node.mpr ⟨hBl, iB, by omega, by omega⟩⟩, ?_, ?_, ?_⟩
        · left
          simp only [getHeight_node]
          omega
        · intro p hp hpk
          rcases allKeys_node.mp hp with ⟨hpk', hpl, hpr⟩
          exact allKeys_node.mpr ⟨hpk', hpl, iP p hpr hpk⟩
        · rw [growthInfo_iff]
          intro hgg
          simp only [getHeight_node] at hgg
          exact absurd hgg (by omega)
      · by_cases hrb : getHeight R ≤ getHeight l + 1
        · have hnr : rebalanceInsert (.node k v l R h) key =
              .node k v l R (1 + max (getHeight l) (getHeight R)) :=
            rebalanceInsert_noRotate (by omega) hrb
          rw [hstep, hnr]
          refine ⟨⟨orderedB_node.mpr ⟨hall_l, hallR, hOl, iO⟩,
            heightInv_node.mpr ⟨hHl, iH, rfl⟩,
            balancedB_node.mpr ⟨hBl, iB, by omega, hrb⟩⟩, ?_, ?_, ?_⟩
          · simp only [getHeight_node]
            omega
          · intro p hp hpk
            rcases allKeys_node.mp hp with ⟨hpk', hpl, hpr⟩
            exact allKeys_node.mpr ⟨hpk', hpl, iP p hpr hpk⟩
          · rw [growthInfo_iff]
            intro hgg
            simp only [getHeight_node] at hgg
            exact ⟨k, v, l, R, _, rfl, Or.inr (Or.inl ⟨hgt, by omega⟩)⟩
        · have hR2 : getHeight R = getHeight l + 2 := by omega
          rcases growthInfo_iff.mp iG (by omega) with ⟨rk, rv, rl, rr, rh, hReq, hshape⟩
          clear iG
          have hrh : rh = getHeight l + 2 := by rw [hReq] at hR2; exact hR2
          have hrhg : rh = getHeight r + 1 := by
            rw [hReq] at hgrow; exact hgrow
          rw [hReq] at hstep iO iH iB hallR iP
          rcases orderedB_node.mp iO with ⟨hrk_l, hrk_r, hOrl, hOrr⟩
          rcases heightInv_node.mp iH with ⟨hHrl, hHrr, hEqR⟩
          rcases balancedB_node.mp iB with ⟨hBrl, hBrr, hbR1, hbR2⟩
          rcases allKeys_node.mp hallR with ⟨hrkk', hall_rl, hall_rr⟩
          simp only [decide_eq_true_eq] at hrkk'
          rcases hshape with ⟨hkrk, hside⟩ | ⟨hrkk, hside⟩ | hzero
          · -- right-left case: double rotation
            rcases rl with - | ⟨ck, cv, cl, cr, ch⟩
            · exact absurd hside (by simp)
            simp only [getHeight_node] at hEqR hbR1 hbR2 hside
            rcases orderedB_node.mp hOrl with ⟨hck_l, hck_r, hOcl, hOcr⟩
            rcases heightInv_node.mp hHrl with ⟨hHcl, hHcr, hEqC⟩
            rcases balancedB_node.mp hBrl with ⟨hBcl, hBcr, hbC1, hbC2⟩
            rcases allKeys_node.mp hall_rl with ⟨hckk', hall_cl, hall_cr⟩
            rcases allKeys_node.mp hrk_l with ⟨hrkck, hrk_cl, hrk_cr⟩
            simp only [decide_eq_true_eq] at hckk' hrkck
            have hrot : rebalanceInsert
                (.node k v l (.node rk rv (.node ck cv cl cr ch) rr rh) h) key =
                leftRotate (.node k v l
                  (rightRotate (.node rk rv (.node ck cv cl cr ch) rr rh))
                  (1 + max (getHeight l) (getHeight (AVLTree.node rk rv
                    (.node ck cv cl cr ch) rr rh)))) := by
              rw [rebalanceInsert_node,
                if_neg (fun hc => absurd hc.1 (by simp only [getHeight_node]; omega)),
                if_neg (fun hc => absurd hc.2 (by simpa using lt_asymm hkrk)),
                if_neg (fun hc => absurd hc.1 (by simp only [getHeight_node]; omega)),
                if_pos]
              constructor
              · simp only [getHeight_node]
                omega
              · simpa using hkrk
            rw [hstep, hrot, rightRotate_node]
            have hObr : orderedB (.node rk rv cr rr
                (max (getHeight cr) (getHeight rr) + 1)) = true :=
              orderedB_node.mpr ⟨hrk_cr, hrk_r, hOcr, hOrr⟩
            have hHbr : heightInv (.node rk rv cr rr
                (max (getHeight cr) (getHeight rr) + 1)) = true :=
              heightInv_node.mpr ⟨hHcr, hHrr, by omega⟩
            have hBbr : balancedB (.node rk rv cr rr
                (max (getHeight cr) (getHeight rr) + 1)) = true :=
              balancedB_node.mpr ⟨hBcr, hBrr, by omega, by omega⟩
            have hbk_r : allKeys (fun x => decide (ck < x)) (.node rk rv cr rr
                (max (getHeight cr) (getHeight rr) + 1)) = true := by
              refine allKeys_node.mpr ⟨by simpa using hrkck, hck_r, ?_⟩
              exact allKeys_mono (fun x hx => by
                simp only [decide_eq_true_eq] at hx ⊢
                exact lt_trans hrkck hx) hrk_r
            obtain ⟨sO, sH, sB, sHt, sP⟩ :=
              leftRotate_spec (k := k) (v := v) (o := cv)
                hOl hOcl hObr hHl hHcl hHbr hBl hBcl hBbr
                hck_l hbk_r hckk' hall_l hall_cl
                (by omega) (by omega)
                (by simp only [getHeight_node]; omega)
                (by simp only [getHeight_node]; omega)
            refine ⟨⟨sO, sH, sB⟩, ?_, ?_, ?_⟩
            · left
              rw [sHt]
              simp only [getHeight_node]
              omega
            · intro p hp hpk
              rcases allKeys_node.mp hp with ⟨hpk', hpl, hpr⟩
              rcases allKeys_node.mp (iP p hpr hpk) with ⟨hprk, hprl, hprr⟩
              rcases allKeys_node.mp hprl with ⟨hpck, hpcl, hpcr⟩
              refine sP p hpk' hpck hpl hpcl ?_
              exact allKeys_node.mpr ⟨hprk, hpcr, hprr⟩
            · rw [growthInfo_iff]
              intro hgg
              rw [sHt] at hgg
              simp only [getHeight_node] at hgg
              exact absurd hgg (by omega)
          · -- right-right case: single left rotation
            have hrot : rebalanceInsert (.node k v l (.node rk rv rl rr rh) h) key =
                leftRotate (.node k v l (.node rk rv rl rr rh)
                  (1 + max (getHeight l)
                    (getHeight (AVLTree.node rk rv rl rr rh)))) := by
              rw [rebalanceInsert_node,
                if_neg (fun hc => absurd hc.1 (by simp only [getHeight_node]; omega)),
                if_pos]
              constructor
              · simp only [getHeight_node]
                omega
              · simpa using hrkk
            obtain ⟨sO, sH, sB, sHt, sP⟩ :=
              leftRotate_spec (k := k) (v := v) (o := rv)
                hOl hOrl hOrr hHl hHrl hHrr hBl hBrl hBrr
                hrk_l hrk_r hrkk' hall_l hall_rl
                (by omega) (by omega) (by omega) (by omega)
            rw [hstep, hrot]
            refine ⟨⟨sO, sH, sB⟩, ?_, ?_, ?_⟩
            · left
              rw [sHt]
              simp only [getHeight_node]
              omega
            · intro p hp hpk
              rcases allKeys_node.mp hp with ⟨hpk', hpl, hpr⟩
              rcases allKeys_node.mp (iP p hpr hpk) with ⟨hprk, hprl, hprr⟩
              exact sP p hpk' hprk hpl hprl hprr
            · rw [growthInfo_iff]
              intro hgg
              rw [sHt] at hgg
              simp only [getHeight_node] at hgg
              exact absurd hgg (by omega)
          · exact absurd hzero (by omega)

/-! ## AVL tree: delete machinery -/

@[simp] theorem minValueNode_leafleft {k : String} {v : Int} {r : AVLTree}
    {h : Nat} : minValueNode (.node k v .nil r h) = (k, v) := rfl

@[simp] theorem minValueNode_nodeleft {k lk : String} {v lv : Int}
    {ll lr r : AVLTree} {lh h : Nat} :
    minValueNode (.node k v (.node lk lv ll lr lh) r h) =
      minValueNode (.node lk lv ll lr lh) := rfl

theorem minValueNode_allKeys {p : String → Bool} :
    ∀ {t : AVLTree}, t ≠ .nil → allKeys p t = true →
      p (minValueNode t).1 = true := by
  intro t
  induction t with
  | nil => intro hne; exact absurd rfl hne
  | node k v l r h ihl ihr =>
    intro _ hall
    rcases allKeys_node.mp hall with ⟨hpk, hpl, hpr⟩
    cases l with
    | nil => simpa using hpk
    | node lk lv ll lr lh =>
      rw [minValueNode_nodeleft]
      exact ihl (by simp) hpl

theorem minValueNode_le :
    ∀ {t : AVLTree}, orderedB t = true →
      allKeys (fun x => decide ((minValueNode t).1 ≤ x)) t = true := by
  intro t
  induction t with
  | nil => intro _; simp
  | node k v l r h ihl ihr =>
    intro hO
    rcases orderedB_node.mp hO with ⟨hall_l, hall_r, hOl, hOr⟩
    cases l with
    | nil =>
      rw [minValueNode_leafleft]
      refine allKeys_node.mpr ⟨by simp, by simp, ?_⟩
      exact allKeys_mono (fun x hx => by
        simp only [decide_eq_true_eq] at hx ⊢
        exact le_of_lt hx) hall_r
    | node lk lv ll lr lh =>
      rw [minValueNode_nodeleft]
      have hmk : (minValueNode (.node lk lv ll lr lh)).1 < k := by
        have := minValueNode_allKeys (p := fun x => decide (x < k))
          (t := .node lk lv ll lr lh) (by simp) hall_l
        simpa using this
      refine allKeys_node.mpr ⟨by simpa using le_of_lt hmk, ihl hOl, ?_⟩
      exact allKeys_mono (fun x hx => by
        simp only [decide_eq_true_eq] at hx ⊢
        exact le_of_lt (lt_trans hmk hx)) hall_r

theorem rebalanceDelete_node {k : String} {v : Int} {A B : AVLTree} {h₀ : Nat} :
    rebalanceDelete (.node k v A B h₀) =
      (if 1 < (getHeight A : Int) - getHeight B ∧ 0 ≤ getBalance A then
        rightRotate (.node k v A B (1 + max (getHeight A) (getHeight B)))
      else if 1 < (getHeight A : Int) - getHeight B ∧ getBalance A < 0 then
        rightRotate (.node k v (leftRotate A) B (1 + max (getHeight A) (getHeight B)))
      else if (getHeight A : Int) - getHeight B < -1 ∧ getBalance B ≤ 0 then
        leftRotate (.node k v A B (1 + max (getHeight A) (getHeight B)))
      else if (getHeight A : Int) - getHeight B < -1 ∧ 0 < getBalance B then
        leftRotate (.node k v A (rightRotate B) (1 + max (getHeight A) (getHeight B)))
      else .node k v A B (1 + max (getHeight A) (getHeight B))) := rfl

theorem rebalanceDelete_noRotate {k : String} {v : Int} {A B : AVLTree}
    {z : Nat}
    (c1 : getHeight A ≤ getHeight B + 1) (c2 : getHeight B ≤ getHeight A + 1) :
    rebalanceDelete (.node k v A B z) =
      .node k v A B (1 + max (getHeight A) (getHeight B)) := by
  rw [rebalanceDelete_node,
    if_neg (fun hc => absurd hc.1 (by omega)),
    if_neg (fun hc => absurd hc.1 (by omega)),
    if_neg (fun hc => absurd hc.1 (by omega)),
    if_neg (fun hc => absurd hc.1 (by omega))]

/-- On an already well-formed tree the delete-rebalancing step is the
identity: the recomputed height coincides with the stored one and no rotation
condition fires. -/
theorem rebalanceDelete_self {t : AVLTree} (hH : heightInv t = true)
    (hB : balancedB t = true) : rebalanceDelete t = t := by
  cases t with
  | nil => rfl
  | node k v l r h =>
    rcases heightInv_node.mp hH with ⟨_, _, hEq⟩
    rcases balancedB_node.mp hB with ⟨_, _, hb1, hb2⟩
    rw [rebalanceDelete_noRotate hb1 hb2, hEq]

theorem deleteHelper_lt {k : String} {v : Int} {l r : AVLTree} {h : Nat}
    {key : String} (hlt : key < k) :
    deleteHelper (.node k v l r h) key =
      rebalanceDelete (.node k v (deleteHelper l key) r h) := by
  cases l <;> cases r <;>
    · simp only [deleteHelper]
      rw [if_pos hlt]

theorem deleteHelper_gt {k : String} {v : Int} {l r : AVLTree} {h : Nat}
    {key : String} (hgt : k < key) :
    deleteHelper (.node k v l r h) key =
      rebalanceDelete (.node k v l (deleteHelper r key) h) := by
  cases l <;> cases r <;>
    · simp only [deleteHelper]
      rw [if_neg (lt_asymm hgt), if_pos hgt]

theorem deleteHelper_self_nil_left {k : String} {v : Int} {r : AVLTree}
    {h : Nat} :
    deleteHelper (.node k v .nil r h) k = rebalanceDelete r := by
  simp only [deleteHelper]
  rw [if_neg (lt_irrefl k), if_neg (lt_irrefl k)]

theorem deleteHelper_self_left_nil {k lk : String} {v lv : Int}
    {ll lr : AVLTree} {lh h : Nat} :
    deleteHelper (.node k v (.node lk lv ll lr lh) .nil h) k =
      rebalanceDelete (.node lk lv ll lr lh) := by
  simp only [deleteHelper]
  rw [if_neg (lt_irrefl k), if_neg (lt_irrefl k)]

theorem deleteHelper_self_two {k lk rk : String} {v lv rv : Int}
    {ll lr rl rr : AVLTree} {lh rh h : Nat} :
    deleteHelper (.node k v (.node lk lv ll lr lh) (.node rk rv rl rr rh) h) k =
      rebalanceDelete (.node (minValueNode (.node rk rv rl rr rh)).1
        (minValueNode (.node rk rv rl rr rh)).2
        (.node lk lv ll lr lh)
        (deleteHelper (.node rk rv rl rr rh)
          (minValueNode (.node rk rv rl rr rh)).1) h) := by
  simp only [deleteHelper]
  rw [if_neg (lt_irrefl k), if_neg (lt_irrefl k)]

/-- Main preservation theorem for `deleteHelper`: on a well-formed tree it
preserves ordering, stored-height correctness and balance; the stored height
shrinks by at most one; every key bound satisfied by the tree is satisfied by
the result; and (thanks to the BST ordering) the deleted key is gone. -/
theorem deleteHelper_main :
    ∀ t : AVLTree, orderedB t = true → heightInv t = true → balancedB t = true →
      ∀ key : String,
      (orderedB (deleteHelper t key) = true ∧
        heightInv (deleteHelper t key) = true ∧
        balancedB (deleteHelper t key) = true) ∧
      (getHeight t = getHeight (deleteHelper t key) ∨
        getHeight t = getHeight (deleteHelper t key) + 1) ∧
      (∀ p : String → Bool, allKeys p t = true →
        allKeys p (deleteHelper t key) = true) ∧
      allKeys (fun x => decide (x ≠ key)) (deleteHelper t key) = true := by
  intro t
  induction t with
  | nil =>
    intro _ _ _ key
    refine ⟨⟨by simp [deleteHelper], by simp [deleteHelper],
      by simp [deleteHelper]⟩, Or.inl (by simp [deleteHelper]), ?_,
      by simp [deleteHelper]⟩
    intro p _
    simp [deleteHelper]
  | node k v l r h ihl ihr =>
    intro hO hH hB key
    rcases orderedB_node.mp hO with ⟨hall_l, hall_r, hOl, hOr⟩
    rcases heightInv_node.mp hH with ⟨hHl, hHr, hEq⟩
    rcases balancedB_node.mp hB with ⟨hBl, hBr, hb1, hb2⟩
    rcases lt_trichotomy key k with hlt | hkeq | hgt
    · -- key < k : delete from the left subtree
      have hstep := deleteHelper_lt (k := k) (v := v) (l := l) (r := r)
        (h := h) hlt
      rcases ihl hOl hHl hBl key with ⟨⟨iO, iH, iB⟩, iHt, iP, iN⟩
      set L := deleteHelper l key with hLdef
      clear ihl ihr
      have hlb1 : getHeight L ≤ getHeight l := by
        rcases iHt with h' | h' <;> omega
      have hlb2 : getHeight l ≤ getHeight L + 1 := by
        rcases iHt with h' | h' <;> omega
      have hallL : allKeys (fun x => decide (x < k)) L = true := iP _ hall_l
      have hLle : getHeight L ≤ getHeight r + 1 := by omega
      by_cases hc : getHeight r ≤ getHeight L + 1
      · -- still balanced: no rotation
        have hnr := rebalanceDelete_noRotate (k := k) (v := v) (A := L)
          (B := r) (z := h) hLle hc
        rw [hstep, hnr]
        refine ⟨⟨orderedB_node.mpr ⟨hallL, hall_r, iO, hOr⟩,
          heightInv_node.mpr ⟨iH, hHr, rfl⟩,
          balancedB_node.mpr ⟨iB, hBr, hLle, hc⟩⟩, ?_, ?_, ?_⟩
        · simp only [getHeight_node]
          omega
        · intro p hp
          rcases allKeys_node.mp hp with ⟨hpk, hpl, hpr⟩
          exact allKeys_node.mpr ⟨hpk, iP p hpl, hpr⟩
        · refine allKeys_node.mpr ⟨by simpa using ne_of_gt hlt, iN, ?_⟩
          exact allKeys_mono (fun x hx => by
            simp only [decide_eq_true_eq] at hx ⊢
            exact ne_of_gt (lt_trans hlt hx)) hall_r
      · -- the right subtree is now two taller
        have hr2 : getHeight r = getHeight L + 2 := by omega
        rcases r with - | ⟨rk, rv, rl, rr, rh⟩
        · simp only [getHeight_nil] at hr2
          omega
        simp only [getHeight_node] at hr2 hc hb1 hb2 hEq hLle
        rcases orderedB_node.mp hOr with ⟨hrk_l, hrk_r, hOrl, hOrr⟩
        rcases heightInv_node.mp hHr with ⟨hHrl, hHrr, hEqR⟩
        rcases balancedB_node.mp hBr with ⟨hBrl, hBrr, hbR1, hbR2⟩
        rcases allKeys_node.mp hall_r with ⟨hkrk', hall_rl, hall_rr⟩
        simp only [decide_eq_true_eq] at hkrk'
        by_cases hgb : getHeight rl ≤ getHeight rr
        · -- single left rotation
          have hrot : rebalanceDelete (.node k v L (.node rk rv rl rr rh) h) =
              leftRotate (.node k v L (.node rk rv rl rr rh)
                (1 + max (getHeight L)
                  (getHeight (AVLTree.node rk rv rl rr rh)))) := by
            rw [rebalanceDelete_node,
              if_neg (fun hc' => absurd hc'.1
                (by simp only [getHeight_node]; omega)),
              if_neg (fun hc' => absurd hc'.1
                (by simp only [getHeight_node]; omega)),
              if_pos ⟨by simp only [getHeight_node]; omega,
                by simp only [getBalance_node]; omega⟩]
          obtain ⟨sO, sH, sB, sHt, sP⟩ :=
            leftRotate_spec (k := k) (v := v) (o := rv)
              iO hOrl hOrr iH hHrl hHrr iB hBrl hBrr
              hrk_l hrk_r hkrk' hallL hall_rl
              (by omega) (by omega) (by omega) (by omega)
          rw [hstep, hrot]
          refine ⟨⟨sO, sH, sB⟩, ?_, ?_, ?_⟩
          · rw [sHt]
            simp only [getHeight_node]
            omega
          · intro p hp
            rcases allKeys_node.mp hp with ⟨hpk, hpl, hpr⟩
            rcases allKeys_node.mp hpr with ⟨hprk, hprl, hprr⟩
            exact sP p hpk hprk (iP p hpl) hprl hprr
          · refine sP _ (by simpa using ne_of_gt hlt)
              (by simpa using ne_of_gt (lt_trans hlt hkrk')) iN ?_ ?_
            · exact allKeys_mono (fun x hx => by
                simp only [decide_eq_true_eq] at hx ⊢
                exact ne_of_gt (lt_trans hlt hx)) hall_rl
            · exact allKeys_mono (fun x hx => by
                simp only [decide_eq_true_eq] at hx ⊢
                exact ne_of_gt (lt_trans hlt hx)) hall_rr
        · -- double rotation: right child is left-heavy
          have hrlrr : getHeight rl = getHeight rr + 1 := by omega
          rcases rl with - | ⟨ck, cv, cl, cr, ch⟩
          · simp only [getHeight_nil] at hrlrr
            omega
          simp only [getHeight_node] at hrlrr hEqR hbR1 hbR2 hgb
          rcases orderedB_node.mp hOrl with ⟨hck_l, hck_r, hOcl, hOcr⟩
          rcases heightInv_node.mp hHrl with ⟨hHcl, hHcr, hEqC⟩
          rcases balancedB_node.mp hBrl with ⟨hBcl, hBcr, hbC1, hbC2⟩
          rcases allKeys_node.mp hall_rl with ⟨hckk', hall_cl, hall_cr⟩
          rcases allKeys_node.mp hrk_l with ⟨hckrk, hrk_cl, hrk_cr⟩
          simp only [decide_eq_true_eq] at hckk' hckrk
          have hrot : rebalanceDelete
              (.node k v L (.node rk rv (.node ck cv cl cr ch) rr rh) h) =
              leftRotate (.node k v L
                (rightRotate (.node rk rv (.node ck cv cl cr ch) rr rh))
                (1 + max (getHeight L) (getHeight (AVLTree.node rk rv
                  (.node ck cv cl cr ch) rr rh)))) := by
            rw [rebalanceDelete_node,
              if_neg (fun hc' => absurd hc'.1
                (by simp only [getHeight_node]; omega)),
              if_neg (fun hc' => absurd hc'.1
                (by simp only [getHeight_node]; omega)),
              if_neg (fun hc' => absurd hc'.2
                (by simp only [getBalance_node, getHeight_node]; omega)),
              if_pos ⟨by simp only [getHeight_node]; omega,
                by simp only [getBalance_node, getHeight_node]; omega⟩]
          rw [hstep, hrot, rightRotate_node]
          have hObr : orderedB (.node rk rv cr rr
              (max (getHeight cr) (getHeight rr) + 1)) = true :=
            orderedB_node.mpr ⟨hrk_cr, hrk_r, hOcr, hOrr⟩
          have hHbr : heightInv (.node rk rv cr rr
              (max (getHeight cr) (getHeight rr) + 1)) = true :=
            heightInv_node.mpr ⟨hHcr, hHrr, by omega⟩
          have hBbr : balancedB (.node rk rv cr rr
              (max (getHeight cr) (getHeight rr) + 1)) = true :=
            balancedB_node.mpr ⟨hBcr, hBrr, by omega, by omega⟩
          have hbk_r : allKeys (fun x => decide (ck < x)) (.node rk rv cr rr
              (max (getHeight cr) (getHeight rr) + 1)) = true := by
            refine allKeys_node.mpr ⟨by simpa using hckrk, hck_r, ?_⟩
            exact allKeys_mono (fun x hx => by
              simp only [decide_eq_true_eq] at hx ⊢
              exact lt_trans hckrk hx) hrk_r
          obtain ⟨sO, sH, sB, sHt, sP⟩ :=
            leftRotate_spec (k := k) (v := v) (o := cv)
              iO hOcl hObr iH hHcl hHbr iB hBcl hBbr
              hck_l hbk_r hckk' hallL hall_cl
              (by omega) (by omega)
              (by simp only [getHeight_node]; omega)
              (by simp only [getHeight_node]; omega)
          refine ⟨⟨sO, sH, sB⟩, ?_, ?_, ?_⟩
          · rw [sHt]
            simp only [getHeight_node]
            omega
          · intro p hp
            rcases allKeys_node.mp hp with ⟨hpk, hpl, hpr⟩
            rcases allKeys_node.mp hpr with ⟨hprk, hprl, hprr⟩
            rcases allKeys_node.mp hprl with ⟨hpck, hpcl, hpcr⟩
            refine sP p hpk hpck (iP p hpl) hpcl ?_
            exact allKeys_node.mpr ⟨hprk, hpcr, hprr⟩
          · refine sP _ (by simpa using ne_of_gt hlt)
              (by simpa using ne_of_gt (lt_trans hlt hckk')) iN ?_ ?_
            · exact allKeys_mono (fun x hx => by
                simp only [decide_eq_true_eq] at hx ⊢
                exact ne_of_gt (lt_trans hlt hx)) hall_cl
            · refine allKeys_node.mpr
                ⟨by simpa using ne_of_gt (lt_trans hlt hkrk'), ?_, ?_⟩
              · exact allKeys_mono (fun x hx => by
                  simp only [decide_eq_true_eq] at hx ⊢
                  exact ne_of_gt (lt_trans hlt hx)) hall_cr
              · exact allKeys_mono (fun x hx => by
                  simp only [decide_eq_true_eq] at hx ⊢
                  exact ne_of_gt (lt_trans hlt hx)) hall_rr
    · -- key = k : this node is deleted
      subst hkeq
      rcases l with - | ⟨lk, lv, ll, lr, lh⟩
      · -- no left child: the node is replaced by its right subtree
        rw [deleteHelper_self_nil_left, rebalanceDelete_self hHr hBr]
        simp only [getHeight_nil] at hEq hb1 hb2
        refine ⟨⟨hOr, hHr, hBr⟩,
          Or.inr (by simp only [getHeight_node]; omega), ?_, ?_⟩
        · intro p hp
          exact (allKeys_node.mp hp).2.2
        · exact allKeys_mono (fun x hx => by
            simp only [decide_eq_true_eq] at hx ⊢
            exact ne_of_gt hx) hall_r
      rcases r with - | ⟨rk, rv, rl, rr, rh⟩
      · -- no right child: the node is replaced by its left subtree
        rw [deleteHelper_self_left_nil, rebalanceDelete_self hHl hBl]
        simp only [getHeight_nil, getHeight_node] at hEq hb1 hb2
        refine ⟨⟨hOl, hHl, hBl⟩, Or.inr (by simp only [getHeight_node]; omega),
          ?_, ?_⟩
        · intro p hp
          exact (allKeys_node.mp hp).2.1
        · exact allKeys_mono (fun x hx => by
            simp only [decide_eq_true_eq] at hx ⊢
            exact ne_of_lt hx) hall_l
      · -- two children: replaced by the in-order successor
        have hne : (AVLTree.node rk rv rl rr rh) ≠ .nil := by simp
        have hks : key < (minValueNode (.node rk rv rl rr rh)).1 := by
          have := minValueNode_allKeys (p := fun x => decide (key < x))
            hne hall_r
          simpa using this
        have hminle := minValueNode_le (t := .node rk rv rl rr rh) hOr
        rcases ihr hOr hHr hBr (minValueNode (.node rk rv rl rr rh)).1 with
          ⟨⟨jO, jH, jB⟩, jHt, jP, jN⟩
        set s1 := (minValueNode (.node rk rv rl rr rh)).1 with hs1def
        set R := deleteHelper (.node rk rv rl rr rh) s1 with hRdef
        clear ihl ihr
        have hrb1 : getHeight R ≤ getHeight (AVLTree.node rk rv rl rr rh) := by
          rcases jHt with h' | h' <;> omega
        have hrb2 : getHeight (AVLTree.node rk rv rl rr rh) ≤
            getHeight R + 1 := by
          rcases jHt with h' | h' <;> omega
        simp only [getHeight_node] at hrb1 hrb2 hEq hb1 hb2
        have hRgt : allKeys (fun x => decide (s1 < x)) R = true := by
          have h1 := jP _ hminle
          exact allKeys_combine
            (fun x hx hy => by
              simp only [decide_eq_true_eq] at hx hy ⊢
              exact lt_of_le_of_ne hx (Ne.symm hy)) h1 jN
        have hlS : allKeys (fun x => decide (x < s1))
            (AVLTree.node lk lv ll lr lh) = true :=
          allKeys_mono (fun x hx => by
            simp only [decide_eq_true_eq] at hx ⊢
            exact lt_trans hx hks) hall_l
        have hRk : allKeys (fun x => decide (key < x)) R = true := jP _ hall_r
        have hstep :=
          @deleteHelper_self_two key lk rk v lv rv ll lr rl rr lh rh h
        rw [← hs1def, ← hRdef] at hstep
        have hRle : getHeight R ≤ getHeight (AVLTree.node lk lv ll lr lh) + 1 := by
          simp only [getHeight_node] at *
          omega
        by_cases hc : getHeight (AVLTree.node lk lv ll lr lh) ≤ getHeight R + 1
        · -- still balanced: no rotation
          have hnr := rebalanceDelete_noRotate (k := s1)
            (v := (minValueNode (.node rk rv rl rr rh)).2)
            (A := .node lk lv ll lr lh) (B := R) (z := h) hc hRle
          rw [hstep, hnr]
          refine ⟨⟨orderedB_node.mpr ⟨hlS, hRgt, hOl, jO⟩,
            heightInv_node.mpr ⟨hHl, jH, rfl⟩,
            balancedB_node.mpr ⟨hBl, jB, hc, hRle⟩⟩, ?_, ?_, ?_⟩
          · simp only [getHeight_node]
            simp only [getHeight_node] at hc hRle
            omega
          · intro p hp
            rcases allKeys_node.mp hp with ⟨hpk, hpl, hpr⟩
            refine allKeys_node.mpr ⟨?_, hpl, jP p hpr⟩
            exact minValueNode_allKeys hne hpr
          · refine allKeys_node.mpr ⟨by simpa using ne_of_gt hks, ?_, ?_⟩
            · exact allKeys_mono (fun x hx => by
                simp only [decide_eq_true_eq] at hx ⊢
                exact ne_of_lt hx) hall_l
            · exact allKeys_mono (fun x hx => by
                simp only [decide_eq_true_eq] at hx ⊢
                exact ne_of_gt hx) hRk
        · -- the left subtree is now two taller
          have hl2 : getHeight (AVLTree.node lk lv ll lr lh) =
              getHeight R + 2 := by
            simp only [getHeight_node] at *
            omega
          simp only [getHeight_node] at hl2 hc hRle
          rcases orderedB_node.mp hOl with ⟨hlk_l, hlk_r, hOll, hOlr⟩
          rcases heightInv_node.mp hHl with ⟨hHll, hHlr, hEqL⟩
          rcases balancedB_node.mp hBl with ⟨hBll, hBlr, hbL1, hbL2⟩
          rcases allKeys_node.mp hlS with ⟨hlks', hall_llS, hall_lrS⟩
          rcases allKeys_node.mp hall_l with ⟨hlkk', hall_ll, hall_lr⟩
          simp only [decide_eq_true_eq] at hlks' hlkk'
          by_cases hgb : getHeight lr ≤ getHeight ll
          · -- single right rotation
            have hrot : rebalanceDelete (.node s1
                (minValueNode (.node rk rv rl rr rh)).2
                (.node lk lv ll lr lh) R h) =
                rightRotate (.node s1 (minValueNode (.node rk rv rl rr rh)).2
                  (.node lk lv ll lr lh) R
                  (1 + max (getHeight (AVLTree.node lk lv ll lr lh))
                    (getHeight R))) := by
              rw [rebalanceDelete_node,
                if_pos ⟨by simp only [getHeight_node]; omega,
                  by simp only [getBalance_node]; omega⟩]
            obtain ⟨sO, sH, sB, sHt, sP⟩ :=
              rightRotate_spec (k := s1)
                (v := (minValueNode (.node rk rv rl rr rh)).2) (o := lv)
                hOll hOlr jO hHll hHlr jH hBll hBlr jB
                hlk_l hlk_r hlks' hall_lrS hRgt
                (by omega) (by omega) (by omega) (by omega)
            rw [hstep, hrot]
            refine ⟨⟨sO, sH, sB⟩, ?_, ?_, ?_⟩
            · rw [sHt]
              simp only [getHeight_node]
              omega
            · intro p hp
              rcases allKeys_node.mp hp with ⟨hpk, hpl, hpr⟩
              rcases allKeys_node.mp hpl with ⟨hplk, hpll, hplr⟩
              exact sP p (minValueNode_allKeys hne hpr) hplk hpll hplr
                (jP p hpr)
            · refine sP _ (by simpa using ne_of_gt hks)
                (by simpa using ne_of_lt hlkk') ?_ ?_ ?_
              · exact allKeys_mono (fun x hx => by
                  simp only [decide_eq_true_eq] at hx ⊢
                  exact ne_of_lt hx) hall_ll
              · exact allKeys_mono (fun x hx => by
                  simp only [decide_eq_true_eq] at hx ⊢
                  exact ne_of_lt hx) hall_lr
              · exact allKeys_mono (fun x hx => by
                  simp only [decide_eq_true_eq] at hx ⊢
                  exact ne_of_gt hx) hRk
          · -- double rotation: left child is right-heavy
            have hlrll : getHeight lr = getHeight ll + 1 := by omega
            rcases lr with - | ⟨ck, cv, cl, cr, ch⟩
            · simp only [getHeight_nil] at hlrll
              omega
            simp only [getHeight_node] at hlrll hEqL hbL1 hbL2 hgb
            rcases orderedB_node.mp hOlr with ⟨hck_l, hck_r, hOcl, hOcr⟩
            rcases heightInv_node.mp hHlr with ⟨hHcl, hHcr, hEqC⟩
            rcases balancedB_node.mp hBlr with ⟨hBcl, hBcr, hbC1, hbC2⟩
            rcases allKeys_node.mp hall_lrS with ⟨hcks', hall_clS, hall_crS⟩
            rcases allKeys_node.mp hall_lr with ⟨hckk', hall_cl, hall_cr⟩
            rcases allKeys_node.mp hlk_r with ⟨hlkck, hlk_cl, hlk_cr⟩
            simp only [decide_eq_true_eq] at hcks' hckk' hlkck
            have hrot : rebalanceDelete (.node s1
                (minValueNode (.node rk rv rl rr rh)).2
                (.node lk lv ll (.node ck cv cl cr ch) lh) R h) =
                rightRotate (.node s1 (minValueNode (.node rk rv rl rr rh)).2
                  (leftRotate (.node lk lv ll (.node ck cv cl cr ch) lh)) R
                  (1 + max (getHeight (AVLTree.node lk lv ll
                    (.node ck cv cl cr ch) lh)) (getHeight R))) := by
              rw [rebalanceDelete_node,
                if_neg (fun hc' => absurd hc'.2
                  (by simp only [getBalance_node, getHeight_node]; omega)),
                if_pos ⟨by simp only [getHeight_node]; omega,
                  by simp only [getBalance_node, getHeight_node]; omega⟩]
            rw [hstep, hrot, leftRotate_node]
            have hOal : orderedB (.node lk lv ll cl
                (max (getHeight ll) (getHeight cl) + 1)) = true :=
              orderedB_node.mpr ⟨hlk_l, hlk_cl, hOll, hOcl⟩
            have hHal : heightInv (.node lk lv ll cl
                (max (getHeight ll) (getHeight cl) + 1)) = true :=
              heightInv_node.mpr ⟨hHll, hHcl, by omega⟩
            have hBal : balancedB (.node lk lv ll cl
                (max (getHeight ll) (getHeight cl) + 1)) = true :=
              balancedB_node.mpr ⟨hBll, hBcl, by omega, by omega⟩
            have hak_l : allKeys (fun x => decide (x < ck)) (.node lk lv ll cl
                (max (getHeight ll) (getHeight cl) + 1)) = true := by
              refine allKeys_node.mpr ⟨by simpa using hlkck, ?_, hck_l⟩
              exact allKeys_mono (fun x hx => by
                simp only [decide_eq_true_eq] at hx ⊢
                exact lt_trans hx hlkck) hlk_l
            obtain ⟨sO, sH, sB, sHt, sP⟩ :=
              rightRotate_spec (k := s1)
                (v := (minValueNode (.node rk rv rl rr rh)).2) (o := cv)
                hOal hOcr jO hHal hHcr jH hBal hBcr jB
                hak_l hck_r hcks' hall_crS hRgt
                (by omega) (by omega)
                (by simp only [getHeight_node]; omega)
                (by simp only [getHeight_node]; omega)
            refine ⟨⟨sO, sH, sB⟩, ?_, ?_, ?_⟩
            · rw [sHt]
              simp only [getHeight_node]
              omega
            · intro p hp
              rcases allKeys_node.mp hp with ⟨hpk, hpl, hpr⟩
              rcases allKeys_node.mp hpl with ⟨hplk, hpll, hplr⟩
              rcases allKeys_node.mp hplr with ⟨hpck, hpcl, hpcr⟩
              refine sP p (minValueNode_allKeys hne hpr) hpck ?_ hpcr (jP p hpr)
              exact allKeys_node.mpr ⟨hplk, hpll, hpcl⟩
            · refine sP _ (by simpa using ne_of_gt hks)
                (by simpa using ne_of_lt hckk') ?_ ?_ ?_
              · refine allKeys_node.mpr ⟨by simpa using ne_of_lt hlkk', ?_, ?_⟩
                · exact allKeys_mono (fun x hx => by
                    simp only [decide_eq_true_eq] at hx ⊢
                    exact ne_of_lt hx) hall_ll
                · exact allKeys_mono (fun x hx => by
                    simp only [decide_eq_true_eq] at hx ⊢
                    exact ne_of_lt hx) hall_cl
              · exact allKeys_mono (fun x hx => by
                  simp only [decide_eq_true_eq] at hx ⊢
                  exact ne_of_lt hx) hall_cr
              · exact allKeys_mono (fun x hx => by
                  simp only [decide_eq_true_eq] at hx ⊢
                  exact ne_of_gt hx) hRk
    · -- k < key : delete from the right subtree
      have hstep := deleteHelper_gt (k := k) (v := v) (l := l) (r := r)
        (h := h) hgt
      rcases ihr hOr hHr hBr key with ⟨⟨iO, iH, iB⟩, iHt, iP, iN⟩
      set R := deleteHelper r key with hRdef
      clear ihl ihr
      have hrbb1 : getHeight R ≤ getHeight r := by
        rcases iHt with h' | h' <;> omega
      have hrbb2 : getHeight r ≤ getHeight R + 1 := by
        rcases iHt with h' | h' <;> omega
      have hallR : allKeys (fun x => decide (k < x)) R = true := iP _ hall_r
      have hRle : getHeight R ≤ getHeight l + 1 := by omega
      by_cases hc : getHeight l ≤ getHeight R + 1
      · -- still balanced: no rotation
        have hnr := rebalanceDelete_noRotate (k := k) (v := v) (A := l)
          (B := R) (z := h) hc hRle
        rw [hstep, hnr]
        refine ⟨⟨orderedB_node.mpr ⟨hall_l, hallR, hOl, iO⟩,
          heightInv_node.mpr ⟨hHl, iH, rfl⟩,
          balancedB_node.mpr ⟨hBl, iB, hc, hRle⟩⟩, ?_, ?_, ?_⟩
        · simp only [getHeight_node]
          omega
        · intro p hp
          rcases allKeys_node.mp hp with ⟨hpk, hpl, hpr⟩
          exact allKeys_node.mpr ⟨hpk, hpl, iP p hpr⟩
        · refine allKeys_node.mpr ⟨by simpa using ne_of_lt hgt, ?_, iN⟩
          exact allKeys_mono (fun x hx => by
            simp only [decide_eq_true_eq] at hx ⊢
            exact ne_of_lt (lt_trans hx hgt)) hall_l
      · -- the left subtree is now two taller
        have hl2 : getHeight l = getHeight R + 2 := by omega
        rcases l with - | ⟨lk, lv, ll, lr, lh⟩
        · simp only [getHeight_nil] at hl2
          omega
        simp only [getHeight_node] at hl2 hc hb1 hb2 hEq hRle
        rcases orderedB_node.mp hOl with ⟨hlk_l, hlk_r, hOll, hOlr⟩
        rcases heightInv_node.mp hHl with ⟨hHll, hHlr, hEqL⟩
        rcases balancedB_node.mp hBl with ⟨hBll, hBlr, hbL1, hbL2⟩
        rcases allKeys_node.mp hall_l with ⟨hlkk', hall_ll, hall_lr⟩
        simp only [decide_eq_true_eq] at hlkk'
        by_cases hgb : getHeight lr ≤ getHeight ll
        · -- single right rotation
          have hrot : rebalanceDelete (.node k v (.node lk lv ll lr lh) R h) =
              rightRotate (.node k v (.node lk lv ll lr lh) R
                (1 + max (getHeight (AVLTree.node lk lv ll lr lh))
                  (getHeight R))) := by
            rw [rebalanceDelete_node,
              if_pos ⟨by simp only [getHeight_node]; omega,
                by simp only [getBalance_node]; omega⟩]
          obtain ⟨sO, sH, sB, sHt, sP⟩ :=
            rightRotate_spec (k := k) (v := v) (o := lv)
              hOll hOlr iO hHll hHlr iH hBll hBlr iB
              hlk_l hlk_r hlkk' hall_lr hallR
              (by omega) (by omega) (by omega) (by omega)
          rw [hstep, hrot]
          refine ⟨⟨sO, sH, sB⟩, ?_, ?_, ?_⟩
          · rw [sHt]
            simp only [getHeight_node]
            omega
          · intro p hp
            rcases allKeys_node.mp hp with ⟨hpk, hpl, hpr⟩
            rcases allKeys_node.mp hpl with ⟨hplk, hpll, hplr⟩
            exact sP p hpk hplk hpll hplr (iP p hpr)
          · refine sP _ (by simpa using ne_of_lt hgt)
              (by simpa using ne_of_lt (lt_trans hlkk' hgt)) ?_ ?_ iN
            · exact allKeys_mono (fun x hx => by
                simp only [decide_eq_true_eq] at hx ⊢
                exact ne_of_lt (lt_trans hx hgt)) hall_ll
            · exact allKeys_mono (fun x hx => by
                simp only [decide_eq_true_eq] at hx ⊢
                exact ne_of_lt (lt_trans hx hgt)) hall_lr
        · -- double rotation: left child is right-heavy
          have hlrll : getHeight lr = getHeight ll + 1 := by omega
          rcases lr with - | ⟨ck, cv, cl, cr, ch⟩
          · simp only [getHeight_nil] at hlrll
            omega
          simp only [getHeight_node] at hlrll hEqL hbL1 hbL2 hgb
          rcases orderedB_node.mp hOlr with ⟨hck_l, hck_r, hOcl, hOcr⟩
          rcases heightInv_node.mp hHlr with ⟨hHcl, hHcr, hEqC⟩
          rcases balancedB_node.mp hBlr with ⟨hBcl, hBcr, hbC1, hbC2⟩
          rcases allKeys_node.mp hall_lr with ⟨hckk', hall_cl, hall_cr⟩
          rcases allKeys_node.mp hlk_r with ⟨hlkck, hlk_cl, hlk_cr⟩
          simp only [decide_eq_true_eq] at hckk' hlkck
          have hrot : rebalanceDelete
              (.node k v (.node lk lv ll (.node ck cv cl cr ch) lh) R h) =
              rightRotate (.node k v
                (leftRotate (.node lk lv ll (.node ck cv cl cr ch) lh)) R
                (1 + max (getHeight (AVLTree.node lk lv ll
                  (.node ck cv cl cr ch) lh)) (getHeight R))) := by
            rw [rebalanceDelete_node,
              if_neg (fun hc' => absurd hc'.2
                (by simp only [getBalance_node, getHeight_node]; omega)),
              if_pos ⟨by simp only [getHeight_node]; omega,
                by simp only [getBalance_node, getHeight_node]; omega⟩]
          rw [hstep, hrot, leftRotate_node]
          have hOal : orderedB (.node lk lv ll cl
              (max (getHeight ll) (getHeight cl) + 1)) = true :=
            orderedB_node.mpr ⟨hlk_l, hlk_cl, hOll, hOcl⟩
          have hHal : heightInv (.node lk lv ll cl
              (max (getHeight ll) (getHeight cl) + 1)) = true :=
            heightInv_node.mpr ⟨hHll, hHcl, by omega⟩
          have hBal : balancedB (.node lk lv ll cl
              (max (getHeight ll) (getHeight cl) + 1)) = true :=
            balancedB_node.mpr ⟨hBll, hBcl, by omega, by omega⟩
          have hak_l : allKeys (fun x => decide (x < ck)) (.node lk lv ll cl
              (max (getHeight ll) (getHeight cl) + 1)) = true := by
            refine allKeys_node.mpr ⟨by simpa using hlkck, ?_, hck_l⟩
            exact allKeys_mono (fun x hx => by
              simp only [decide_eq_true_eq] at hx ⊢
              exact lt_trans hx hlkck) hlk_l
          obtain ⟨sO, sH, sB, sHt, sP⟩ :=
            rightRotate_spec (k := k) (v := v) (o := cv)
              hOal hOcr iO hHal hHcr iH hBal hBcr iB
              hak_l hck_r hckk' hall_cr hallR
              (by omega) (by omega)
              (by simp only [getHeight_node]; omega)
              (by simp only [getHeight_node]; omega)
          refine ⟨⟨sO, sH, sB⟩, ?_, ?_, ?_⟩
          · rw [sHt]
            simp only [getHeight_node]
            omega
          · intro p hp
            rcases allKeys_node.mp hp with ⟨hpk, hpl, hpr⟩
            rcases allKeys_node.mp hpl with ⟨hplk, hpll, hplr⟩
            rcases allKeys_node.mp hplr with ⟨hpck, hpcl, hpcr⟩
            refine sP p hpk hpck ?_ hpcr (iP p hpr)
            exact allKeys_node.mpr ⟨hplk, hpll, hpcl⟩
          · refine sP _ (by simpa using ne_of_lt hgt)
              (by simpa using ne_of_lt (lt_trans hckk' hgt)) ?_ ?_ iN
            · refine allKeys_node.mpr
                ⟨by simpa using ne_of_lt (lt_trans hlkk' hgt), ?_, ?_⟩
              · exact allKeys_mono (fun x hx => by
                  simp only [decide_eq_true_eq] at hx ⊢
                  exact ne_of_lt (lt_trans hx hgt)) hall_ll
              · exact allKeys_mono (fun x hx => by
                  simp only [decide_eq_true_eq] at hx ⊢
                  exact ne_of_lt (lt_trans hx hgt)) hall_cl
            · exact allKeys_mono (fun x hx => by
                simp only [decide_eq_true_eq] at hx ⊢
                exact ne_of_lt (lt_trans hx hgt)) hall_cr

/-! ## AVL tree: search lemmas -/

theorem containsKey_node {k key : String} {v : Int} {l r : AVLTree} {h : Nat} :
    containsKey (.node k v l r h) key = true ↔
      k = key ∨ containsKey l key = true ∨ containsKey r key = true := by
  simp [containsKey, Bool.or_eq_true, beq_iff_eq, or_assoc]

theorem hasKV_node {k key : String} {v value : Int} {l r : AVLTree} {h : Nat} :
    hasKV (.node k v l r h) key value = true ↔
      (k = key ∧ v = value) ∨ hasKV l key value = true ∨
        hasKV r key value = true := by
  simp [hasKV, Bool.or_eq_true, Bool.and_eq_true, beq_iff_eq, or_assoc]

theorem allKeys_of_containsKey {p : String → Bool} :
    ∀ {t : AVLTree} {key : String}, allKeys p t = true →
      containsKey t key = true → p key = true := by
  intro t
  induction t with
  | nil => intro key _ hc; simp [containsKey] at hc
  | node k v l r h ihl ihr =>
    intro key hall hc
    rcases allKeys_node.mp hall with ⟨hpk, hpl, hpr⟩
    rcases containsKey_node.mp hc with rfl | hc | hc
    · exact hpk
    · exact ihl hpl hc
    · exact ihr hpr hc

theorem containsKey_of_hasKV :
    ∀ {t : AVLTree} {key : String} {value : Int}, hasKV t key value = true →
      containsKey t key = true := by
  intro t
  induction t with
  | nil => intro key value hc; simp [hasKV] at hc
  | node k v l r h ihl ihr =>
    intro key value hc
    rcases hasKV_node.mp hc with ⟨rfl, _⟩ | hc | hc
    · exact containsKey_node.mpr (Or.inl rfl)
    · exact containsKey_node.mpr (Or.inr (Or.inl (ihl hc)))
    · exact containsKey_node.mpr (Or.inr (Or.inr (ihr hc)))

theorem hasKV_of_containsKey :
    ∀ {t : AVLTree} {key : String}, containsKey t key = true →
      ∃ value : Int, hasKV t key value = true := by
  intro t
  induction t with
  | nil => intro key hc; simp [containsKey] at hc
  | node k v l r h ihl ihr =>
    intro key hc
    rcases containsKey_node.mp hc with rfl | hc | hc
    · exact ⟨v, hasKV_node.mpr (Or.inl ⟨rfl, rfl⟩)⟩
    · rcases ihl hc with ⟨value, hv⟩
      exact ⟨value, hasKV_node.mpr (Or.inr (Or.inl hv))⟩
    · rcases ihr hc with ⟨value, hv⟩
      exact ⟨value, hasKV_node.mpr (Or.inr (Or.inr hv))⟩

theorem searchHelper_of_not_contains :
    ∀ {t : AVLTree} {key : String}, containsKey t key = false →
      searchHelper t key = .nil := by
  intro t
  induction t with
  | nil => intro key _; rfl
  | node k v l r h ihl ihr =>
    intro key hc
    simp only [containsKey, Bool.or_eq_false_iff, beq_eq_false_iff_ne] at hc
    rw [searchHelper, if_neg hc.1.1]
    by_cases hlt : key < k
    · rw [if_pos hlt]
      exact ihl hc.1.2
    · rw [if_neg hlt]
      exact ihr hc.2

theorem search_hasKV :
    ∀ {t : AVLTree} {key : String} {value : Int}, orderedB t = true →
      hasKV t key value = true → search t key = some value := by
  intro t
  induction t with
  | nil => intro key value _ hc; simp [hasKV] at hc
  | node k v l r h ihl ihr =>
    intro key value hO hc
    rcases orderedB_node.mp hO with ⟨hall_l, hall_r, hOl, hOr⟩
    rcases hasKV_node.mp hc with ⟨rfl, rfl⟩ | hc | hc
    · simp [search, searchHelper]
    · have hkey : key < k := by
        have := allKeys_of_containsKey hall_l (containsKey_of_hasKV hc)
        simpa using this
      have : search l key = some value := ihl hOl hc
      simp only [search] at this ⊢
      rw [searchHelper, if_neg (by exact fun he => absurd he.symm (ne_of_lt hkey)),
        if_pos hkey]
      exact this
    · have hkey : k < key := by
        have := allKeys_of_containsKey hall_r (containsKey_of_hasKV hc)
        simpa using this
      have : search r key = some value := ihr hOr hc
      simp only [search] at this ⊢
      rw [searchHelper, if_neg (ne_of_lt hkey), if_neg (lt_asymm hkey)]
      exact this

theorem search_isSome_iff {t : AVLTree} {key : String} (hO : orderedB t = true) :
    (search t key).isSome = containsKey t key := by
  cases hc : containsKey t key with
  | false =>
    rw [search, searchHelper_of_not_contains hc]
    rfl
  | true =>
    rcases hasKV_of_containsKey hc with ⟨value, hv⟩
    rw [search_hasKV hO hv]
    rfl

/-! ## AVL tree: pair preservation through rebalancing -/

theorem hasKV_rightRotate_of {t : AVLTree} {kk : String} {vv : Int}
    (h : hasKV t kk vv = true) : hasKV (rightRotate t) kk vv = true := by
  rcases t with - | ⟨ky, vy, - | ⟨kx, vx, xl, xr, lh⟩, yr, hh⟩
  · exact h
  · exact h
  · rw [rightRotate_node]
    rcases hasKV_node.mp h with hy | hx | hyr
    · exact hasKV_node.mpr (Or.inr (Or.inr (hasKV_node.mpr (Or.inl hy))))
    · rcases hasKV_node.mp hx with hx' | hxl | hxr
      · exact hasKV_node.mpr (Or.inl hx')
      · exact hasKV_node.mpr (Or.inr (Or.inl hxl))
      · exact hasKV_node.mpr (Or.inr (Or.inr (hasKV_node.mpr (Or.inr (Or.inl hxr)))))
    · exact hasKV_node.mpr (Or.inr (Or.inr (hasKV_node.mpr (Or.inr (Or.inr hyr)))))

theorem hasKV_leftRotate_of {t : AVLTree} {kk : String} {vv : Int}
    (h : hasKV t kk vv = true) : hasKV (leftRotate t) kk vv = true := by
  rcases t with - | ⟨kx, vx, xl, - | ⟨ky, vy, yl, yr, rh⟩, hh⟩
  · exact h
  · exact h
  · rw [leftRotate_node]
    rcases hasKV_node.mp h with hx | hxl | hy
    · exact hasKV_node.mpr (Or.inr (Or.inl (hasKV_node.mpr (Or.inl hx))))
    · exact hasKV_node.mpr (Or.inr (Or.inl (hasKV_node.mpr (Or.inr (Or.inl hxl)))))
    · rcases hasKV_node.mp hy with hy' | hyl | hyr
      · exact hasKV_node.mpr (Or.inl hy')
      · exact hasKV_node.mpr (Or.inr (Or.inl (hasKV_node.mpr (Or.inr (Or.inr hyl)))))
      · exact hasKV_node.mpr (Or.inr (Or.inr hyr))

theorem hasKV_rebalanceInsert_of {t : AVLTree} {key kk : String} {vv : Int}
    (h : hasKV t kk vv = true) :
    hasKV (rebalanceInsert t key) kk vv = true := by
  rcases t with - | ⟨k, v, A, B, h₀⟩
  · exact h
  rw [rebalanceInsert_node]
  rcases hasKV_node.mp h with hk | hA | hB
  all_goals split_ifs
  all_goals first
    | exact hasKV_rightRotate_of (hasKV_node.mpr (Or.inl hk))
    | exact hasKV_leftRotate_of (hasKV_node.mpr (Or.inl hk))
    | exact hasKV_node.mpr (Or.inl hk)
    | exact hasKV_rightRotate_of (hasKV_node.mpr (Or.inr (Or.inl hA)))
    | exact hasKV_leftRotate_of (hasKV_node.mpr (Or.inr (Or.inl hA)))
    | exact hasKV_node.mpr (Or.inr (Or.inl hA))
    | exact hasKV_rightRotate_of (hasKV_node.mpr (Or.inr (Or.inl
        (hasKV_leftRotate_of hA))))
    | exact hasKV_leftRotate_of (hasKV_node.mpr (Or.inr (Or.inl hA)))
    | exact hasKV_rightRotate_of (hasKV_node.mpr (Or.inr (Or.inr hB)))
    | exact hasKV_leftRotate_of (hasKV_node.mpr (Or.inr (Or.inr hB)))
    | exact hasKV_node.mpr (Or.inr (Or.inr hB))
    | exact hasKV_leftRotate_of (hasKV_node.mpr (Or.inr (Or.inr
        (hasKV_rightRotate_of hB))))

theorem insertHelper_hasKV :
    ∀ {t : AVLTree} {key : String} {value : Int},
      hasKV (insertHelper t key value) key value = true := by
  intro t
  induction t with
  | nil =>
    intro key value
    simp [insertHelper, hasKV]
  | node k v l r h ihl ihr =>
    intro key value
    rcases lt_trichotomy key k with hlt | hkeq | hgt
    · rw [insertHelper.eq_def]
      simp only
      rw [if_pos hlt]
      exact hasKV_rebalanceInsert_of (hasKV_node.mpr (Or.inr (Or.inl ihl)))
    · subst hkeq
      rw [insertHelper.eq_def]
      simp only
      rw [if_neg (lt_irrefl key), if_neg (lt_irrefl key)]
      exact hasKV_node.mpr (Or.inl ⟨rfl, rfl⟩)
    · rw [insertHelper.eq_def]
      simp only
      rw [if_neg (lt_asymm hgt), if_pos hgt]
      exact hasKV_rebalanceInsert_of (hasKV_node.mpr (Or.inr (Or.inr ihr)))

/-! ## AVL tree: overwrite-in-place leaves the shape untouched -/

theorem getHeight_shape {t : AVLTree} : getHeight (shape t) = getHeight t := by
  cases t <;> rfl

theorem insertHelper_shape :
    ∀ {t : AVLTree} {key : String} {value : Int}, orderedB t = true →
      heightInv t = true → balancedB t = true → containsKey t key = true →
      shape (insertHelper t key value) = shape t := by
  intro t
  induction t with
  | nil => intro key value _ _ _ hc; simp [containsKey] at hc
  | node k v l r h ihl ihr =>
    intro key value hO hH hB hc
    rcases orderedB_node.mp hO with ⟨hall_l, hall_r, hOl, hOr⟩
    rcases heightInv_node.mp hH with ⟨hHl, hHr, hEq⟩
    rcases balancedB_node.mp hB with ⟨hBl, hBr, hb1, hb2⟩
    rcases lt_trichotomy key k with hlt | hkeq | hgt
    · have hcl : containsKey l key = true := by
        rcases containsKey_node.mp hc with rfl | hcl | hcr
        · exact absurd hlt (lt_irrefl _)
        · exact hcl
        · have := allKeys_of_containsKey hall_r hcr
          simp only [decide_eq_true_eq] at this
          exact absurd hlt (lt_asymm this)
      have hsh : shape (insertHelper l key value) = shape l := ihl hOl hHl hBl hcl
      have hgl : getHeight (insertHelper l key value) = getHeight l := by
        rw [← getHeight_shape (t := insertHelper l key value), hsh, getHeight_shape]
      rw [insertHelper.eq_def]
      simp only
      rw [if_pos hlt, rebalanceInsert_noRotate (by omega) (by omega)]
      rw [shape_node, shape_node, hsh, hgl, ← hEq]
    · subst hkeq
      rw [insertHelper.eq_def]
      simp only
      rw [if_neg (lt_irrefl key), if_neg (lt_irrefl key)]
      rfl
    · have hcr : containsKey r key = true := by
        rcases containsKey_node.mp hc with rfl | hcl | hcr
        · exact absurd hgt (lt_irrefl _)
        · have := allKeys_of_containsKey hall_l hcl
          simp only [decide_eq_true_eq] at this
          exact absurd hgt (lt_asymm this)
        · exact hcr
      have hsh : shape (insertHelper r key value) = shape r := ihr hOr hHr hBr hcr
      have hgr : getHeight (insertHelper r key value) = getHeight r := by
        rw [← getHeight_shape (t := insertHelper r key value), hsh, getHeight_shape]
      rw [insertHelper.eq_def]
      simp only
      rw [if_neg (lt_asymm hgt), if_pos hgt,
        rebalanceInsert_noRotate (by omega) (by omega)]
      rw [shape_node, shape_node, hsh, hgr, ← hEq]

/-! ## AVL tree: operation sequences -/

/-- One public mutating call on the `AVLTree` class. -/
inductive AVLOp where
  | insert (key : String) (value : Int) : AVLOp
  | remove (key : String) : AVLOp

/-- Apply one public call to the tree root, as the class methods do. -/
def applyOp (t : AVLTree) : AVLOp → AVLTree
  | .insert key value => AVLTree.insert t key value
  | .remove key => (AVLTree.remove t key).2

/-- Apply a sequence of public calls, left to right. -/
def applyOps (t : AVLTree) : List AVLOp → AVLTree
  | [] => t
  | op :: ops => applyOps (applyOp t op) ops

theorem applyOp_inv {t : AVLTree} (op : AVLOp) (hO : orderedB t = true)
    (hH : heightInv t = true) (hB : balancedB t = true) :
    orderedB (applyOp t op) = true ∧ heightInv (applyOp t op) = true ∧
      balancedB (applyOp t op) = true := by
  cases op with
  | insert key value => exact (insertHelper_main key value t hO hH hB).1
  | remove key =>
    simp only [applyOp, AVLTree.remove]
    split_ifs with hs
    · exact (deleteHelper_main t hO hH hB key).1
    · exact ⟨hO, hH, hB⟩

theorem applyOps_inv :
    ∀ (ops : List AVLOp) (t : AVLTree), orderedB t = true →
      heightInv t = true → balancedB t = true →
      orderedB (applyOps t ops) = true ∧ heightInv (applyOps t ops) = true ∧
        balancedB (applyOps t ops) = true := by
  intro ops
  induction ops with
  | nil => intro t hO hH hB; exact ⟨hO, hH, hB⟩
  | cons op rest ih =>
    intro t hO hH hB
    rcases applyOp_inv op hO hH hB with ⟨h1, h2, h3⟩
    exact ih (applyOp t op) h1 h2 h3

/-! ## AVL tree: sorted inorder traversal -/

theorem allKeys_inorder {p : String → Bool} :
    ∀ {t : AVLTree}, allKeys p t = true →
      ∀ q ∈ inorderHelper t, p q.1 = true := by
  intro t
  induction t with
  | nil => intro _ q hq; simp [inorderHelper] at hq
  | node k v l r h ihl ihr =>
    intro hall q hq
    rcases allKeys_node.mp hall with ⟨hpk, hpl, hpr⟩
    simp only [inorderHelper, List.mem_append, List.mem_cons] at hq
    rcases hq with hq | hq | hq
    · exact ihl hpl q hq
    · rw [hq]; exact hpk
    · exact ihr hpr q hq

theorem orderedB_pairwise_inorder :
    ∀ {t : AVLTree}, orderedB t = true →
      List.Pairwise (· < ·) ((inorderHelper t).map Prod.fst) := by
  intro t
  induction t with
  | nil => intro _; simp [inorderHelper]
  | node k v l r h ihl ihr =>
    intro hO
    rcases orderedB_node.mp hO with ⟨hall_l, hall_r, hOl, hOr⟩
    simp only [inorderHelper, List.map_append, List.map_cons]
    rw [List.pairwise_append]
    refine ⟨ihl hOl, ?_, ?_⟩
    · rw [List.pairwise_cons]
      refine ⟨?_, ihr hOr⟩
      intro y hy
      rcases List.mem_map.mp hy with ⟨q, hq, rfl⟩
      have := allKeys_inorder hall_r q hq
      simpa using this
    · intro x hx y hy
      rcases List.mem_map.mp hx with ⟨qx, hqx, rfl⟩
      have hxk : qx.1 < k := by
        have := allKeys_inorder hall_l qx hqx
        simpa using this
      rcases List.mem_cons.mp hy with rfl | hy
      · exact hxk
      · rcases List.mem_map.mp hy with ⟨qy, hqy, rfl⟩
        have hky : k < qy.1 := by
          have := allKeys_inorder hall_r qy hqy
          simpa using this
        exact lt_trans hxk hky

/-! ## AVL tree: claim theorems -/

/-- C1: after every sequence of `AVLTree.insert` / `AVLTree.remove` operations
starting from the empty tree, every stored height field equals one plus the
maximum of its children's heights (empty = 0), and at every node the true
heights of the two subtrees differ by at most one. -/
theorem avl_balance_invariant (ops : List AVLOp) :
    heightInv (applyOps .nil ops) = true ∧
      balancedReal (applyOps .nil ops) = true := by
  rcases applyOps_inv ops .nil rfl rfl rfl with ⟨_, h2, h3⟩
  exact ⟨h2, by rw [← balancedB_eq_balancedReal h2]; exact h3⟩

/-- C5: after every sequence of `AVLTree.insert` / `AVLTree.remove` operations
starting from the empty tree, `inorderTraversal` lists the stored pairs with
keys in strictly ascending lexicographic order. -/
theorem avl_inorder_sorted (ops : List AVLOp) :
    List.Pairwise (· < ·)
      ((inorderTraversal (applyOps .nil ops)).map Prod.fst) := by
  rcases applyOps_inv ops .nil rfl rfl rfl with ⟨h1, _, _⟩
  exact orderedB_pairwise_inorder h1

/-- C6: on a well-formed tree, after `insert k v` a `search k` finds `v`; and
when `k` was already present the insert overwrites the value in place, leaving
shape, keys and every stored height unchanged. -/
theorem avl_insert_search_overwrite (t : AVLTree) (k : String) (v : Int)
    (hO : orderedB t = true) (hH : heightInv t = true)
    (hB : balancedB t = true) :
    search (insert t k v) k = some v ∧
      (containsKey t k = true → shape (insert t k v) = shape t) := by
  constructor
  · exact search_hasKV (insertHelper_main k v t hO hH hB).1.1 insertHelper_hasKV
  · intro hc
    exact insertHelper_shape hO hH hB hc

/-- C8: on a well-formed tree, `remove k` returns true exactly when `k` is
present; an absent key leaves the tree untouched (returning false); after
removing a present key, `search k` reports not-found. -/
theorem avl_remove_semantics (t : AVLTree) (k : String)
    (hO : orderedB t = true) (hH : heightInv t = true)
    (hB : balancedB t = true) :
    (AVLTree.remove t k).1 = containsKey t k ∧
      (containsKey t k = false → (AVLTree.remove t k).2 = t) ∧
      (containsKey t k = true → search (AVLTree.remove t k).2 k = none) := by
  refine ⟨?_, ?_, ?_⟩
  · rw [AVLTree.remove]
    split_ifs with hs
    · rw [← search_isSome_iff hO, hs]
    · rw [← search_isSome_iff hO]
      simp only [Bool.not_eq_true] at hs
      rw [hs]
  · intro hc
    rw [AVLTree.remove, if_neg (by rw [search_isSome_iff hO, hc]; simp)]
  · intro hc
    rw [AVLTree.remove, if_pos (by rw [search_isSome_iff hO, hc])]
    have hnk := (deleteHelper_main t hO hH hB k).2.2.2
    have : containsKey (deleteHelper t k) k = false :=
      containsKey_false_of_allKeys hnk
    simp only [search, searchHelper_of_not_contains this]

end AVLTree

/-! ## Graph engine: embedding of the `Graph` class -/

/-- `string toLower(string s)`: per-character `::tolower`.  `Char.toLower`
lowercases exactly the ASCII range, as the C locale does; the source's
behaviour on non-ASCII bytes is implementation-defined and not exercised. -/
def toLower (s : String) : String := ⟨s.data.map Char.toLower⟩

/-- The `Graph` class state: `unordered_map<string,int> nameToNode` (modelled
as an association list in insertion order; the map's iteration order is
unspecified in the source, and every scan over it looks for a case-insensitive
match, which is unique in every reachable state), `vector<string> nodeToName`,
and `vector<vector<pair<int,int>>> adj`. -/
structure Graph where
  nameToNode : List (String × Nat)
  nodeToName : List String
  adj : List (List (Nat × Int))
deriving Repr, DecidableEq

namespace Graph

/-- The freshly constructed graph. -/
def empty : Graph := ⟨[], [], []⟩

/-- `int addLocation(string name)`: scan for a case-insensitive match and
return its id; otherwise append a new location with id `nodeToName.size()`. -/
def addLocation (g : Graph) (name : String) : Nat × Graph :=
  let normalized := toLower name
  match g.nameToNode.find? (fun q => toLower q.1 == normalized) with
  | some q => (q.2, g)
  | none =>
    let id := g.nodeToName.length
    (id, { nameToNode := g.nameToNode ++ [(name, id)],
           nodeToName := g.nodeToName ++ [name],
           adj := g.adj ++ [[]] })

/-- Overwrite the weight of the first entry for target `v` (`edge.second = w`
followed by `break`); no match leaves the list unchanged. -/
def setFirstWeight : List (Nat × Int) → Nat → Int → List (Nat × Int)
  | [], _, _ => []
  | e :: rest, v, w =>
    if e.1 == v then (e.1, w) :: rest else e :: setFirstWeight rest v w

/-- `void addEdge(string uName, string vName, int w)`: resolve (or create)
both endpoints, then either update the existing edge's weight in both
adjacency lists or push a new entry to both. -/
def addEdge (g : Graph) (uName vName : String) (w : Int) : Graph :=
  let pu := g.addLocation uName
  let u := pu.1
  let g1 := pu.2
  let pv := g1.addLocation vName
  let v := pv.1
  let g2 := pv.2
  if (g2.adj.getD u []).any (fun e => e.1 == v) then
    let adj1 := g2.adj.set u (setFirstWeight (g2.adj.getD u []) v w)
    let adj2 := adj1.set v (setFirstWeight (adj1.getD v []) u w)
    { g2 with adj := adj2 }
  else
    let adj1 := g2.adj.set u ((g2.adj.getD u []) ++ [(v, w)])
    let adj2 := adj1.set v ((adj1.getD v []) ++ [(u, w)])
    { g2 with adj := adj2 }

/-- `bool hasLocation(string name)`: case-insensitive scan. -/
def hasLocation (g : Graph) (name : String) : Bool :=
  g.nameToNode.any (fun q => toLower q.1 == toLower name)

/-- `string getActualLocationName(string name)`: the stored casing of the
case-insensitive match, or the input when there is none. -/
def getActualLocationName (g : Graph) (name : String) : String :=
  match g.nameToNode.find? (fun q => toLower q.1 == toLower name) with
  | some q => q.1
  | none => name

/-- Exact-name lookup `nameToNode[name]`, used by the traversal entry points
after canonicalisation (the key is then always present). -/
def lookupId (g : Graph) (name : String) : Nat :=
  ((g.nameToNode.find? (fun q => q.1 == name)).map Prod.snd).getD 0

end Graph

/-- `const int INF = numeric_limits<int>::max();` -/
def INF : Int := 2147483647

/-- The mutable state of `shortestPath`'s Dijkstra loop. -/
structure DijkstraState where
  dist : List Int
  parent : List Int
  visited : List Bool
  pq : List (Int × Nat)
deriving Repr

/-- `priority_queue<pair<int,int>, vector<..>, greater<..>>` modelled as a
list kept sorted by the lexicographic pair order, so the head is always the
queue's minimum — exactly what `top`/`pop` of the min-heap observe (equal
pairs are identical, so heap tie-breaking is immaterial). -/
def pqPush : List (Int × Nat) → (Int × Nat) → List (Int × Nat)
  | [], e => [e]
  | x :: rest, e =>
    if e.1 < x.1 ∨ (e.1 = x.1 ∧ e.2 ≤ x.2) then e :: x :: rest
    else x :: pqPush rest e

/-- The relaxation loop `for (auto &edge : adj[u]) ...`: when
`dist[u] + w < dist[v]`, update `dist[v]`, `parent[v]` and push `(dist[v], v)`.
`dist[u]` is re-read on every iteration, as in the source. -/
def relaxEdges (u : Nat) : List (Nat × Int) → DijkstraState → DijkstraState
  | [], st => st
  | (v, w) :: rest, st =>
    relaxEdges u rest
      (if st.dist.getD u 0 + w < st.dist.getD v 0 then
        { dist := st.dist.set v (st.dist.getD u 0 + w),
          parent := st.parent.set v (u : Int),
          visited := st.visited,
          pq := pqPush st.pq (st.dist.getD u 0 + w, v) }
      else st)

/-- The main `while (!pq.empty())` loop, fuelled.  Each iteration pops the
minimum entry, skips it when already visited, and otherwise marks it visited
and relaxes its edges.  Every pop consumes one unit of fuel; since a node is
relaxed only once, the total number of pushes (hence pops) is bounded by the
total adjacency size plus one, so the caller's fuel always outlasts the queue. -/
def dijkstraLoop (adj : List (List (Nat × Int))) :
    Nat → DijkstraState → DijkstraState
  | 0, st => st
  | fuel+1, st =>
    match st.pq with
    | [] => st
    | e :: rest =>
      let u := e.2
      let st1 : DijkstraState := { st with pq := rest }
      if st1.visited.getD u false then dijkstraLoop adj fuel st1
      else
        let st2 : DijkstraState := { st1 with visited := st1.visited.set u true }
        dijkstraLoop adj fuel (relaxEdges u (adj.getD u []) st2)

/-- Path reconstruction `while (cur != -1) { if (!nodeToName[cur].empty())
pathOut.push_back(nodeToName[cur]); cur = parent[cur]; }`, fuelled: a cyclic
`parent` chain (impossible with positive weights) makes the source loop
forever, which the model reports as `none`. -/
def buildPath (nodeToName : List String) (parent : List Int) :
    Nat → Int → List String → Option (List String)
  | 0, _, _ => none
  | fuel+1, cur, acc =>
    if cur = -1 then some acc
    else
      buildPath nodeToName parent fuel (parent.getD cur.toNat (-1))
        (if nodeToName.getD cur.toNat "" ≠ "" then
          acc ++ [nodeToName.getD cur.toNat ""] else acc)

/-- Total number of adjacency entries (twice the edge count). -/
def totalAdjLen (adj : List (List (Nat × Int))) : Nat :=
  (adj.map List.length).sum

namespace Graph

/-- `bool shortestPath(string, string, vector<string>&, int&)`: canonicalise
both names, fail when either is unknown, run Dijkstra from the source, fail
when the destination's distance is still `INF`, otherwise reconstruct the
path through `parent[]` and reverse it.  `none` models the `false` return. -/
def shortestPath (g : Graph) (srcName destName : String) :
    Option (List String × Int) :=
  let srcName := g.getActualLocationName srcName
  let destName := g.getActualLocationName destName
  if g.hasLocation srcName && g.hasLocation destName then
    let n := g.nodeToName.length
    let s := g.lookupId srcName
    let t := g.lookupId destName
    let st0 : DijkstraState :=
      { dist := (List.replicate n INF).set s 0,
        parent := List.replicate n (-1),
        visited := List.replicate n false,
        pq := [(0, s)] }
    let fin := dijkstraLoop g.adj (totalAdjLen g.adj + 2) st0
    if fin.dist.getD t 0 = INF then none
    else
      match buildPath g.nodeToName fin.parent (n + 1) (t : Int) [] with
      | none => none
      | some path => some (path.reverse, fin.dist.getD t 0)
  else none

end Graph

/-- The mutable state of the BFS loop: visited set, FIFO frontier, output. -/
structure BFSState where
  visited : List Bool
  queue : List Nat
  result : List String
deriving Repr

/-- The inner `for (auto &edge : adj[u])` of BFS: mark-and-enqueue each
unvisited neighbour. -/
def bfsProcessEdges : List (Nat × Int) → BFSState → BFSState
  | [], st => st
  | (v, _) :: rest, st =>
    bfsProcessEdges rest
      (if st.visited.getD v false then st
      else { st with visited := st.visited.set v true, queue := st.queue ++ [v] })

/-- The `while (!q.empty())` loop of BFS, fuelled.  Nodes are marked visited
when enqueued, so at most `n` enqueues (hence dequeues) ever happen. -/
def bfsLoop (adj : List (List (Nat × Int))) (names : List String) :
    Nat → BFSState → BFSState
  | 0, st => st
  | fuel+1, st =>
    match st.queue with
    | [] => st
    | u :: rest =>
      let st1 : BFSState :=
        { st with queue := rest, result := st.result ++ [names.getD u ""] }
      bfsLoop adj names fuel (bfsProcessEdges (adj.getD u []) st1)

/-- `vector<string> BFS(string startName)`. -/
def Graph.BFS (g : Graph) (startName : String) : List String :=
  if g.hasLocation startName then
    let startName := g.getActualLocationName startName
    let start := g.lookupId startName
    let n := g.nodeToName.length
    let st0 : BFSState :=
      { visited := (List.replicate n false).set start true,
        queue := [start], result := [] }
    (bfsLoop g.adj g.nodeToName (n + 1) st0).result
  else []

/-- `void DFSHelper(int u, ...)`: mark `u`, append its name, then walk the
edge list left to right, recursing into each neighbour that is unvisited at
that moment.  The fuel bounds the recursion depth; every nested call is on a
freshly unvisited node, so depth `n + 1` always suffices. -/
def dfsVisit (adj : List (List (Nat × Int))) (names : List String) :
    Nat → Nat → List Bool × List String → List Bool × List String
  | 0, _, st => st
  | fuel+1, u, st =>
    (adj.getD u []).foldl
      (fun st e =>
        if st.1.getD e.1 false then st else dfsVisit adj names fuel e.1 st)
      (st.1.set u true, st.2 ++ [names.getD u ""])

/-- `vector<string> DFS(string startName)`. -/
def Graph.DFS (g : Graph) (startName : String) : List String :=
  if g.hasLocation startName then
    let startName := g.getActualLocationName startName
    let start := g.lookupId startName
    let n := g.nodeToName.length
    (dfsVisit g.adj g.nodeToName (n + 1) start (List.replicate n false, [])).2
  else []

/-- The inner edge loop of `isConnected`'s BFS (no output list). -/
def connProcessEdges : List (Nat × Int) → List Bool × List Nat →
    List Bool × List Nat
  | [], st => st
  | (v, _) :: rest, st =>
    connProcessEdges rest
      (if st.1.getD v false then st
      else (st.1.set v true, st.2 ++ [v]))

/-- The `while` loop of `isConnected`'s BFS, fuelled like `bfsLoop`. -/
def connLoop (adj : List (List (Nat × Int))) :
    Nat → List Bool × List Nat → List Bool × List Nat
  | 0, st => st
  | fuel+1, st =>
    match st.2 with
    | [] => st
    | u :: rest =>
      connLoop adj fuel (connProcessEdges (adj.getD u []) (st.1, rest))

/-- `bool isConnected()`: BFS from node 0 and check that every slot of the
visited vector is set; the empty graph is connected. -/
def Graph.isConnected (g : Graph) : Bool :=
  if g.nodeToName.isEmpty then true
  else
    let n := g.nodeToName.length
    let fin := connLoop g.adj (n + 1) ((List.replicate n false).set 0 true, [0])
    fin.1.all (fun b => b)

/-! ## Graph engine: operation sequences -/

/-- One public mutating call on the `Graph` class. -/
inductive GraphOp where
  | addLocation (name : String) : GraphOp
  | addEdge (uName vName : String) (w : Int) : GraphOp

/-- Apply one public call. -/
def applyGraphOp (g : Graph) : GraphOp → Graph
  | .addLocation name => (g.addLocation name).2
  | .addEdge a b w => g.addEdge a b w

/-- The graph reached from a fresh `Graph` by a sequence of public calls. -/
def buildGraph (ops : List GraphOp) : Graph :=
  ops.foldl applyGraphOp Graph.empty


/-! ## Graph engine: reachable-state well-formedness -/

theorem getD_mem_or_default {α : Type _} :
    ∀ (l : List α) (n : Nat) (d : α), l.getD n d ∈ l ∨ l.getD n d = d := by
  intro l
  induction l with
  | nil => intro n d; right; simp
  | cons a l ih =>
    intro n d
    cases n with
    | zero => left; simp
    | succ n =>
      rcases ih n d with h | h
      · left
        simp only [List.getD_cons_succ]
        exact List.mem_cons_of_mem _ h
      · right
        simpa using h

/-- The contents of `nameToNode` in a reachable state: one entry per location,
in insertion order, mapping the stored casing to its id. -/
def mkNameToNode : List String → Nat → List (String × Nat)
  | [], _ => []
  | n :: rest, start => (n, start) :: mkNameToNode rest (start + 1)

theorem mkNameToNode_append {names : List String} {a : String} :
    ∀ {s : Nat}, mkNameToNode (names ++ [a]) s =
      mkNameToNode names s ++ [(a, s + names.length)] := by
  induction names with
  | nil => intro s; simp [mkNameToNode]
  | cons n rest ih =>
    intro s
    have harith : s + 1 + rest.length = s + (rest.length + 1) := by omega
    simp only [List.cons_append, mkNameToNode, List.append_eq, ih,
      List.length_cons, harith]

theorem mkNameToNode_mem_lt {q : String × Nat} :
    ∀ {names : List String} {s : Nat}, q ∈ mkNameToNode names s →
      s ≤ q.2 ∧ q.2 < s + names.length := by
  intro names
  induction names with
  | nil => intro s hq; simp [mkNameToNode] at hq
  | cons n rest ih =>
    intro s hq
    simp only [mkNameToNode, List.mem_cons] at hq
    rcases hq with rfl | hq
    · simp
    · have := ih hq
      simp only [List.length_cons]
      omega

theorem mkNameToNode_mem_name {q : String × Nat} :
    ∀ {names : List String} {s : Nat}, q ∈ mkNameToNode names s →
      names.getD (q.2 - s) "" = q.1 := by
  intro names
  induction names with
  | nil => intro s hq; simp [mkNameToNode] at hq
  | cons n rest ih =>
    intro s hq
    simp only [mkNameToNode, List.mem_cons] at hq
    rcases hq with rfl | hq
    · simp
    · have hlt := mkNameToNode_mem_lt hq
      have := ih hq
      have hpos : q.2 - s = (q.2 - (s + 1)) + 1 := by omega
      rw [hpos]
      simpa using this

theorem mkNameToNode_mem_of_name {nm : String} :
    ∀ {names : List String} {s : Nat}, nm ∈ names →
      ∃ i, (nm, i) ∈ mkNameToNode names s := by
  intro names
  induction names with
  | nil => intro s h; simp at h
  | cons n rest ih =>
    intro s h
    rcases List.mem_cons.mp h with rfl | h
    · exact ⟨s, List.mem_cons_self _ _⟩
    · rcases ih (s := s + 1) h with ⟨i, hi⟩
      exact ⟨i, List.mem_cons_of_mem _ hi⟩

namespace Graph

/-- Well-formedness of a reachable `Graph` state: the two name tables agree,
the adjacency vector has one slot per location, every adjacency target is a
valid id, and the normalised (lower-cased) names are pairwise distinct. -/
def wfB (g : Graph) : Bool :=
  (g.nameToNode == mkNameToNode g.nodeToName 0) &&
  (g.adj.length == g.nodeToName.length) &&
  g.adj.all (fun es => es.all (fun e => decide (e.1 < g.nodeToName.length))) &&
  decide ((g.nodeToName.map toLower).Nodup)

theorem wfB_iff {g : Graph} :
    wfB g = true ↔
      g.nameToNode = mkNameToNode g.nodeToName 0 ∧
      g.adj.length = g.nodeToName.length ∧
      (∀ es ∈ g.adj, ∀ e ∈ es, e.1 < g.nodeToName.length) ∧
      (g.nodeToName.map toLower).Nodup := by
  simp [wfB, Bool.and_eq_true, List.all_eq_true, and_assoc]

theorem wfB_empty : wfB empty = true := by decide

theorem addLocation_hit {g : Graph} {name : String} {q : String × Nat}
    (h : g.nameToNode.find? (fun q => toLower q.1 == toLower name) = some q) :
    g.addLocation name = (q.2, g) := by
  rw [addLocation, h]

theorem addLocation_miss {g : Graph} {name : String}
    (h : g.nameToNode.find? (fun q => toLower q.1 == toLower name) = none) :
    g.addLocation name = (g.nodeToName.length,
      { nameToNode := g.nameToNode ++ [(name, g.nodeToName.length)],
        nodeToName := g.nodeToName ++ [name],
        adj := g.adj ++ [[]] }) := by
  rw [addLocation, h]

theorem addLocation_wf {g : Graph} {name : String} (hwf : wfB g = true) :
    wfB (g.addLocation name).2 = true := by
  rcases wfB_iff.mp hwf with ⟨h1, h2, h3, h4⟩
  cases hfind : g.nameToNode.find? (fun q => toLower q.1 == toLower name) with
  | some q => rw [addLocation_hit hfind]; exact hwf
  | none =>
    rw [addLocation_miss hfind]
    refine wfB_iff.mpr ⟨?_, ?_, ?_, ?_⟩
    · simp only
      rw [h1, mkNameToNode_append]
      simp
    · simp [h2]
    · simp only [List.mem_append, List.length_append, List.length_cons]
      rintro es (hes | hes) e he
      · exact lt_of_lt_of_le (h3 es hes e he) (by simp)
      · simp only [List.mem_singleton] at hes
        subst hes
        simp at he
    · simp only [List.map_append, List.map_cons, List.map_nil]
      rw [List.nodup_append]
      refine ⟨h4, List.nodup_singleton _, ?_⟩
      intro x hx
      rcases List.mem_map.mp hx with ⟨nm, hnm, rfl⟩
      simp only [List.mem_singleton]
      intro hcontra
      rcases mkNameToNode_mem_of_name (s := 0) hnm with ⟨i, hi⟩
      rw [← h1] at hi
      have := List.find?_eq_none.mp hfind _ hi
      simp only [beq_iff_eq] at this
      exact this hcontra

theorem addLocation_id_lt {g : Graph} {name : String} (hwf : wfB g = true) :
    (g.addLocation name).1 < (g.addLocation name).2.nodeToName.length := by
  rcases wfB_iff.mp hwf with ⟨h1, _, _, _⟩
  cases hfind : g.nameToNode.find? (fun q => toLower q.1 == toLower name) with
  | some q =>
    rw [addLocation_hit hfind]
    have hq := List.mem_of_find?_eq_some hfind
    rw [h1] at hq
    have := mkNameToNode_mem_lt hq
    simpa using this.2
  | none =>
    rw [addLocation_miss hfind]
    simp

theorem addLocation_names_le {g : Graph} {name : String} :
    g.nodeToName.length ≤ (g.addLocation name).2.nodeToName.length := by
  cases hfind : g.nameToNode.find? (fun q => toLower q.1 == toLower name) with
  | some q => rw [addLocation_hit hfind]
  | none => rw [addLocation_miss hfind]; simp

theorem setFirstWeight_all {p : Nat → Prop} :
    ∀ {es : List (Nat × Int)} {v : Nat} {w : Int},
      (∀ e ∈ es, p e.1) → ∀ e ∈ setFirstWeight es v w, p e.1 := by
  intro es
  induction es with
  | nil => intro v w _ e he; simp [setFirstWeight] at he
  | cons x rest ih =>
    intro v w hall e he
    rw [setFirstWeight] at he
    split_ifs at he with hx
    · rcases List.mem_cons.mp he with rfl | he
      · exact hall x (List.mem_cons_self _ _)
      · exact hall e (List.mem_cons_of_mem _ he)
    · rcases List.mem_cons.mp he with rfl | he
      · exact hall e (List.mem_cons_self _ _)
      · exact ih (fun e' he' => hall e' (List.mem_cons_of_mem _ he')) e he

theorem targets_getD {adj : List (List (Nat × Int))} {n u : Nat}
    (h : ∀ es ∈ adj, ∀ e ∈ es, e.1 < n) :
    ∀ e ∈ adj.getD u [], e.1 < n := by
  rcases getD_mem_or_default adj u [] with hm | hm
  · exact h _ hm
  · rw [hm]
    intro e he
    simp at he

theorem targets_set {adj : List (List (Nat × Int))} {n i : Nat}
    {es' : List (Nat × Int)}
    (h : ∀ es ∈ adj, ∀ e ∈ es, e.1 < n) (h' : ∀ e ∈ es', e.1 < n) :
    ∀ es ∈ adj.set i es', ∀ e ∈ es, e.1 < n := by
  intro es hes
  rcases List.mem_or_eq_of_mem_set hes with hes | rfl
  · exact h es hes
  · exact h'

theorem addEdge_wf {g : Graph} {uName vName : String} {w : Int}
    (hwf : wfB g = true) : wfB (g.addEdge uName vName w) = true := by
  have hwf1 : wfB (g.addLocation uName).2 = true := addLocation_wf hwf
  have hu : (g.addLocation uName).1 <
      (g.addLocation uName).2.nodeToName.length := addLocation_id_lt hwf
  have hwf2 : wfB ((g.addLocation uName).2.addLocation vName).2 = true :=
    addLocation_wf hwf1
  have hv : ((g.addLocation uName).2.addLocation vName).1 <
      ((g.addLocation uName).2.addLocation vName).2.nodeToName.length :=
    addLocation_id_lt hwf1
  have hu2 : (g.addLocation uName).1 <
      ((g.addLocation uName).2.addLocation vName).2.nodeToName.length :=
    lt_of_lt_of_le hu addLocation_names_le
  rw [addEdge]
  set u := (g.addLocation uName).1 with hudef
  set g1 := (g.addLocation uName).2 with hg1def
  set v := (g1.addLocation vName).1 with hvdef
  set g2 := (g1.addLocation vName).2 with hg2def
  rcases wfB_iff.mp hwf2 with ⟨h1, h2, h3, h4⟩
  split_ifs with hex
  · -- weight update in both directions
    have hA : ∀ e ∈ setFirstWeight (g2.adj.getD u []) v w,
        e.1 < g2.nodeToName.length :=
      setFirstWeight_all (p := fun t => t < g2.nodeToName.length)
        (targets_getD h3)
    have h3' := targets_set (i := u) h3 hA
    have hB : ∀ e ∈ setFirstWeight
        ((g2.adj.set u (setFirstWeight (g2.adj.getD u []) v w)).getD v []) u w,
        e.1 < g2.nodeToName.length :=
      setFirstWeight_all (p := fun t => t < g2.nodeToName.length)
        (targets_getD h3')
    exact wfB_iff.mpr ⟨h1, by simp [h2], targets_set (i := v) h3' hB, h4⟩
  · -- push to both adjacency lists
    have hA : ∀ e ∈ g2.adj.getD u [] ++ [(v, w)], e.1 < g2.nodeToName.length := by
      intro e he
      rcases List.mem_append.mp he with he | he
      · exact targets_getD h3 e he
      · simp only [List.mem_singleton] at he
        subst he
        exact hv
    have h3' := targets_set (i := u) h3 hA
    have hB : ∀ e ∈ (g2.adj.set u (g2.adj.getD u [] ++ [(v, w)])).getD v [] ++
        [(u, w)], e.1 < g2.nodeToName.length := by
      intro e he
      rcases List.mem_append.mp he with he | he
      · exact targets_getD h3' e he
      · simp only [List.mem_singleton] at he
        subst he
        exact hu2
    exact wfB_iff.mpr ⟨h1, by simp [h2], targets_set (i := v) h3' hB, h4⟩

theorem buildGraph_wf (ops : List GraphOp) : wfB (buildGraph ops) = true := by
  suffices h : ∀ (ops : List GraphOp) (g : Graph), wfB g = true →
      wfB (ops.foldl applyGraphOp g) = true by
    exact h ops empty wfB_empty
  intro ops
  induction ops with
  | nil => intro g hg; exact hg
  | cons op rest ih =>
    intro g hg
    refine ih _ ?_
    cases op with
    | addLocation name => exact addLocation_wf hg
    | addEdge a b w => exact addEdge_wf hg

end Graph

/-! ## Graph engine: addLocation semantics (claim C7) -/

namespace Graph

theorem hasLocation_iff_find? {g : Graph} {name : String} :
    hasLocation g name = true ↔
      (g.nameToNode.find? (fun q => toLower q.1 == toLower name)).isSome := by
  rw [hasLocation, List.any_eq_true, List.find?_isSome]

end Graph

/-- C7: `Graph.addLocation` is case-insensitively idempotent.  On a
well-formed graph: if the name matches an existing location
case-insensitively, the call returns that location's id and leaves the state
— hence the originally inserted casing — unchanged; otherwise it returns the
next sequential id and appends the location.  In particular
`addLocation "Mumbai"` followed by `addLocation "mumbai"` returns id 0 both
times without changing the state again. -/
theorem graph_addLocation_idempotent (g : Graph) (name : String)
    (hwf : Graph.wfB g = true) :
    (g.hasLocation name = true →
      (g.addLocation name).2 = g ∧
      (g.addLocation name).1 < g.nodeToName.length ∧
      toLower (g.nodeToName.getD (g.addLocation name).1 "") = toLower name) ∧
    (g.hasLocation name = false →
      (g.addLocation name).1 = g.nodeToName.length ∧
      (g.addLocation name).2.nodeToName = g.nodeToName ++ [name]) ∧
    ((Graph.empty.addLocation "Mumbai").1 = 0 ∧
      ((Graph.empty.addLocation "Mumbai").2.addLocation "mumbai").1 = 0 ∧
      ((Graph.empty.addLocation "Mumbai").2.addLocation "mumbai").2 =
        (Graph.empty.addLocation "Mumbai").2) := by
  rcases Graph.wfB_iff.mp hwf with ⟨h1, _, _, _⟩
  refine ⟨?_, ?_, by decide⟩
  · intro hloc
    rcases Option.isSome_iff_exists.mp (Graph.hasLocation_iff_find?.mp hloc)
      with ⟨q, hfind⟩
    rw [Graph.addLocation_hit hfind]
    have hq := List.mem_of_find?_eq_some hfind
    rw [h1] at hq
    have hlt := (mkNameToNode_mem_lt hq).2
    have hname := mkNameToNode_mem_name hq
    have hpred0 := List.find?_some hfind
    have hpred : toLower q.1 = toLower name := by simpa using hpred0
    refine ⟨rfl, by simpa using hlt, ?_⟩
    simp only [Nat.sub_zero] at hname
    rw [hname]
    exact hpred
  · intro hloc
    have hnone : g.nameToNode.find? (fun q => toLower q.1 == toLower name) =
        none := by
      have := @Graph.hasLocation_iff_find? g name
      rw [hloc] at this
      cases hfind : g.nameToNode.find? (fun q => toLower q.1 == toLower name) with
      | none => rfl
      | some q => rw [hfind] at this; simp at this
    rw [Graph.addLocation_miss hnone]
    exact ⟨rfl, rfl⟩

/-- C7 witness: a concrete well-formed graph on which the theorem applies. -/
theorem graph_addLocation_idempotent_witness :
    Graph.wfB (buildGraph [.addLocation "Rome"]) = true ∧
    (((buildGraph [.addLocation "Rome"]).hasLocation "ROME" = true →
      ((buildGraph [.addLocation "Rome"]).addLocation "ROME").2 =
        buildGraph [.addLocation "Rome"] ∧
      ((buildGraph [.addLocation "Rome"]).addLocation "ROME").1 <
        (buildGraph [.addLocation "Rome"]).nodeToName.length ∧
      toLower ((buildGraph [.addLocation "Rome"]).nodeToName.getD
        ((buildGraph [.addLocation "Rome"]).addLocation "ROME").1 "") =
        toLower "ROME") ∧
    ((buildGraph [.addLocation "Rome"]).hasLocation "ROME" = false →
      ((buildGraph [.addLocation "Rome"]).addLocation "ROME").1 =
        (buildGraph [.addLocation "Rome"]).nodeToName.length ∧
      ((buildGraph [.addLocation "Rome"]).addLocation "ROME").2.nodeToName =
        (buildGraph [.addLocation "Rome"]).nodeToName ++ ["ROME"]) ∧
    ((Graph.empty.addLocation "Mumbai").1 = 0 ∧
      ((Graph.empty.addLocation "Mumbai").2.addLocation "mumbai").1 = 0 ∧
      ((Graph.empty.addLocation "Mumbai").2.addLocation "mumbai").2 =
        (Graph.empty.addLocation "Mumbai").2)) :=
  ⟨by decide, graph_addLocation_idempotent (buildGraph [.addLocation "Rome"])
    "ROME" (by decide)⟩

/-- C2: on the specification's benchmark graph — locations A, B, C, D with
undirected edges A-B = 1400, A-C = 850, B-C = 2150, C-D = 350 —
`shortestPath A D` reports the path [A, C, D] with distance 1200. -/
theorem dijkstra_benchmark :
    (buildGraph [.addLocation "A", .addLocation "B", .addLocation "C",
      .addLocation "D", .addEdge "A" "B" 1400, .addEdge "A" "C" 850,
      .addEdge "B" "C" 2150, .addEdge "C" "D" 350]).shortestPath "A" "D" =
      some (["A", "C", "D"], 1200) := by decide

/-! ## Presentation layer: `addEdge` of dsa-visualization.js (claim C3) -/

/-- One entry of `graph.edges` in the visualization layer:
`{ id, from, to, label, value }` (`from`/`to` are Lean keywords and are
called `src`/`dst` here). -/
structure JSEdge where
  id : Nat
  src : Nat
  dst : Nat
  label : String
  value : Int
deriving Repr, DecidableEq

/-- The visualization layer's graph state: `graph.nodes` ( `{id, label}` ),
`graph.edges`, and the module-level `edgeIdCounter`. -/
structure JSGraph where
  nodes : List (Nat × String)
  edges : List JSEdge
  edgeIdCounter : Nat
deriving Repr, DecidableEq

/-- The case-insensitive node scan of the JS `addEdge` — the loop assigns on
every match without breaking, so the last match wins. -/
def jsResolve (nodes : List (Nat × String)) (s : String) : Option (Nat × String) :=
  nodes.foldl (fun acc q => if toLower q.2 == toLower s then some q else acc) none

/-- `function addEdge()` of dsa-visualization.js, with the DOM reads made
explicit: `fromRaw`/`toRaw` are the text-field values (trimmed here, as in
the source) and `weight` is the `parseInt` result (`none` = `NaN`).  Returns
the new state and whether an edge was added; every `showInfo(..., 'error')`
path returns the state unchanged. -/
def jsAddEdge (g : JSGraph) (fromRaw toRaw : String) (weight : Option Int) :
    JSGraph × Bool :=
  let fromS := fromRaw.trim
  let toS := toRaw.trim
  if fromS = "" ∨ toS = "" ∨ weight.isNone ∨ weight.getD 0 ≤ 0 then (g, false)
  else
    match jsResolve g.nodes fromS, jsResolve g.nodes toS with
    | none, _ => (g, false)
    | some _, none => (g, false)
    | some qf, some qt =>
      if qf.1 = qt.1 then (g, false)
      else if g.edges.any (fun e => (e.src == qf.1 && e.dst == qt.1) ||
          (e.src == qt.1 && e.dst == qf.1)) then (g, false)
      else
        ({ nodes := g.nodes,
           edges := g.edges ++ [⟨g.edgeIdCounter, qf.1, qt.1,
             toString (weight.getD 0), weight.getD 0⟩],
           edgeIdCounter := g.edgeIdCounter + 1 }, true)

/-- C3 counterexample: the core `Graph.addEdge` performs no validation at
all.  `addEdge "A" "A" (-5)` — a self-edge with a negative weight, both of
which the claim says are rejected before any mutation — creates the location
and stores the self-loop twice. -/
theorem core_addEdge_no_validation :
    (Graph.empty.addEdge "A" "A" (-5)).adj = [[(0, -5), (0, -5)]] ∧
      Graph.empty.adj = ([] : List (List (Nat × Int))) ∧
      Graph.empty.addEdge "A" "A" (-5) ≠ Graph.empty := by decide

/-- C3 (amended): the validation the claim describes lives in the
presentation layer.  `addEdge` of dsa-visualization.js rejects a call — and
leaves the graph state unmutated — whenever the parsed weight is absent or
non-positive, and whenever both endpoint names resolve case-insensitively to
the same node. -/
theorem js_addEdge_rejects (g : JSGraph) (fromRaw toRaw : String)
    (weight : Option Int)
    (hbad : (∀ x, weight = some x → x ≤ 0) ∨
      (∀ qf, jsResolve g.nodes fromRaw.trim = some qf →
        ∀ qt, jsResolve g.nodes toRaw.trim = some qt → qf.1 = qt.1)) :
    jsAddEdge g fromRaw toRaw weight = (g, false) := by
  rw [jsAddEdge]
  split_ifs with hrej
  · rfl
  · push_neg at hrej
    rcases hrej with ⟨hf, ht, hsome, hpos⟩
    rcases hbad with hw | hsame
    · exfalso
      cases hweight : weight with
      | none => rw [hweight] at hsome; simp at hsome
      | some x =>
        have := hw x hweight
        rw [hweight] at hpos
        simp only [Option.getD_some] at hpos
        omega
    · cases hrf : jsResolve g.nodes fromRaw.trim with
      | none => rfl
      | some qf =>
        cases hrt : jsResolve g.nodes toRaw.trim with
        | none => rfl
        | some qt =>
          simp [hsame qf hrf qt hrt]

/-- C3 witness: a rejected zero-weight call on a concrete state. -/
theorem js_addEdge_rejects_witness :
    ((∀ x, (some 0 : Option Int) = some x → x ≤ 0) ∨
      (∀ qf, jsResolve (JSGraph.mk [] [] 0).nodes "a".trim = some qf →
        ∀ qt, jsResolve (JSGraph.mk [] [] 0).nodes "b".trim = some qt →
          qf.1 = qt.1)) ∧
    jsAddEdge (JSGraph.mk [] [] 0) "a" "b" (some 0) =
      (JSGraph.mk [] [] 0, false) :=
  ⟨Or.inl (fun x hx => by injection hx with h; omega),
    js_addEdge_rejects (JSGraph.mk [] [] 0) "a" "b" (some 0)
      (Or.inl (fun x hx => by injection hx with h; omega))⟩

/-! ## Graph engine: adjacency symmetry (claim C4) -/

theorem getD_set_self {α : Type _} :
    ∀ (l : List α) (i : Nat) (a d : α), i < l.length →
      (l.set i a).getD i d = a := by
  intro l
  induction l with
  | nil => intro i a d h; simp at h
  | cons x rest ih =>
    intro i a d h
    cases i with
    | zero => rfl
    | succ i =>
      simp only [List.set_cons_succ, List.getD_cons_succ]
      exact ih i a d (by simpa using h)

theorem getD_set_ne {α : Type _} :
    ∀ (l : List α) (i j : Nat) (a d : α), i ≠ j →
      (l.set i a).getD j d = l.getD j d := by
  intro l
  induction l with
  | nil => intro i j a d h; simp
  | cons x rest ih =>
    intro i j a d h
    cases i with
    | zero =>
      cases j with
      | zero => exact absurd rfl h
      | succ j => rfl
    | succ i =>
      cases j with
      | zero => rfl
      | succ j =>
        simp only [List.set_cons_succ, List.getD_cons_succ]
        exact ih i j a d (fun hc => h (by rw [hc]))

namespace Graph

/-- The weights of the entries for target `v` in `u`'s adjacency list. -/
def edgeWeights (g : Graph) (u v : Nat) : List Int :=
  ((g.adj.getD u []).filter (fun e => e.1 == v)).map Prod.snd

theorem mem_adj_iff_mem_edgeWeights {g : Graph} {u v : Nat} {w : Int} :
    (v, w) ∈ g.adj.getD u [] ↔ w ∈ edgeWeights g u v := by
  simp only [edgeWeights, List.mem_map, List.mem_filter, beq_iff_eq]
  constructor
  · intro h
    exact ⟨(v, w), ⟨h, rfl⟩, rfl⟩
  · rintro ⟨e, ⟨he, h1⟩, h2⟩
    have : e = (v, w) := Prod.ext h1 h2
    rw [← this]
    exact he

theorem setFirstWeight_filter_ne {y v : Nat} (hy : y ≠ v) :
    ∀ {es : List (Nat × Int)} {w : Int},
      (setFirstWeight es v w).filter (fun e => e.1 == y) =
        es.filter (fun e => e.1 == y) := by
  intro es
  induction es with
  | nil => intro w; rfl
  | cons x rest ih =>
    rcases x with ⟨x1, x2⟩
    intro w
    rw [setFirstWeight]
    split_ifs with hx
    · have hx' : v = x1 := by
        have : x1 = v := by simpa using hx
        exact this.symm
      subst hx'
      rw [List.filter_cons_of_neg (by simpa using fun hc => hy hc.symm),
        List.filter_cons_of_neg (by simpa using fun hc => hy hc.symm)]
    · by_cases hxy : x1 = y
      · subst hxy
        rw [List.filter_cons_of_pos (by simp),
          List.filter_cons_of_pos (by simp), ih]
      · rw [List.filter_cons_of_neg (by simpa using hxy),
          List.filter_cons_of_neg (by simpa using hxy), ih]

theorem setFirstWeight_filter_self {v : Nat} :
    ∀ {es : List (Nat × Int)} {w : Int},
      es.any (fun e => e.1 == v) = true →
      (es.filter (fun e => e.1 == v)).length ≤ 1 →
      (setFirstWeight es v w).filter (fun e => e.1 == v) = [(v, w)] := by
  intro es
  induction es with
  | nil => intro w h _; simp at h
  | cons x rest ih =>
    rcases x with ⟨x1, x2⟩
    intro w hany hlen
    rw [setFirstWeight]
    split_ifs with hx
    · have hx' : v = x1 := by
        have : x1 = v := by simpa using hx
        exact this.symm
      subst hx'
      rw [List.filter_cons_of_pos (by simp)]
      have hrest : rest.filter (fun e => e.1 == v) = [] := by
        rw [List.filter_cons_of_pos (by simp)] at hlen
        simp only [List.length_cons] at hlen
        exact List.eq_nil_of_length_eq_zero (by omega)
      rw [hrest]
    · have hx' : x1 ≠ v := fun hc => hx (by simpa using hc)
      rw [List.filter_cons_of_neg (by simpa using hx')]
      have hany' : rest.any (fun e => e.1 == v) = true := by
        rw [List.any_cons] at hany
        rcases Bool.or_eq_true_iff.mp hany with h | h
        · exact absurd (by simpa using h) hx'
        · exact h
      have hlen' : (rest.filter (fun e => e.1 == v)).length ≤ 1 := by
        rw [List.filter_cons_of_neg (by simpa using hx')] at hlen
        exact hlen
      exact ih hany' hlen'

theorem filter_eq_nil_of_any_false {v : Nat} {es : List (Nat × Int)}
    (h : es.any (fun e => e.1 == v) = false) :
    es.filter (fun e => e.1 == v) = [] := by
  induction es with
  | nil => rfl
  | cons x rest ih =>
    rw [List.any_cons] at h
    rcases Bool.or_eq_false_iff.mp h with ⟨h1, h2⟩
    rw [List.filter_cons_of_neg (by simp [h1]), ih h2]

theorem getD_append_nil :
    ∀ {adj : List (List (Nat × Int))} {u : Nat},
      (adj ++ [[]]).getD u [] = adj.getD u [] := by
  intro adj
  induction adj with
  | nil =>
    intro u
    cases u with
    | zero => rfl
    | succ u => cases u <;> rfl
  | cons a adj ih =>
    intro u
    cases u with
    | zero => rfl
    | succ u =>
      simp only [List.cons_append, List.getD_cons_succ]
      exact ih

/-- The pair invariant of claim C4: the adjacency lists are symmetric with
equal weights, and each ordered pair has at most one entry. -/
def PairInv (g : Graph) : Prop :=
  ∀ u v : Nat, edgeWeights g u v = edgeWeights g v u ∧
    (edgeWeights g u v).length ≤ 1

theorem pairInv_empty : PairInv empty := by
  intro u v
  constructor <;> simp [edgeWeights, empty, List.getD]

theorem addLocation_pairInv {g : Graph} {name : String} (hp : PairInv g) :
    PairInv (g.addLocation name).2 := by
  cases hfind : g.nameToNode.find? (fun q => toLower q.1 == toLower name) with
  | some q => rw [addLocation_hit hfind]; exact hp
  | none =>
    rw [addLocation_miss hfind]
    intro u v
    have h : ∀ a b : Nat,
        edgeWeights (Graph.mk (g.nameToNode ++ [(name, g.nodeToName.length)])
          (g.nodeToName ++ [name]) (g.adj ++ [[]])) a b =
          edgeWeights g a b := by
      intro a b
      simp only [edgeWeights, getD_append_nil]
    dsimp only
    simp only [h]
    exact hp u v

end Graph

namespace Graph

theorem length_edgeWeights {g : Graph} {u v : Nat} :
    (edgeWeights g u v).length =
      ((g.adj.getD u []).filter (fun e => e.1 == v)).length := by
  simp [edgeWeights]

theorem any_of_edgeWeights_ne_nil {g : Graph} {u v : Nat}
    (h : edgeWeights g u v ≠ []) :
    (g.adj.getD u []).any (fun e => e.1 == v) = true := by
  cases hc : (g.adj.getD u []).any (fun e => e.1 == v) with
  | true => rfl
  | false =>
    refine absurd ?_ h
    rw [edgeWeights, filter_eq_nil_of_any_false hc]
    rfl

theorem addEdge_pairInv {g : Graph} {a b : String} {w : Int}
    (hwf : wfB g = true) (hp : PairInv g)
    (hne : ((g.addLocation a).2.addLocation b).1 ≠ (g.addLocation a).1) :
    PairInv (g.addEdge a b w) := by
  have hwf1 : wfB (g.addLocation a).2 = true := addLocation_wf hwf
  have hp1 : PairInv (g.addLocation a).2 := addLocation_pairInv hp
  have hwf2 : wfB ((g.addLocation a).2.addLocation b).2 = true :=
    addLocation_wf hwf1
  have hp2 : PairInv ((g.addLocation a).2.addLocation b).2 :=
    addLocation_pairInv hp1
  have hultn : (g.addLocation a).1 <
      ((g.addLocation a).2.addLocation b).2.nodeToName.length :=
    lt_of_lt_of_le (addLocation_id_lt hwf) addLocation_names_le
  have hvltn : ((g.addLocation a).2.addLocation b).1 <
      ((g.addLocation a).2.addLocation b).2.nodeToName.length :=
    addLocation_id_lt hwf1
  rw [addEdge]
  set u := (g.addLocation a).1 with hudef
  set g1 := (g.addLocation a).2 with hg1def
  set v := (g1.addLocation b).1 with hvdef
  set g2 := (g1.addLocation b).2 with hg2def
  have hlen : g2.adj.length = g2.nodeToName.length := (wfB_iff.mp hwf2).2.1
  have hual : u < g2.adj.length := by omega
  have hval : v < g2.adj.length := by omega
  have hvu : v ≠ u := hne
  split_ifs with hex
  · -- update the existing edge in both directions
    set A := setFirstWeight (g2.adj.getD u []) v w with hAdef
    set B := setFirstWeight ((g2.adj.set u A).getD v []) u w with hBdef
    set adj2 := (g2.adj.set u A).set v B with hadj2
    have hBrw : (g2.adj.set u A).getD v [] = g2.adj.getD v [] :=
      getD_set_ne _ _ _ _ _ (fun hc => hvu hc.symm)
    have hgu : adj2.getD u [] = A := by
      rw [hadj2, getD_set_ne _ _ _ _ _ hvu, getD_set_self _ _ _ _ hual]
    have hgv : adj2.getD v [] = setFirstWeight (g2.adj.getD v []) u w := by
      rw [hadj2, getD_set_self _ _ _ _ (by simpa using hval), hBdef, hBrw]
    have hgx : ∀ x, x ≠ u → x ≠ v → adj2.getD x [] = g2.adj.getD x [] := by
      intro x hxu hxv
      rw [hadj2, getD_set_ne _ _ _ _ _ (fun hc => hxv hc.symm),
        getD_set_ne _ _ _ _ _ (fun hc => hxu hc.symm)]
    have hanyvu : (g2.adj.getD v []).any (fun e => e.1 == u) = true := by
      apply any_of_edgeWeights_ne_nil
      rw [← (hp2 u v).1]
      intro hnil
      rw [edgeWeights] at hnil
      have hfil := List.map_eq_nil_iff.mp hnil
      rw [List.any_eq_true] at hex
      rcases hex with ⟨e, he, hev⟩
      have hmem : e ∈ (g2.adj.getD u []).filter (fun e => e.1 == v) :=
        List.mem_filter.mpr ⟨he, hev⟩
      rw [hfil] at hmem
      simp at hmem
    have hew : ∀ x y : Nat,
        edgeWeights { g2 with adj := adj2 } x y =
        (if (x = u ∧ y = v) ∨ (x = v ∧ y = u) then [w]
          else edgeWeights g2 x y) := by
      intro x y
      by_cases hxu : x = u
      · subst hxu
        by_cases hyv : y = v
        · subst hyv
          rw [if_pos (Or.inl ⟨rfl, rfl⟩)]
          simp only [edgeWeights, hgu, hAdef]
          rw [setFirstWeight_filter_self hex
            (by rw [← length_edgeWeights]; exact (hp2 u v).2)]
          rfl
        · have hcond : ¬ ((u = u ∧ y = v) ∨ (u = v ∧ y = u)) := by
            rintro (⟨-, hc⟩ | ⟨hc, -⟩)
            · exact hyv hc
            · exact hvu hc.symm
          rw [if_neg hcond]
          simp only [edgeWeights, hgu, hAdef]
          rw [setFirstWeight_filter_ne hyv]
      · by_cases hxv : x = v
        · subst hxv
          by_cases hyu : y = u
          · subst hyu
            rw [if_pos (Or.inr ⟨rfl, rfl⟩)]
            simp only [edgeWeights, hgv]
            rw [setFirstWeight_filter_self hanyvu
              (by rw [← length_edgeWeights]; exact (hp2 v u).2)]
            rfl
          · have hcond : ¬ ((v = u ∧ y = v) ∨ (v = v ∧ y = u)) := by
              rintro (⟨hc, -⟩ | ⟨-, hc⟩)
              · exact hvu hc
              · exact hyu hc
            rw [if_neg hcond]
            simp only [edgeWeights, hgv]
            rw [setFirstWeight_filter_ne hyu]
        · have hcond : ¬ ((x = u ∧ y = v) ∨ (x = v ∧ y = u)) := by
            rintro (⟨hc, -⟩ | ⟨hc, -⟩)
            · exact hxu hc
            · exact hxv hc
          rw [if_neg hcond]
          simp only [edgeWeights, hgx x hxu hxv]
    intro x y
    rw [hew x y, hew y x]
    split_ifs with h1 h2 h2
    · exact ⟨rfl, by simp⟩
    · exact absurd
        (h1.elim (fun h => Or.inr ⟨h.2, h.1⟩) (fun h => Or.inl ⟨h.2, h.1⟩)) h2
    · exact absurd
        (h2.elim (fun h => Or.inr ⟨h.2, h.1⟩) (fun h => Or.inl ⟨h.2, h.1⟩)) h1
    · exact hp2 x y
  · -- push a fresh entry to both adjacency lists
    set Ap := g2.adj.getD u [] ++ [(v, w)] with hApdef
    set Bp := (g2.adj.set u Ap).getD v [] ++ [(u, w)] with hBpdef
    set adj2 := (g2.adj.set u Ap).set v Bp with hadj2
    have hBrw : (g2.adj.set u Ap).getD v [] = g2.adj.getD v [] :=
      getD_set_ne _ _ _ _ _ (fun hc => hvu hc.symm)
    have hgu : adj2.getD u [] = Ap := by
      rw [hadj2, getD_set_ne _ _ _ _ _ hvu, getD_set_self _ _ _ _ hual]
    have hgv : adj2.getD v [] = g2.adj.getD v [] ++ [(u, w)] := by
      rw [hadj2, getD_set_self _ _ _ _ (by simpa using hval), hBpdef, hBrw]
    have hgx : ∀ x, x ≠ u → x ≠ v → adj2.getD x [] = g2.adj.getD x [] := by
      intro x hxu hxv
      rw [hadj2, getD_set_ne _ _ _ _ _ (fun hc => hxv hc.symm),
        getD_set_ne _ _ _ _ _ (fun hc => hxu hc.symm)]
    have hexf : (g2.adj.getD u []).any (fun e => e.1 == v) = false := by
      cases hb : (g2.adj.getD u []).any (fun e => e.1 == v) with
      | true => exact absurd hb hex
      | false => rfl
    have hfilv : (g2.adj.getD u []).filter (fun e => e.1 == v) = [] :=
      filter_eq_nil_of_any_false hexf
    have hfilu : (g2.adj.getD v []).filter (fun e => e.1 == u) = [] := by
      have hnil : edgeWeights g2 v u = [] := by
        rw [← (hp2 u v).1, edgeWeights, hfilv]
        rfl
      rw [edgeWeights] at hnil
      exact List.map_eq_nil_iff.mp hnil
    have hew : ∀ x y : Nat,
        edgeWeights { g2 with adj := adj2 } x y =
        (if (x = u ∧ y = v) ∨ (x = v ∧ y = u) then [w]
          else edgeWeights g2 x y) := by
      intro x y
      by_cases hxu : x = u
      · subst hxu
        by_cases hyv : y = v
        · subst hyv
          rw [if_pos (Or.inl ⟨rfl, rfl⟩)]
          simp only [edgeWeights, hgu, hApdef]
          rw [List.filter_append, hfilv]
          simp
        · have hcond : ¬ ((u = u ∧ y = v) ∨ (u = v ∧ y = u)) := by
            rintro (⟨-, hc⟩ | ⟨hc, -⟩)
            · exact hyv hc
            · exact hvu hc.symm
          rw [if_neg hcond]
          simp only [edgeWeights, hgu, hApdef]
          rw [List.filter_append]
          have hsing : ([((v : Nat), w)].filter (fun e => e.1 == y)) = [] := by
            simp only [List.filter_cons, List.filter_nil]
            have hvy : ((v, w).1 == y) = false := by
              simpa using fun hc : v = y => hyv hc.symm
            simp [hvy]
          rw [hsing, List.append_nil]
      · by_cases hxv : x = v
        · subst hxv
          by_cases hyu : y = u
          · subst hyu
            rw [if_pos (Or.inr ⟨rfl, rfl⟩)]
            simp only [edgeWeights, hgv]
            rw [List.filter_append, hfilu]
            simp
          · have hcond : ¬ ((v = u ∧ y = v) ∨ (v = v ∧ y = u)) := by
              rintro (⟨hc, -⟩ | ⟨-, hc⟩)
              · exact hvu hc
              · exact hyu hc
            rw [if_neg hcond]
            simp only [edgeWeights, hgv]
            rw [List.filter_append]
            have hsing : ([((u : Nat), w)].filter (fun e => e.1 == y)) = [] := by
              simp only [List.filter_cons, List.filter_nil]
              have huy : ((u, w).1 == y) = false := by
                simpa using fun hc : u = y => hyu hc.symm
              simp [huy]
            rw [hsing, List.append_nil]
        · have hcond : ¬ ((x = u ∧ y = v) ∨ (x = v ∧ y = u)) := by
            rintro (⟨hc, -⟩ | ⟨hc, -⟩)
            · exact hxu hc
            · exact hxv hc
          rw [if_neg hcond]
          simp only [edgeWeights, hgx x hxu hxv]
    intro x y
    rw [hew x y, hew y x]
    split_ifs with h1 h2 h2
    · exact ⟨rfl, by simp⟩
    · exact absurd
        (h1.elim (fun h => Or.inr ⟨h.2, h.1⟩) (fun h => Or.inl ⟨h.2, h.1⟩)) h2
    · exact absurd
        (h2.elim (fun h => Or.inr ⟨h.2, h.1⟩) (fun h => Or.inl ⟨h.2, h.1⟩)) h1
    · exact hp2 x y

end Graph

/-- Sequentially evaluated guard: no `addEdge` call of the sequence has both
endpoint names resolving (case-insensitively, after the implicit
`addLocation`s) to the same location. -/
def noSelfEdgeOps : List GraphOp → Graph → Bool
  | [], _ => true
  | op :: rest, g =>
    (match op with
      | .addLocation _ => true
      | .addEdge a b _ =>
        decide (((g.addLocation a).2.addLocation b).1 ≠ (g.addLocation a).1)) &&
    noSelfEdgeOps rest (applyGraphOp g op)

theorem pairInv_fold :
    ∀ (ops : List GraphOp) (g : Graph), Graph.wfB g = true →
      Graph.PairInv g → noSelfEdgeOps ops g = true →
      Graph.PairInv (ops.foldl applyGraphOp g) := by
  intro ops
  induction ops with
  | nil => intro g _ hp _; exact hp
  | cons op rest ih =>
    intro g hwf hp hns
    cases op with
    | addLocation name =>
      simp only [noSelfEdgeOps, Bool.true_and] at hns
      exact ih _ (Graph.addLocation_wf hwf) (Graph.addLocation_pairInv hp) hns
    | addEdge a b w =>
      simp only [noSelfEdgeOps, Bool.and_eq_true, decide_eq_true_eq] at hns
      exact ih _ (Graph.addEdge_wf hwf)
        (Graph.addEdge_pairInv hwf hp hns.1) hns.2

/-- C4 (corrected): after any sequence of `addLocation`/`addEdge` operations in
which no `addEdge` joins a location to itself, the adjacency structure is
symmetric — `(v, w)` appears in the adjacency list of `u` iff `(u, w)` appears
in the adjacency list of `v` — and each location's list holds at most one entry
per neighbour, so re-adding an edge updates the weight in both directions
instead of duplicating it; in particular `addEdge A B 100` followed by
`addEdge A B 200` leaves exactly one edge of weight `200` in each direction.
The original unconditional claim fails for self-edges, see the counterexample
theorem. -/
theorem graph_adjacency_symmetric (ops : List GraphOp)
    (hns : noSelfEdgeOps ops Graph.empty = true) :
    (∀ u v : Nat, ∀ w : Int,
      ((v, w) ∈ (buildGraph ops).adj.getD u [] ↔
        (u, w) ∈ (buildGraph ops).adj.getD v [])) ∧
    (∀ u v : Nat,
      ((buildGraph ops).adj.getD u []).countP (fun e => e.1 == v) ≤ 1) ∧
    (buildGraph [.addLocation "A", .addLocation "B",
        .addEdge "A" "B" 100, .addEdge "A" "B" 200]).adj =
      [[(1, 200)], [(0, 200)]] := by
  have hp : Graph.PairInv (buildGraph ops) :=
    pairInv_fold ops Graph.empty Graph.wfB_empty Graph.pairInv_empty hns
  refine ⟨?_, ?_, by decide⟩
  · intro u v w
    rw [Graph.mem_adj_iff_mem_edgeWeights, Graph.mem_adj_iff_mem_edgeWeights,
      (hp u v).1]
  · intro u v
    have h2 := (hp u v).2
    rw [Graph.length_edgeWeights] at h2
    rw [List.countP_eq_length_filter]
    exact h2

/-- C4 counterexample: the original claim quantifies over EVERY operation
sequence, but `addEdge` performs no self-edge check: when both endpoint names
resolve to the same location, the entry is pushed twice into that location's
adjacency list, violating "at most one entry per unordered pair". -/
theorem graph_adjacency_symmetric_cex :
    ((buildGraph [.addEdge "A" "A" 1]).adj.getD 0 []).countP
        (fun e => e.1 == 0) = 2 := by decide

/-- Witness for `graph_adjacency_symmetric` at the concrete update scenario of
the claim. -/
theorem graph_adjacency_symmetric_witness :
    noSelfEdgeOps [GraphOp.addLocation "A", GraphOp.addLocation "B",
        GraphOp.addEdge "A" "B" 100, GraphOp.addEdge "A" "B" 200]
      Graph.empty = true ∧
    ((1, 200) ∈ (buildGraph [GraphOp.addLocation "A", GraphOp.addLocation "B",
        GraphOp.addEdge "A" "B" 100, GraphOp.addEdge "A" "B" 200]).adj.getD 0 []
      ↔ (0, 200) ∈ (buildGraph [GraphOp.addLocation "A",
        GraphOp.addLocation "B", GraphOp.addEdge "A" "B" 100,
        GraphOp.addEdge "A" "B" 200]).adj.getD 1 []) :=
  ⟨by decide, (graph_adjacency_symmetric _ (by decide)).1 0 1 200⟩

/-! ## Dijkstra with the source as destination (claim C10) -/

/-- All `addEdge` weights of an operation sequence are nonnegative. -/
def weightsNonneg : List GraphOp → Bool
  | [] => true
  | op :: rest =>
    (match op with
      | .addLocation _ => true
      | .addEdge _ _ w => decide (0 ≤ w)) && weightsNonneg rest

/-- Every adjacency entry of `g` carries a nonnegative weight. -/
def Graph.AdjNonneg (g : Graph) : Prop :=
  ∀ l ∈ g.adj, ∀ e ∈ l, 0 ≤ e.2

theorem Graph.adjNonneg_getD {adj : List (List (Nat × Int))} {u : Nat}
    (h : ∀ l ∈ adj, ∀ e ∈ l, 0 ≤ e.2) : ∀ e ∈ adj.getD u [], 0 ≤ e.2 := by
  rcases getD_mem_or_default adj u [] with hm | hm
  · exact h _ hm
  · rw [hm]
    intro e he
    simp at he

theorem Graph.adjNonneg_set {adj : List (List (Nat × Int))} {i : Nat}
    {l : List (Nat × Int)} (h : ∀ l2 ∈ adj, ∀ e ∈ l2, 0 ≤ e.2)
    (hl : ∀ e ∈ l, 0 ≤ e.2) :
    ∀ l2 ∈ adj.set i l, ∀ e ∈ l2, 0 ≤ e.2 := by
  intro l2 hl2
  rcases List.mem_or_eq_of_mem_set hl2 with h2 | rfl
  · exact h l2 h2
  · exact hl

theorem Graph.setFirstWeight_nonneg {w : Int} (hw : 0 ≤ w) :
    ∀ (l : List (Nat × Int)) (v : Nat), (∀ e ∈ l, 0 ≤ e.2) →
      ∀ e ∈ Graph.setFirstWeight l v w, 0 ≤ e.2 := by
  intro l
  induction l with
  | nil =>
    intro v _ e he
    simp [Graph.setFirstWeight] at he
  | cons x rest ih =>
    intro v h e he
    rw [Graph.setFirstWeight] at he
    split_ifs at he with hx
    · rcases List.mem_cons.mp he with rfl | he
      · exact hw
      · exact h e (List.mem_cons_of_mem _ he)
    · rcases List.mem_cons.mp he with rfl | he
      · exact h e (List.mem_cons_self _ _)
      · exact ih v (fun e2 he2 => h e2 (List.mem_cons_of_mem _ he2)) e he

theorem Graph.addLocation_adjNonneg {g : Graph} {name : String}
    (h : Graph.AdjNonneg g) : Graph.AdjNonneg (g.addLocation name).2 := by
  cases hfind : g.nameToNode.find? (fun q => toLower q.1 == toLower name) with
  | some q =>
    rw [Graph.addLocation_hit hfind]
    exact h
  | none =>
    rw [Graph.addLocation_miss hfind]
    intro l hl e he
    rcases List.mem_append.mp hl with hl | hl
    · exact h l hl e he
    · simp only [List.mem_singleton] at hl
      subst hl
      simp at he

theorem Graph.addEdge_adjNonneg {g : Graph} {a b : String} {w : Int}
    (hw : 0 ≤ w) (h : Graph.AdjNonneg g) :
    Graph.AdjNonneg (g.addEdge a b w) := by
  have h2 : Graph.AdjNonneg ((g.addLocation a).2.addLocation b).2 :=
    Graph.addLocation_adjNonneg (Graph.addLocation_adjNonneg h)
  rw [Graph.addEdge]
  set u := (g.addLocation a).1
  set g1 := (g.addLocation a).2
  set v := (g1.addLocation b).1
  set g2 := (g1.addLocation b).2
  split_ifs with hex
  · have hA : ∀ e ∈ Graph.setFirstWeight (g2.adj.getD u []) v w, 0 ≤ e.2 :=
      Graph.setFirstWeight_nonneg hw _ v (Graph.adjNonneg_getD h2)
    have hset := Graph.adjNonneg_set (i := u) h2 hA
    have hB : ∀ e ∈ Graph.setFirstWeight
        ((g2.adj.set u (Graph.setFirstWeight (g2.adj.getD u []) v w)).getD v [])
        u w, 0 ≤ e.2 :=
      Graph.setFirstWeight_nonneg hw _ u (Graph.adjNonneg_getD hset)
    exact Graph.adjNonneg_set (i := v) hset hB
  · have hA : ∀ e ∈ g2.adj.getD u [] ++ [(v, w)], 0 ≤ e.2 := by
      intro e he
      rcases List.mem_append.mp he with he | he
      · exact Graph.adjNonneg_getD h2 e he
      · simp only [List.mem_singleton] at he
        subst he
        exact hw
    have hset := Graph.adjNonneg_set (i := u) h2 hA
    have hB : ∀ e ∈ (g2.adj.set u (g2.adj.getD u [] ++ [(v, w)])).getD v [] ++
        [(u, w)], 0 ≤ e.2 := by
      intro e he
      rcases List.mem_append.mp he with he | he
      · exact Graph.adjNonneg_getD hset e he
      · simp only [List.mem_singleton] at he
        subst he
        exact hw
    exact Graph.adjNonneg_set (i := v) hset hB

theorem buildGraph_adjNonneg (ops : List GraphOp)
    (hw : weightsNonneg ops = true) : Graph.AdjNonneg (buildGraph ops) := by
  suffices h : ∀ (ops : List GraphOp) (g : Graph), weightsNonneg ops = true →
      Graph.AdjNonneg g → Graph.AdjNonneg (ops.foldl applyGraphOp g) by
    refine h ops Graph.empty hw ?_
    intro l hl
    simp [Graph.empty] at hl
  intro ops
  induction ops with
  | nil =>
    intro g _ h
    exact h
  | cons op rest ih =>
    intro g hw2 h
    cases op with
    | addLocation name =>
      simp only [weightsNonneg, Bool.true_and] at hw2
      exact ih _ hw2 (Graph.addLocation_adjNonneg h)
    | addEdge a b w =>
      simp only [weightsNonneg, Bool.and_eq_true, decide_eq_true_eq] at hw2
      exact ih _ hw2.2 (Graph.addEdge_adjNonneg hw2.1 h)

/-- The Dijkstra loop invariant behind claim C10: the source keeps distance
`0` and no parent, and no tentative distance is negative. -/
def DijInv (s : Nat) (st : DijkstraState) : Prop :=
  st.dist.getD s 0 = 0 ∧ st.parent.getD s (-1) = -1 ∧ ∀ x ∈ st.dist, 0 ≤ x

theorem getD_nonneg :
    ∀ (l : List Int) (u : Nat), (∀ x ∈ l, 0 ≤ x) → 0 ≤ l.getD u 0 := by
  intro l
  induction l with
  | nil =>
    intro u _
    simp [List.getD]
  | cons x rest ih =>
    intro u h
    cases u with
    | zero => exact h x (List.mem_cons_self _ _)
    | succ u =>
      rw [List.getD_cons_succ]
      exact ih u (fun y hy => h y (List.mem_cons_of_mem _ hy))

theorem relaxEdges_inv {s u : Nat} :
    ∀ (es : List (Nat × Int)) (st : DijkstraState),
      (∀ e ∈ es, 0 ≤ e.2) → DijInv s st → DijInv s (relaxEdges u es st) := by
  intro es
  induction es with
  | nil =>
    intro st _ h
    exact h
  | cons e rest ih =>
    intro st hes h
    rcases e with ⟨v, w⟩
    rw [relaxEdges]
    refine ih _ (fun e2 he2 => hes e2 (List.mem_cons_of_mem _ he2)) ?_
    split_ifs with hlt
    · rcases h with ⟨h1, h2, h3⟩
      have hw : 0 ≤ w := hes (v, w) (List.mem_cons_self _ _)
      have hu0 : 0 ≤ st.dist.getD u 0 := getD_nonneg _ _ h3
      have hvs : v ≠ s := by
        intro hc
        subst hc
        rw [h1] at hlt
        omega
      refine ⟨?_, ?_, ?_⟩
      · exact (getD_set_ne st.dist v s _ 0 hvs).trans h1
      · exact (getD_set_ne st.parent v s _ (-1) hvs).trans h2
      · intro x hx
        rcases List.mem_or_eq_of_mem_set hx with hx | rfl
        · exact h3 x hx
        · omega
    · exact h

theorem dijkstraLoop_inv {s : Nat} {adj : List (List (Nat × Int))}
    (hadj : ∀ l ∈ adj, ∀ e ∈ l, 0 ≤ e.2) :
    ∀ (fuel : Nat) (st : DijkstraState), DijInv s st →
      DijInv s (dijkstraLoop adj fuel st) := by
  intro fuel
  induction fuel with
  | zero =>
    intro st h
    exact h
  | succ fuel ih =>
    intro st h
    rcases st with ⟨dist, parent, visited, pq⟩
    cases pq with
    | nil =>
      simp only [dijkstraLoop]
      exact h
    | cons e rest =>
      simp only [dijkstraLoop]
      split_ifs with hvis
      · exact ih _ ⟨h.1, h.2.1, h.2.2⟩
      · exact ih _ (relaxEdges_inv _ _ (Graph.adjNonneg_getD hadj)
          ⟨h.1, h.2.1, h.2.2⟩)

theorem getD_replicate_self {α : Type _} (a : α) :
    ∀ (n i : Nat), (List.replicate n a).getD i a = a := by
  intro n
  induction n with
  | zero =>
    intro i
    rfl
  | succ n ih =>
    intro i
    cases i with
    | zero => rfl
    | succ i => exact ih i

theorem getD_mem_of_lt {α : Type _} :
    ∀ (l : List α) (i : Nat) (d : α), i < l.length → l.getD i d ∈ l := by
  intro l
  induction l with
  | nil =>
    intro i d h
    simp at h
  | cons x rest ih =>
    intro i d h
    cases i with
    | zero => exact List.mem_cons_self _ _
    | succ i =>
      rw [List.getD_cons_succ]
      exact List.mem_cons_of_mem _ (ih i d (by simpa using h))

theorem nodup_getD_inj :
    ∀ {l : List String}, l.Nodup → ∀ {i j : Nat}, i < l.length →
      j < l.length → l.getD i "" = l.getD j "" → i = j := by
  intro l
  induction l with
  | nil =>
    intro _ i j hi _ _
    simp at hi
  | cons x rest ih =>
    intro h i j hi hj heq
    rcases List.nodup_cons.mp h with ⟨hx, hrest⟩
    cases i with
    | zero =>
      cases j with
      | zero => rfl
      | succ j =>
        rw [List.getD_cons_zero, List.getD_cons_succ] at heq
        have hmem : rest.getD j "" ∈ rest :=
          getD_mem_of_lt rest j "" (by simpa using hj)
        rw [← heq] at hmem
        exact absurd hmem hx
    | succ i =>
      cases j with
      | zero =>
        rw [List.getD_cons_succ, List.getD_cons_zero] at heq
        have hmem : rest.getD i "" ∈ rest :=
          getD_mem_of_lt rest i "" (by simpa using hi)
        rw [heq] at hmem
        exact absurd hmem hx
      | succ j =>
        rw [List.getD_cons_succ, List.getD_cons_succ] at heq
        have := ih hrest (by simpa using hi) (by simpa using hj) heq
        omega

theorem map_toLower_getD :
    ∀ (l : List String) (i : Nat), i < l.length →
      (l.map toLower).getD i "" = toLower (l.getD i "") := by
  intro l
  induction l with
  | nil =>
    intro i h
    simp at h
  | cons x rest ih =>
    intro i h
    cases i with
    | zero => rfl
    | succ i =>
      simp only [List.map_cons, List.getD_cons_succ]
      exact ih i (by simpa using h)

theorem toLower_eq_empty {s : String} (h : toLower s = "") : s = "" := by
  rcases s with ⟨d⟩
  have hd : d.map Char.toLower = [] := congrArg String.data h
  have hd2 : d = [] := List.map_eq_nil_iff.mp hd
  rw [hd2]

/-- In a well-formed state, the exact-name lookup of a canonical name found by
the case-insensitive scan returns that entry's id, which is a valid index
storing exactly that name. -/
theorem Graph.lookupId_of_find? {g : Graph} {name : String} {q : String × Nat}
    (hwf : Graph.wfB g = true)
    (hfind : g.nameToNode.find? (fun p => toLower p.1 == toLower name) =
      some q) :
    Graph.lookupId g q.1 = q.2 ∧ q.2 < g.nodeToName.length ∧
      g.nodeToName.getD q.2 "" = q.1 := by
  rcases Graph.wfB_iff.mp hwf with ⟨h1, -, -, h4⟩
  have hq := List.mem_of_find?_eq_some hfind
  rw [h1] at hq
  have hlt : q.2 < g.nodeToName.length := by
    simpa using (mkNameToNode_mem_lt hq).2
  have hname : g.nodeToName.getD q.2 "" = q.1 := by
    simpa using mkNameToNode_mem_name hq
  refine ⟨?_, hlt, hname⟩
  have hsome : (g.nameToNode.find? (fun p => p.1 == q.1)).isSome := by
    rw [List.find?_isSome]
    refine ⟨q, ?_, by simp⟩
    rw [h1]
    exact hq
  rcases Option.isSome_iff_exists.mp hsome with ⟨q2, hfind2⟩
  have hq2 := List.mem_of_find?_eq_some hfind2
  rw [h1] at hq2
  have heq1 : q2.1 = q.1 := by simpa using List.find?_some hfind2
  have hlt2 : q2.2 < g.nodeToName.length := by
    simpa using (mkNameToNode_mem_lt hq2).2
  have hname2 : g.nodeToName.getD q2.2 "" = q2.1 := by
    simpa using mkNameToNode_mem_name hq2
  have hids : q2.2 = q.2 := by
    refine nodup_getD_inj h4 (by simpa using hlt2) (by simpa using hlt) ?_
    rw [map_toLower_getD _ _ hlt2, map_toLower_getD _ _ hlt, hname, hname2,
      heq1]
  rw [Graph.lookupId, hfind2]
  simpa using hids

/-- C10 (corrected): in any reachable state built with nonnegative edge
weights, if `X` resolves case-insensitively to an existing location whose
query string is nonempty, then `shortestPath X X` reports found with
distance `0` and the one-element path holding the canonical (first-inserted)
casing of `X` — even when the graph has no edges.  The original claim,
quantified over every resolving name, fails for the empty name: the
reconstruction loop skips empty location names, producing an empty path (see
the counterexample theorem). -/
theorem graph_shortestPath_self (ops : List GraphOp) (X : String)
    (hw : weightsNonneg ops = true)
    (hloc : (buildGraph ops).hasLocation X = true)
    (hne : X ≠ "") :
    (buildGraph ops).shortestPath X X =
      some ([(buildGraph ops).getActualLocationName X], 0) := by
  have hwf := Graph.buildGraph_wf ops
  have hadjnn : Graph.AdjNonneg (buildGraph ops) := buildGraph_adjNonneg ops hw
  set G := buildGraph ops with hG
  rcases Option.isSome_iff_exists.mp (Graph.hasLocation_iff_find?.mp hloc)
    with ⟨q, hfind⟩
  rcases Graph.lookupId_of_find? hwf hfind with ⟨hlook, hlt, hnameq⟩
  have hpred : toLower q.1 = toLower X := by simpa using List.find?_some hfind
  have hsrc : G.getActualLocationName X = q.1 := by
    rw [Graph.getActualLocationName, hfind]
  have hloc2 : G.hasLocation q.1 = true := by
    rw [Graph.hasLocation, List.any_eq_true]
    exact ⟨q, List.mem_of_find?_eq_some hfind, by simp⟩
  have hq1ne : q.1 ≠ "" := by
    intro hc
    refine hne (toLower_eq_empty ?_)
    rw [← hpred, hc]
    decide
  have hinit : DijInv q.2
      { dist := (List.replicate G.nodeToName.length INF).set q.2 0,
        parent := List.replicate G.nodeToName.length (-1),
        visited := List.replicate G.nodeToName.length false,
        pq := [(0, q.2)] } := by
    refine ⟨?_, ?_, ?_⟩
    · exact getD_set_self _ _ _ _ (by simpa using hlt)
    · exact getD_replicate_self (-1) G.nodeToName.length q.2
    · intro x hx
      rcases List.mem_or_eq_of_mem_set hx with hx | rfl
      · rw [List.eq_of_mem_replicate hx]
        decide
      · omega
  have hfin := @dijkstraLoop_inv q.2 G.adj hadjnn
    (totalAdjLen G.adj + 2) _ hinit
  have hd0 := hfin.1
  have hpar := hfin.2.1
  have hbuild : buildPath G.nodeToName
      (dijkstraLoop G.adj (totalAdjLen G.adj + 2)
        { dist := (List.replicate G.nodeToName.length INF).set q.2 0,
          parent := List.replicate G.nodeToName.length (-1),
          visited := List.replicate G.nodeToName.length false,
          pq := [(0, q.2)] }).parent
      (G.nodeToName.length + 1) (q.2 : Int) [] = some [q.1] := by
    obtain ⟨m, hm⟩ : ∃ m, G.nodeToName.length = m + 1 :=
      ⟨G.nodeToName.length - 1, by omega⟩
    rw [hm] at hpar ⊢
    rw [buildPath]
    rw [if_neg (by omega : ¬((q.2 : Nat) : Int) = -1)]
    simp only [Int.toNat_natCast]
    rw [hpar, hnameq, if_pos hq1ne, List.nil_append]
    rw [buildPath]
    rw [if_pos rfl]
  simp only [Graph.shortestPath, hsrc, hloc2, Bool.and_self,
    eq_self_iff_true, if_true]
  rw [hlook]
  rw [hd0]
  rw [if_neg (by decide : ¬(0 : Int) = INF)]
  rw [hbuild]
  rfl

/-- C10 counterexample: the original claim quantifies over every name that
resolves to an existing location, but for a location whose stored name is
empty the path-reconstruction loop skips it (`if (!nodeToName[cur].empty())`),
so `shortestPath "" ""` reports found with distance `0` and an empty path
rather than a one-element path. -/
theorem graph_shortestPath_self_cex :
    (buildGraph [.addLocation ""]).hasLocation "" = true ∧
    (buildGraph [.addLocation ""]).shortestPath "" "" = some ([], 0) := by
  decide

/-- Witness for `graph_shortestPath_self` on a one-location graph. -/
theorem graph_shortestPath_self_witness :
    weightsNonneg [GraphOp.addLocation "A"] = true ∧
    (buildGraph [GraphOp.addLocation "A"]).hasLocation "A" = true ∧
    "A" ≠ "" ∧
    (buildGraph [GraphOp.addLocation "A"]).shortestPath "A" "A" =
      some ([(buildGraph [GraphOp.addLocation "A"]).getActualLocationName "A"],
        0) :=
  ⟨by decide, by decide, by decide,
    graph_shortestPath_self [GraphOp.addLocation "A"] "A" (by decide)
      (by decide) (by decide)⟩

namespace AVLTree

/-- Witness for `avl_insert_search_overwrite` on a concrete one-node tree. -/
theorem avl_insert_search_overwrite_witness :
    orderedB (AVLTree.node "b" 1 .nil .nil 1) = true ∧
    heightInv (AVLTree.node "b" 1 .nil .nil 1) = true ∧
    balancedB (AVLTree.node "b" 1 .nil .nil 1) = true ∧
    (search (insert (AVLTree.node "b" 1 .nil .nil 1) "b" 7) "b" = some 7 ∧
      (containsKey (AVLTree.node "b" 1 .nil .nil 1) "b" = true →
        shape (insert (AVLTree.node "b" 1 .nil .nil 1) "b" 7) =
          shape (AVLTree.node "b" 1 .nil .nil 1))) :=
  ⟨by decide, by decide, by decide,
    avl_insert_search_overwrite (AVLTree.node "b" 1 .nil .nil 1) "b" 7
      (by decide) (by decide) (by decide)⟩

/-- Witness for `avl_remove_semantics` on a concrete one-node tree. -/
theorem avl_remove_semantics_witness :
    orderedB (AVLTree.node "m" 3 .nil .nil 1) = true ∧
    heightInv (AVLTree.node "m" 3 .nil .nil 1) = true ∧
    balancedB (AVLTree.node "m" 3 .nil .nil 1) = true ∧
    ((AVLTree.remove (AVLTree.node "m" 3 .nil .nil 1) "m").1 =
        containsKey (AVLTree.node "m" 3 .nil .nil 1) "m" ∧
      (containsKey (AVLTree.node "m" 3 .nil .nil 1) "m" = false →
        (AVLTree.remove (AVLTree.node "m" 3 .nil .nil 1) "m").2 =
          AVLTree.node "m" 3 .nil .nil 1) ∧
      (containsKey (AVLTree.node "m" 3 .nil .nil 1) "m" = true →
        search (AVLTree.remove (AVLTree.node "m" 3 .nil .nil 1) "m").2 "m" =
          none)) :=
  ⟨by decide, by decide, by decide,
    avl_remove_semantics (AVLTree.node "m" 3 .nil .nil 1) "m"
      (by decide) (by decide) (by decide)⟩

end AVLTree

/-! ## Traversals (claim C9): reachability and shared counting machinery -/

/-- Number of set entries of a visited vector. -/
def trueCount (vis : List Bool) : Nat := (vis.filter (fun b => b)).length

theorem trueCount_cons_true (l : List Bool) :
    trueCount (true :: l) = trueCount l + 1 := by
  simp [trueCount]

theorem trueCount_cons_false (l : List Bool) :
    trueCount (false :: l) = trueCount l := by
  simp [trueCount]

theorem trueCount_le_length (vis : List Bool) : trueCount vis ≤ vis.length :=
  List.length_filter_le _ _

theorem trueCount_set_true :
    ∀ (vis : List Bool) (v : Nat), v < vis.length →
      vis.getD v false = false →
      trueCount (vis.set v true) = trueCount vis + 1 := by
  intro vis
  induction vis with
  | nil =>
    intro v h
    simp at h
  | cons x rest ih =>
    intro v hv hfalse
    cases v with
    | zero =>
      rw [List.getD_cons_zero] at hfalse
      subst hfalse
      rw [List.set_cons_zero, trueCount_cons_true, trueCount_cons_false]
    | succ v =>
      rw [List.getD_cons_succ] at hfalse
      have hrec := ih v (by simpa using hv) hfalse
      rw [List.set_cons_succ]
      cases x with
      | true => rw [trueCount_cons_true, trueCount_cons_true, hrec]
      | false => rw [trueCount_cons_false, trueCount_cons_false, hrec]

theorem range_map_getD (l : List String) :
    (List.range l.length).map (fun i => l.getD i "") = l := by
  induction l using List.reverseRecOn with
  | nil => rfl
  | append_singleton l a ih =>
    rw [List.length_append, List.length_singleton, List.range_succ,
      List.map_append]
    have h1 : (List.range l.length).map (fun i => (l ++ [a]).getD i "") =
        (List.range l.length).map (fun i => l.getD i "") := by
      refine List.map_congr_left ?_
      intro i hi
      rw [List.mem_range] at hi
      exact List.getD_append _ _ _ _ hi
    rw [h1, ih]
    have h2 : (l ++ [a]).getD l.length "" = a := by
      rw [List.getD_append_right _ _ _ _ (le_refl _)]
      simp
    rw [List.map_singleton, h2]

/-- Reachability along stored adjacency entries. -/
inductive Reach (adj : List (List (Nat × Int))) (s : Nat) : Nat → Prop where
  | refl : Reach adj s s
  | step {u v : Nat} {w : Int} (h : Reach adj s u)
      (he : (v, w) ∈ adj.getD u []) : Reach adj s v

theorem Reach.trans' {adj : List (List (Nat × Int))} {a b c : Nat}
    (h1 : Reach adj a b) (h2 : Reach adj b c) : Reach adj a c := by
  induction h2 with
  | refl => exact h1
  | step h he ih => exact Reach.step ih he

/-- Some entry for target `q` is stored in `p`'s adjacency list. -/
def tgtMem (A : List (List (Nat × Int))) (p q : Nat) : Prop :=
  ∃ w2, (q, w2) ∈ A.getD p []

/-- Both directions of every stored edge are present. -/
def Graph.EdgeSym (g : Graph) : Prop :=
  ∀ u v : Nat, tgtMem g.adj u v → tgtMem g.adj v u

theorem reach_symm {g : Graph} (hsym : Graph.EdgeSym g) {a b : Nat}
    (h : Reach g.adj a b) : Reach g.adj b a := by
  induction h with
  | refl => exact Reach.refl
  | step h he ih =>
    rcases hsym _ _ ⟨_, he⟩ with ⟨w2, hw2⟩
    exact (Reach.step Reach.refl hw2).trans' ih

theorem setFirstWeight_tgt {y v : Nat} {w : Int} :
    ∀ {l : List (Nat × Int)},
      (∃ w2, (y, w2) ∈ Graph.setFirstWeight l v w) ↔ ∃ w2, (y, w2) ∈ l := by
  intro l
  induction l with
  | nil => simp [Graph.setFirstWeight]
  | cons x rest ih =>
    rcases x with ⟨x1, x2⟩
    rw [Graph.setFirstWeight]
    split_ifs with hx
    · constructor
      · rintro ⟨w2, hw2⟩
        rcases List.mem_cons.mp hw2 with heq | hmem
        · rcases Prod.mk.injEq .. ▸ heq with ⟨h1, -⟩
          exact ⟨x2, by rw [h1]; exact List.mem_cons_self _ _⟩
        · exact ⟨w2, List.mem_cons_of_mem _ hmem⟩
      · rintro ⟨w2, hw2⟩
        rcases List.mem_cons.mp hw2 with heq | hmem
        · rcases Prod.mk.injEq .. ▸ heq with ⟨h1, -⟩
          exact ⟨w, by rw [h1]; exact List.mem_cons_self _ _⟩
        · exact ⟨w2, List.mem_cons_of_mem _ hmem⟩
    · constructor
      · rintro ⟨w2, hw2⟩
        rcases List.mem_cons.mp hw2 with heq | hmem
        · exact ⟨w2, heq ▸ List.mem_cons_self _ _⟩
        · rcases ih.mp ⟨w2, hmem⟩ with ⟨w3, hw3⟩
          exact ⟨w3, List.mem_cons_of_mem _ hw3⟩
      · rintro ⟨w2, hw2⟩
        rcases List.mem_cons.mp hw2 with heq | hmem
        · exact ⟨w2, heq ▸ List.mem_cons_self _ _⟩
        · rcases ih.mpr ⟨w2, hmem⟩ with ⟨w3, hw3⟩
          exact ⟨w3, List.mem_cons_of_mem _ hw3⟩

theorem append_single_tgt {y v : Nat} {w : Int} {l : List (Nat × Int)} :
    (∃ w2, (y, w2) ∈ l ++ [(v, w)]) ↔ (∃ w2, (y, w2) ∈ l) ∨ y = v := by
  constructor
  · rintro ⟨w2, hw2⟩
    rcases List.mem_append.mp hw2 with h | h
    · exact Or.inl ⟨w2, h⟩
    · simp only [List.mem_singleton, Prod.mk.injEq] at h
      exact Or.inr h.1
  · rintro (⟨w2, h⟩ | rfl)
    · exact ⟨w2, List.mem_append_left _ h⟩
    · exact ⟨w, List.mem_append_right _ (by simp)⟩

theorem tgt_update_char {A : List (List (Nat × Int))} {u v : Nat} {w : Int}
    (hu : u < A.length) (hv : v < A.length)
    (huv : tgtMem A u v) (hvu : tgtMem A v u) (x y : Nat) :
    tgtMem ((A.set u (Graph.setFirstWeight (A.getD u []) v w)).set v
      (Graph.setFirstWeight
        ((A.set u (Graph.setFirstWeight (A.getD u []) v w)).getD v []) u w))
      x y ↔
    (tgtMem A x y ∨ (x = u ∧ y = v) ∨ (x = v ∧ y = u)) := by
  have hlen : (A.set u (Graph.setFirstWeight (A.getD u []) v w)).length =
      A.length := by simp
  have hgetv : ∀ z : Nat,
      (∃ w2, ((z : Nat), w2) ∈
        (A.set u (Graph.setFirstWeight (A.getD u []) v w)).getD v []) ↔
      ∃ w2, (z, w2) ∈ A.getD v [] := by
    intro z
    by_cases huv2 : u = v
    · subst huv2
      rw [getD_set_self _ _ _ _ hu, setFirstWeight_tgt]
    · rw [getD_set_ne _ _ _ _ _ huv2]
  by_cases hxv : x = v
  · subst hxv
    rw [tgtMem, getD_set_self _ _ _ _ (by rw [hlen]; exact hv),
      setFirstWeight_tgt, hgetv y]
    constructor
    · intro h
      exact Or.inl h
    · rintro (h | ⟨hc, rfl⟩ | ⟨-, rfl⟩)
      · exact h
      · rw [hc] at huv ⊢
        exact huv
      · exact hvu
  · rw [tgtMem, getD_set_ne _ _ _ _ _ (fun hc => hxv hc.symm)]
    by_cases hxu : x = u
    · subst hxu
      rw [getD_set_self _ _ _ _ hu, setFirstWeight_tgt]
      constructor
      · intro h
        exact Or.inl h
      · rintro (h | ⟨-, rfl⟩ | ⟨hc, rfl⟩)
        · exact h
        · exact huv
        · exact absurd hc hxv
    · rw [getD_set_ne _ _ _ _ _ (fun hc => hxu hc.symm)]
      constructor
      · intro h
        exact Or.inl h
      · rintro (h | ⟨hc, -⟩ | ⟨hc, -⟩)
        · exact h
        · exact absurd hc hxu
        · exact absurd hc hxv

theorem tgt_push_char {A : List (List (Nat × Int))} {u v : Nat} {w : Int}
    (hu : u < A.length) (hv : v < A.length) (x y : Nat) :
    tgtMem ((A.set u (A.getD u [] ++ [(v, w)])).set v
      ((A.set u (A.getD u [] ++ [(v, w)])).getD v [] ++ [(u, w)])) x y ↔
    (tgtMem A x y ∨ (x = u ∧ y = v) ∨ (x = v ∧ y = u)) := by
  have hlen : (A.set u (A.getD u [] ++ [(v, w)])).length = A.length := by simp
  by_cases hxv : x = v
  · subst hxv
    rw [tgtMem, getD_set_self _ _ _ _ (by rw [hlen]; exact hv),
      append_single_tgt]
    by_cases huv2 : u = x
    · subst huv2
      rw [getD_set_self _ _ _ _ hu, append_single_tgt]
      constructor
      · rintro ((h | rfl) | rfl)
        · exact Or.inl h
        · exact Or.inr (Or.inl ⟨rfl, rfl⟩)
        · exact Or.inr (Or.inl ⟨rfl, rfl⟩)
      · rintro (h | ⟨-, rfl⟩ | ⟨-, rfl⟩)
        · exact Or.inl (Or.inl h)
        · exact Or.inl (Or.inr rfl)
        · exact Or.inl (Or.inr rfl)
    · rw [getD_set_ne _ _ _ _ _ huv2]
      constructor
      · rintro (h | rfl)
        · exact Or.inl h
        · exact Or.inr (Or.inr ⟨rfl, rfl⟩)
      · rintro (h | ⟨hc, rfl⟩ | ⟨-, rfl⟩)
        · exact Or.inl h
        · exact absurd hc.symm huv2
        · exact Or.inr rfl
  · rw [tgtMem, getD_set_ne _ _ _ _ _ (fun hc => hxv hc.symm)]
    by_cases hxu : x = u
    · subst hxu
      rw [getD_set_self _ _ _ _ hu, append_single_tgt]
      constructor
      · rintro (h | rfl)
        · exact Or.inl h
        · exact Or.inr (Or.inl ⟨rfl, rfl⟩)
      · rintro (h | ⟨-, rfl⟩ | ⟨hc, -⟩)
        · exact Or.inl h
        · exact Or.inr rfl
        · exact absurd hc hxv
    · rw [getD_set_ne _ _ _ _ _ (fun hc => hxu hc.symm)]
      constructor
      · intro h
        exact Or.inl h
      · rintro (h | ⟨hc, -⟩ | ⟨hc, -⟩)
        · exact h
        · exact absurd hc hxu
        · exact absurd hc hxv

theorem edgeSym_congr {gA gB : Graph} (h : gB.adj = gA.adj)
    (hsym : Graph.EdgeSym gA) : Graph.EdgeSym gB := by
  intro x y hxy
  rw [h] at hxy
  rw [h]
  exact hsym x y hxy

theorem edgeSym_append_nil {gA : Graph} (hsym : Graph.EdgeSym gA)
    {gB : Graph} (h : gB.adj = gA.adj ++ [[]]) : Graph.EdgeSym gB := by
  intro x y hxy
  rw [h] at hxy ⊢
  rcases hxy with ⟨w2, hm⟩
  rw [Graph.getD_append_nil] at hm
  rcases hsym x y ⟨w2, hm⟩ with ⟨w3, hm3⟩
  exact ⟨w3, by rw [Graph.getD_append_nil]; exact hm3⟩

theorem Graph.addLocation_edgeSym {g : Graph} {name : String}
    (hsym : Graph.EdgeSym g) : Graph.EdgeSym (g.addLocation name).2 := by
  cases hfind : g.nameToNode.find? (fun q => toLower q.1 == toLower name) with
  | some q => exact edgeSym_congr (by rw [Graph.addLocation_hit hfind]) hsym
  | none =>
    exact edgeSym_append_nil hsym (by rw [Graph.addLocation_miss hfind])

theorem Graph.addEdge_edgeSym {g : Graph} {a b : String} {w : Int}
    (hwf : Graph.wfB g = true) (hsym : Graph.EdgeSym g) :
    Graph.EdgeSym (g.addEdge a b w) := by
  have hwf1 : Graph.wfB (g.addLocation a).2 = true := Graph.addLocation_wf hwf
  have hsym1 : Graph.EdgeSym (g.addLocation a).2 :=
    Graph.addLocation_edgeSym hsym
  have hsym2 : Graph.EdgeSym ((g.addLocation a).2.addLocation b).2 :=
    Graph.addLocation_edgeSym hsym1
  have hwf2 : Graph.wfB ((g.addLocation a).2.addLocation b).2 = true :=
    Graph.addLocation_wf hwf1
  have hu : (g.addLocation a).1 < (g.addLocation a).2.nodeToName.length :=
    Graph.addLocation_id_lt hwf
  have hv : ((g.addLocation a).2.addLocation b).1 <
      ((g.addLocation a).2.addLocation b).2.nodeToName.length :=
    Graph.addLocation_id_lt hwf1
  have hu2 : (g.addLocation a).1 <
      ((g.addLocation a).2.addLocation b).2.nodeToName.length :=
    lt_of_lt_of_le hu Graph.addLocation_names_le
  set u := (g.addLocation a).1 with hudef
  set g1 := (g.addLocation a).2 with hg1def
  set v := (g1.addLocation b).1 with hvdef
  set g2 := (g1.addLocation b).2 with hg2def
  have hlen : g2.adj.length = g2.nodeToName.length := (Graph.wfB_iff.mp hwf2).2.1
  have hual : u < g2.adj.length := by rw [hlen]; exact hu2
  have hval : v < g2.adj.length := by rw [hlen]; exact hv
  have hadj : (g.addEdge a b w).adj =
      (if (g2.adj.getD u []).any (fun e => e.1 == v) then
        (g2.adj.set u (Graph.setFirstWeight (g2.adj.getD u []) v w)).set v
          (Graph.setFirstWeight ((g2.adj.set u
            (Graph.setFirstWeight (g2.adj.getD u []) v w)).getD v []) u w)
      else
        (g2.adj.set u (g2.adj.getD u [] ++ [(v, w)])).set v
          ((g2.adj.set u (g2.adj.getD u [] ++ [(v, w)])).getD v [] ++
            [(u, w)])) := by
    rw [Graph.addEdge]
    split_ifs <;> rfl
  intro x y hxy
  rw [hadj] at hxy ⊢
  split_ifs at hxy ⊢ with hguard
  · have huv : tgtMem g2.adj u v := by
      rw [List.any_eq_true] at hguard
      rcases hguard with ⟨e, he, hp⟩
      rcases e with ⟨e1, e2⟩
      simp only [beq_iff_eq] at hp
      subst hp
      exact ⟨e2, he⟩
    have hvu : tgtMem g2.adj v u := hsym2 u v huv
    rcases (tgt_update_char hual hval huv hvu x y).mp hxy with
      h | ⟨h1, h2⟩ | ⟨h1, h2⟩
    · exact (tgt_update_char hual hval huv hvu y x).mpr
        (Or.inl (hsym2 x y h))
    · exact (tgt_update_char hual hval huv hvu y x).mpr
        (Or.inr (Or.inr ⟨h2, h1⟩))
    · exact (tgt_update_char hual hval huv hvu y x).mpr
        (Or.inr (Or.inl ⟨h2, h1⟩))
  · rcases (tgt_push_char hual hval x y).mp hxy with h | ⟨h1, h2⟩ | ⟨h1, h2⟩
    · exact (tgt_push_char hual hval y x).mpr (Or.inl (hsym2 x y h))
    · exact (tgt_push_char hual hval y x).mpr (Or.inr (Or.inr ⟨h2, h1⟩))
    · exact (tgt_push_char hual hval y x).mpr (Or.inr (Or.inl ⟨h2, h1⟩))

theorem buildGraph_edgeSym (ops : List GraphOp) :
    Graph.EdgeSym (buildGraph ops) := by
  suffices h : ∀ (ops : List GraphOp) (g : Graph), Graph.wfB g = true →
      Graph.EdgeSym g → Graph.EdgeSym (ops.foldl applyGraphOp g) by
    refine h ops Graph.empty Graph.wfB_empty ?_
    intro x y hxy
    rcases hxy with ⟨w2, hm⟩
    simp [Graph.empty, List.getD] at hm
  intro ops
  induction ops with
  | nil =>
    intro g _ h
    exact h
  | cons op rest ih =>
    intro g hwf h
    cases op with
    | addLocation name =>
      exact ih _ (Graph.addLocation_wf hwf) (Graph.addLocation_edgeSym h)
    | addEdge a2 b2 w2 =>
      exact ih _ (Graph.addEdge_wf hwf) (Graph.addEdge_edgeSym hwf h)

/-- Soundness invariant of the `isConnected` BFS: the visited vector has one
slot per location, every set slot is reachable from node `0`, and every
queued node is marked. -/
def ConnInv (n : Nat) (adj : List (List (Nat × Int)))
    (st : List Bool × List Nat) : Prop :=
  st.1.length = n ∧ (∀ i, st.1.getD i false = true → Reach adj 0 i) ∧
  (∀ u ∈ st.2, st.1.getD u false = true)

theorem connProcessEdges_sound {n : Nat} {adj : List (List (Nat × Int))}
    {u : Nat} (hu : Reach adj 0 u) :
    ∀ (es : List (Nat × Int)) (st : List Bool × List Nat),
      (∀ e ∈ es, e ∈ adj.getD u []) → (∀ e ∈ es, e.1 < n) →
      ConnInv n adj st → ConnInv n adj (connProcessEdges es st) := by
  intro es
  induction es with
  | nil =>
    intro st _ _ h
    exact h
  | cons e rest ih =>
    intro st hsub hlt h
    rcases e with ⟨v, w⟩
    rw [connProcessEdges]
    refine ih _ (fun e2 he2 => hsub e2 (List.mem_cons_of_mem _ he2))
      (fun e2 he2 => hlt e2 (List.mem_cons_of_mem _ he2)) ?_
    split_ifs with hvis
    · exact h
    · rcases h with ⟨h0, h1, h2⟩
      have hvn : v < n := hlt (v, w) (List.mem_cons_self _ _)
      refine ⟨by simpa using h0, ?_, ?_⟩
      · intro i hi
        by_cases hiv : i = v
        · subst hiv
          exact Reach.step hu (hsub (i, w) (List.mem_cons_self _ _))
        · rw [getD_set_ne _ _ _ _ _ (fun hc => hiv hc.symm)] at hi
          exact h1 i hi
      · intro x hx
        rcases List.mem_append.mp hx with hx1 | hx1
        · by_cases hxv : x = v
          · subst hxv
            exact absurd (h2 x hx1) hvis
          · rw [getD_set_ne _ _ _ _ _ (fun hc => hxv hc.symm)]
            exact h2 x hx1
        · simp only [List.mem_singleton] at hx1
          subst hx1
          exact getD_set_self _ _ _ _ (by rw [h0]; exact hvn)

theorem connLoop_sound {n : Nat} {adj : List (List (Nat × Int))}
    (htargets : ∀ l ∈ adj, ∀ e ∈ l, e.1 < n) :
    ∀ (fuel : Nat) (st : List Bool × List Nat),
      ConnInv n adj st → ConnInv n adj (connLoop adj fuel st) := by
  intro fuel
  induction fuel with
  | zero =>
    intro st h
    exact h
  | succ fuel ih =>
    intro st h
    rcases st with ⟨vis, qu⟩
    cases qu with
    | nil =>
      simp only [connLoop]
      exact h
    | cons u rest =>
      simp only [connLoop]
      have hu : Reach adj 0 u := h.2.1 u (h.2.2 u (List.mem_cons_self _ _))
      refine ih _ (connProcessEdges_sound hu _ _ (fun e he => he) ?_ ?_)
      · intro e he
        rcases getD_mem_or_default adj u [] with hm | hm
        · exact htargets _ hm e he
        · rw [hm] at he
          simp at he
      · exact ⟨h.1, h.2.1, fun x hx => h.2.2 x (List.mem_cons_of_mem _ hx)⟩

theorem isConnected_reach {g : Graph} (hwf : Graph.wfB g = true)
    (hconn : Graph.isConnected g = true) :
    ∀ i < g.nodeToName.length, Reach g.adj 0 i := by
  intro i hi
  rcases Graph.wfB_iff.mp hwf with ⟨-, hlen, htg, -⟩
  rw [Graph.isConnected] at hconn
  split_ifs at hconn with hemp
  · rw [List.isEmpty_iff] at hemp
    rw [hemp] at hi
    simp at hi
  · have hconn2 : (connLoop g.adj (g.nodeToName.length + 1)
        ((List.replicate g.nodeToName.length false).set 0 true,
          [0])).1.all (fun b => b) = true := hconn
    have hn0 : 0 < g.nodeToName.length := by
      cases hnames : g.nodeToName with
      | nil => rw [hnames] at hemp; exact absurd rfl hemp
      | cons a rest => simp [hnames]
    have hinv0 : ConnInv g.nodeToName.length g.adj
        ((List.replicate g.nodeToName.length false).set 0 true, [0]) := by
      refine ⟨by simp, ?_, ?_⟩
      · intro j hj
        by_cases hj0 : j = 0
        · subst hj0
          exact Reach.refl
        · rw [getD_set_ne _ _ _ _ _ (fun hc => hj0 hc.symm),
            getD_replicate_self] at hj
          exact absurd hj (by simp)
      · intro x hx
        simp only [List.mem_singleton] at hx
        subst hx
        exact getD_set_self _ _ _ _ (by simpa using hn0)
    have hfin := connLoop_sound htg (g.nodeToName.length + 1) _ hinv0
    rcases hfin with ⟨hflen, hfreach, -⟩
    refine hfreach i ?_
    rw [List.all_eq_true] at hconn2
    exact hconn2 _ (getD_mem_of_lt _ i false (by rw [hflen]; exact hi))

/-- Full specification of the mark-and-enqueue edge scan shared by BFS and
`isConnected`: lengths and earlier marks are preserved, every scanned target
ends up marked, marks and enqueues stay in lockstep, the queue only grows by
fresh in-range nodes, queued nodes are marked, the queue stays duplicate-free,
and every new mark is enqueued. -/
theorem connProcessEdges_spec {n : Nat} :
    ∀ (es : List (Nat × Int)) (vis : List Bool) (qu : List Nat),
      vis.length = n → (∀ e ∈ es, e.1 < n) →
      (∀ u ∈ qu, (vis.getD u false) = true) → qu.Nodup →
      (connProcessEdges es (vis, qu)).1.length = n ∧
      (∀ i, vis.getD i false = true →
        (connProcessEdges es (vis, qu)).1.getD i false = true) ∧
      (∀ e ∈ es, (connProcessEdges es (vis, qu)).1.getD e.1 false = true) ∧
      (trueCount (connProcessEdges es (vis, qu)).1 + qu.length =
        trueCount vis + (connProcessEdges es (vis, qu)).2.length) ∧
      (∀ x ∈ (connProcessEdges es (vis, qu)).2,
        x ∈ qu ∨ (vis.getD x false = false ∧ x < n)) ∧
      (∀ u ∈ (connProcessEdges es (vis, qu)).2,
        (connProcessEdges es (vis, qu)).1.getD u false = true) ∧
      (connProcessEdges es (vis, qu)).2.Nodup ∧
      (∀ i, (connProcessEdges es (vis, qu)).1.getD i false = true →
        vis.getD i false = true ∨ i ∈ (connProcessEdges es (vis, qu)).2) ∧
      (∀ x ∈ qu, x ∈ (connProcessEdges es (vis, qu)).2) := by
  intro es
  induction es with
  | nil =>
    intro vis qu hlen htg hqm hqn
    exact ⟨hlen, fun i hi => hi, fun e he => by simp at he,
      rfl, fun x hx => Or.inl hx, hqm, hqn, fun i hi => Or.inl hi,
      fun x hx => hx⟩
  | cons e rest ih =>
    intro vis qu hlen htg hqm hqn
    rcases e with ⟨v, w⟩
    have hstep : connProcessEdges ((v, w) :: rest) (vis, qu) =
        connProcessEdges rest (if vis.getD v false = true then (vis, qu)
          else (vis.set v true, qu ++ [v])) := rfl
    rw [hstep]
    have hvn : v < n := htg (v, w) (List.mem_cons_self _ _)
    have htg2 : ∀ e2 ∈ rest, e2.1 < n :=
      fun e2 he2 => htg e2 (List.mem_cons_of_mem _ he2)
    split_ifs with hvis
    · rcases ih vis qu hlen htg2 hqm hqn with
        ⟨i1, i2, i3, i4, i5, i6, i7, i8, i9⟩
      exact ⟨i1, i2, fun e2 he2 => by
          rcases List.mem_cons.mp he2 with heq | hm
          · rw [heq]
            exact i2 v hvis
          · exact i3 e2 hm,
        i4, i5, i6, i7, i8, i9⟩
    · have hvf : vis.getD v false = false := by
        cases hb : vis.getD v false with
        | true => exact absurd hb hvis
        | false => rfl
      have hvq : v ∉ qu := fun hc => hvis (hqm v hc)
      have hlen2 : (vis.set v true).length = n := by simpa using hlen
      have hqm2 : ∀ u ∈ qu ++ [v], (vis.set v true).getD u false = true := by
        intro x hx
        rcases List.mem_append.mp hx with hx1 | hx1
        · by_cases hxv : x = v
          · subst hxv
            exact absurd (hqm x hx1) hvis
          · rw [getD_set_ne _ _ _ _ _ (fun hc => hxv hc.symm)]
            exact hqm x hx1
        · simp only [List.mem_singleton] at hx1
          subst hx1
          exact getD_set_self _ _ _ _ (by rw [hlen]; exact hvn)
      have hqn2 : (qu ++ [v]).Nodup := by
        rw [List.nodup_append]
        refine ⟨hqn, by simp, ?_⟩
        intro a ha
        simp only [List.mem_singleton]
        intro hav
        subst hav
        exact hvq ha
      rcases ih (vis.set v true) (qu ++ [v]) hlen2 htg2 hqm2 hqn2 with
        ⟨i1, i2, i3, i4, i5, i6, i7, i8, i9⟩
      have hmono : ∀ i, vis.getD i false = true →
          (vis.set v true).getD i false = true := by
        intro i hi
        by_cases hiv : i = v
        · subst hiv
          exact absurd hi hvis
        · rw [getD_set_ne _ _ _ _ _ (fun hc => hiv hc.symm)]
          exact hi
      refine ⟨i1, ?_, ?_, ?_, ?_, i6, i7, ?_, ?_⟩
      · intro i hi
        exact i2 i (hmono i hi)
      · intro e2 he2
        rcases List.mem_cons.mp he2 with heq | hm
        · rw [heq]
          exact i2 v (getD_set_self _ _ _ _ (by rw [hlen]; exact hvn))
        · exact i3 e2 hm
      · have hc1 : trueCount (vis.set v true) = trueCount vis + 1 :=
          trueCount_set_true vis v (by rw [hlen]; exact hvn) hvf
        rw [List.length_append, List.length_singleton] at i4
        omega
      · intro x hx
        rcases i5 x hx with hx1 | hx1
        · rcases List.mem_append.mp hx1 with hx2 | hx2
          · exact Or.inl hx2
          · simp only [List.mem_singleton] at hx2
            subst hx2
            exact Or.inr ⟨hvf, hvn⟩
        · rcases hx1 with ⟨hx2, hx3⟩
          by_cases hxv : x = v
          · subst hxv
            rw [getD_set_self _ _ _ _ (by rw [hlen]; exact hvn)] at hx2
            exact absurd hx2 (by simp)
          · rw [getD_set_ne _ _ _ _ _ (fun hc => hxv hc.symm)] at hx2
            exact Or.inr ⟨hx2, hx3⟩
      · intro i hi
        rcases i8 i hi with hi1 | hi1
        · by_cases hiv : i = v
          · subst hiv
            exact Or.inr (i9 i (List.mem_append_right _ (by simp)))
          · rw [getD_set_ne _ _ _ _ _ (fun hc => hiv hc.symm)] at hi1
            exact Or.inl hi1
        · exact Or.inr hi1
      · intro x hx
        exact i9 x (List.mem_append_left _ hx)

theorem bfsProcessEdges_eq :
    ∀ (es : List (Nat × Int)) (st : BFSState),
      bfsProcessEdges es st =
        { visited := (connProcessEdges es (st.visited, st.queue)).1,
          queue := (connProcessEdges es (st.visited, st.queue)).2,
          result := st.result } := by
  intro es
  induction es with
  | nil =>
    intro st
    rfl
  | cons e rest ih =>
    intro st
    rcases e with ⟨v, w⟩
    have hL : bfsProcessEdges ((v, w) :: rest) st =
        bfsProcessEdges rest (if st.visited.getD v false = true then st
          else { visited := st.visited.set v true, queue := st.queue ++ [v],
                 result := st.result }) := rfl
    have hR : connProcessEdges ((v, w) :: rest) (st.visited, st.queue) =
        connProcessEdges rest (if st.visited.getD v false = true
          then (st.visited, st.queue)
          else (st.visited.set v true, st.queue ++ [v])) := rfl
    rw [hL, hR]
    split_ifs with h
    · exact ih st
    · exact ih _

/-- Invariant of the BFS main loop, relating the visited vector, the pending
queue and the list `out` of already-dequeued node ids. -/
def SearchInv (n : Nat) (adj : List (List (Nat × Int)))
    (vis : List Bool) (qu : List Nat) (out : List Nat) : Prop :=
  vis.length = n ∧ qu.Nodup ∧ (∀ u ∈ qu, u < n ∧ vis.getD u false = true) ∧
  out.Nodup ∧ (∀ u ∈ out, u < n ∧ vis.getD u false = true) ∧
  (∀ u ∈ out, u ∉ qu) ∧
  (∀ u ∈ out, ∀ e ∈ adj.getD u [], vis.getD e.1 false = true) ∧
  (∀ i, vis.getD i false = true → i ∈ out ∨ i ∈ qu)

theorem bfsLoop_spec {n : Nat} {adj : List (List (Nat × Int))}
    {names : List String} (htargets : ∀ l ∈ adj, ∀ e ∈ l, e.1 < n) :
    ∀ (fuel : Nat) (st : BFSState) (out : List Nat),
      SearchInv n adj st.visited st.queue out →
      st.result = out.map (fun i => names.getD i "") →
      n - trueCount st.visited + st.queue.length ≤ fuel →
      ∃ out2 : List Nat,
        SearchInv n adj (bfsLoop adj names fuel st).visited
          (bfsLoop adj names fuel st).queue out2 ∧
        (bfsLoop adj names fuel st).queue = [] ∧
        (bfsLoop adj names fuel st).result =
          out2.map (fun i => names.getD i "") ∧
        (∀ i, st.visited.getD i false = true →
          (bfsLoop adj names fuel st).visited.getD i false = true) := by
  intro fuel
  induction fuel with
  | zero =>
    intro st out hinv hres hfuel
    have hq : st.queue = [] := by
      have hq0 : st.queue.length = 0 := by omega
      exact List.length_eq_zero.mp hq0
    exact ⟨out, hinv, hq, hres, fun i hi => hi⟩
  | succ fuel ih =>
    intro st out hinv hres hfuel
    rcases st with ⟨vis, qu, res⟩
    cases qu with
    | nil => exact ⟨out, hinv, rfl, hres, fun i hi => hi⟩
    | cons u rest =>
      obtain ⟨h1, h2, h3, h4, h5, h6, h7, h8⟩ := hinv
      have hu := h3 u (List.mem_cons_self _ _)
      have htg : ∀ e ∈ adj.getD u [], e.1 < n := by
        intro e he
        rcases getD_mem_or_default adj u [] with hm | hm
        · exact htargets _ hm e he
        · rw [hm] at he
          simp at he
      have hstep : bfsLoop adj names (fuel + 1) ⟨vis, u :: rest, res⟩ =
          bfsLoop adj names fuel
            ⟨(connProcessEdges (adj.getD u []) (vis, rest)).1,
             (connProcessEdges (adj.getD u []) (vis, rest)).2,
             res ++ [names.getD u ""]⟩ := by
        rw [show bfsLoop adj names (fuel + 1) ⟨vis, u :: rest, res⟩ =
            bfsLoop adj names fuel (bfsProcessEdges (adj.getD u [])
              ⟨vis, rest, res ++ [names.getD u ""]⟩) from rfl,
          bfsProcessEdges_eq]
      rw [hstep]
      have hqm : ∀ x ∈ rest, vis.getD x false = true :=
        fun x hx => (h3 x (List.mem_cons_of_mem _ hx)).2
      have hqn : rest.Nodup := (List.nodup_cons.mp h2).2
      have hunr : u ∉ rest := (List.nodup_cons.mp h2).1
      rcases connProcessEdges_spec (adj.getD u []) vis rest h1 htg hqm hqn with
        ⟨c1, c2, c3, c4, c5, c6, c7, c8, c9⟩
      have huout : u ∉ out := fun hc => h6 u hc (List.mem_cons_self _ _)
      have hInv2 : SearchInv n adj
          (connProcessEdges (adj.getD u []) (vis, rest)).1
          (connProcessEdges (adj.getD u []) (vis, rest)).2 (out ++ [u]) := by
        refine ⟨c1, c7, ?_, ?_, ?_, ?_, ?_, ?_⟩
        · intro x hx
          refine ⟨?_, c6 x hx⟩
          rcases c5 x hx with hx1 | hx1
          · exact (h3 x (List.mem_cons_of_mem _ hx1)).1
          · exact hx1.2
        · rw [List.nodup_append]
          refine ⟨h4, by simp, ?_⟩
          intro a ha
          simp only [List.mem_singleton]
          intro hau
          subst hau
          exact huout ha
        · intro x hx
          rcases List.mem_append.mp hx with hx1 | hx1
          · exact ⟨(h5 x hx1).1, c2 x (h5 x hx1).2⟩
          · simp only [List.mem_singleton] at hx1
            subst hx1
            exact ⟨hu.1, c2 x hu.2⟩
        · intro x hx hq2
          rcases List.mem_append.mp hx with hx1 | hx1
          · rcases c5 x hq2 with hx2 | hx2
            · exact h6 x hx1 (List.mem_cons_of_mem _ hx2)
            · rw [(h5 x hx1).2] at hx2
              exact absurd hx2.1 (by simp)
          · simp only [List.mem_singleton] at hx1
            subst hx1
            rcases c5 x hq2 with hx2 | hx2
            · exact hunr hx2
            · rw [hu.2] at hx2
              exact absurd hx2.1 (by simp)
        · intro x hx e he
          rcases List.mem_append.mp hx with hx1 | hx1
          · exact c2 _ (h7 x hx1 e he)
          · simp only [List.mem_singleton] at hx1
            subst hx1
            exact c3 e he
        · intro i hi
          rcases c8 i hi with hi1 | hi1
          · rcases h8 i hi1 with hi2 | hi2
            · exact Or.inl (List.mem_append_left _ hi2)
            · rcases List.mem_cons.mp hi2 with hi3 | hi3
              · subst hi3
                exact Or.inl (List.mem_append_right _ (by simp))
              · exact Or.inr (c9 i hi3)
          · exact Or.inr hi1
      have hres2 : res ++ [names.getD u ""] =
          (out ++ [u]).map (fun i => names.getD i "") := by
        rw [List.map_append, ← hres]
        rfl
      have hfuel2 : n - trueCount
            (connProcessEdges (adj.getD u []) (vis, rest)).1 +
          (connProcessEdges (adj.getD u []) (vis, rest)).2.length ≤ fuel := by
        have htc1 : trueCount (connProcessEdges (adj.getD u [])
            (vis, rest)).1 ≤ n := by
          rw [← c1]
          exact trueCount_le_length _
        have htc0 : trueCount vis ≤ n := by
          rw [← h1]
          exact trueCount_le_length _
        simp only [List.length_cons] at hfuel
        omega
      rcases ih ⟨(connProcessEdges (adj.getD u []) (vis, rest)).1,
          (connProcessEdges (adj.getD u []) (vis, rest)).2,
          res ++ [names.getD u ""]⟩
        (out ++ [u]) hInv2 hres2 hfuel2 with ⟨out2, j1, j2, j3, j4⟩
      exact ⟨out2, j1, j2, j3, fun i hi => j4 i (c2 i hi)⟩

theorem reach_visited {n : Nat} {adj : List (List (Nat × Int))}
    {vis : List Bool} {out2 : List Nat}
    (hinv : SearchInv n adj vis [] out2) {s i : Nat}
    (hs : vis.getD s false = true) (hr : Reach adj s i) :
    vis.getD i false = true := by
  induction hr with
  | refl => exact hs
  | step h he ih2 =>
    rcases hinv with ⟨-, -, -, -, -, -, h7, h8⟩
    rcases h8 _ ih2 with hout | hq
    · exact h7 _ hout _ he
    · simp at hq

theorem bfs_perm_of_reach {g : Graph} (hwf : Graph.wfB g = true)
    {s : Nat} (hs : s < g.nodeToName.length)
    (hreach : ∀ i < g.nodeToName.length, Reach g.adj s i) :
    List.Perm
      (bfsLoop g.adj g.nodeToName (g.nodeToName.length + 1)
        { visited := (List.replicate g.nodeToName.length false).set s true,
          queue := [s], result := [] }).result
      g.nodeToName := by
  rcases Graph.wfB_iff.mp hwf with ⟨-, hlen, htg, -⟩
  have hinv0 : SearchInv g.nodeToName.length g.adj
      ((List.replicate g.nodeToName.length false).set s true) [s] [] := by
    refine ⟨by simp, by simp, ?_, by simp, by simp, by simp, by simp, ?_⟩
    · intro x hx
      simp only [List.mem_singleton] at hx
      subst hx
      exact ⟨hs, getD_set_self _ _ _ _ (by simpa using hs)⟩
    · intro i hi
      by_cases his : i = s
      · subst his
        exact Or.inr (by simp)
      · rw [getD_set_ne _ _ _ _ _ (fun hc => his hc.symm),
          getD_replicate_self] at hi
        exact absurd hi (by simp)
  have hfuel : g.nodeToName.length - trueCount
        ((List.replicate g.nodeToName.length false).set s true) +
      ([s] : List Nat).length ≤ g.nodeToName.length + 1 := by
    simp only [List.length_singleton]
    omega
  rcases @bfsLoop_spec g.nodeToName.length g.adj g.nodeToName htg
      (g.nodeToName.length + 1)
      ⟨(List.replicate g.nodeToName.length false).set s true, [s], []⟩ []
      hinv0 rfl hfuel with ⟨out2, hinvf, hqf, hresf, hmono⟩
  rw [hqf] at hinvf
  have hperm : out2.Perm (List.range g.nodeToName.length) := by
    rw [List.perm_ext_iff_of_nodup hinvf.2.2.2.1 (List.nodup_range _)]
    intro a
    rw [List.mem_range]
    constructor
    · intro ha
      exact (hinvf.2.2.2.2.1 a ha).1
    · intro ha
      have hsvis := hmono s (getD_set_self _ _ _ _ (by simpa using hs))
      have hav := reach_visited hinvf hsvis (hreach a ha)
      rcases hinvf.2.2.2.2.2.2.2 a hav with h | h
      · exact h
      · simp at h
  rw [hresf]
  have hmap := hperm.map (fun i => g.nodeToName.getD i "")
  rw [range_map_getD] at hmap
  exact hmap

theorem trueCount_lt_of_false :
    ∀ (vis : List Bool) (u : Nat), u < vis.length →
      vis.getD u false = false → trueCount vis < vis.length := by
  intro vis
  induction vis with
  | nil =>
    intro u h
    simp at h
  | cons x rest ih =>
    intro u hu hf
    cases u with
    | zero =>
      rw [List.getD_cons_zero] at hf
      subst hf
      rw [trueCount_cons_false]
      have := trueCount_le_length rest
      simp only [List.length_cons]
      omega
    | succ u =>
      rw [List.getD_cons_succ] at hf
      have := ih u (by simpa using hu) hf
      cases x with
      | true =>
        rw [trueCount_cons_true]
        simp only [List.length_cons]
        omega
      | false =>
        rw [trueCount_cons_false]
        simp only [List.length_cons]
        omega

theorem dfsVisit_spec {n : Nat} {adj : List (List (Nat × Int))}
    {names : List String} (htargets : ∀ l ∈ adj, ∀ e ∈ l, e.1 < n) :
    ∀ (fuel : Nat) (u : Nat) (vis : List Bool) (res : List String),
      vis.length = n → u < n → vis.getD u false = false →
      n - trueCount vis ≤ fuel →
      ∃ (newIds : List Nat) (vis2 : List Bool),
        dfsVisit adj names fuel u (vis, res) =
          (vis2, res ++ newIds.map (fun i => names.getD i "")) ∧
        vis2.length = n ∧
        newIds.Nodup ∧
        u ∈ newIds ∧
        (∀ i ∈ newIds, i < n ∧ vis.getD i false = false ∧
          vis2.getD i false = true) ∧
        (∀ i, vis.getD i false = true → vis2.getD i false = true) ∧
        (∀ i, vis2.getD i false = true →
          vis.getD i false = true ∨ i ∈ newIds) ∧
        trueCount vis2 = trueCount vis + newIds.length ∧
        (∀ i ∈ newIds, ∀ e ∈ adj.getD i [], vis2.getD e.1 false = true) := by
  intro fuel
  induction fuel with
  | zero =>
    intro u vis res hlen hu hunvis hfuel
    exfalso
    have := trueCount_lt_of_false vis u (by rw [hlen]; exact hu) hunvis
    rw [hlen] at this
    omega
  | succ fuel ih =>
    intro u vis res hlen hu hunvis hfuel
    have hstep : dfsVisit adj names (fuel + 1) u (vis, res) =
        (adj.getD u []).foldl
          (fun st e => if st.1.getD e.1 false = true then st
            else dfsVisit adj names fuel e.1 st)
          (vis.set u true, res ++ [names.getD u ""]) := rfl
    have hfold : ∀ (es : List (Nat × Int)), (∀ e ∈ es, e.1 < n) →
        ∀ (vis1 : List Bool) (res1 : List String),
          vis1.length = n → n - trueCount vis1 ≤ fuel →
          ∃ (more : List Nat) (vis3 : List Bool),
            es.foldl (fun st e => if st.1.getD e.1 false = true then st
                else dfsVisit adj names fuel e.1 st) (vis1, res1) =
              (vis3, res1 ++ more.map (fun i => names.getD i "")) ∧
            vis3.length = n ∧
            more.Nodup ∧
            (∀ i ∈ more, i < n ∧ vis1.getD i false = false ∧
              vis3.getD i false = true) ∧
            (∀ i, vis1.getD i false = true → vis3.getD i false = true) ∧
            (∀ i, vis3.getD i false = true →
              vis1.getD i false = true ∨ i ∈ more) ∧
            trueCount vis3 = trueCount vis1 + more.length ∧
            (∀ i ∈ more, ∀ e ∈ adj.getD i [], vis3.getD e.1 false = true) ∧
            (∀ e ∈ es, vis3.getD e.1 false = true) := by
      intro es
      induction es with
      | nil =>
        intro _ vis1 res1 hlen1 _
        exact ⟨[], vis1, by simp, hlen1, by simp, by simp, fun i hi => hi,
          fun i hi => Or.inl hi, by simp [trueCount], by simp, by simp⟩
      | cons e es2 ihes =>
        intro htges vis1 res1 hlen1 hfr
        have hfstep : (e :: es2).foldl
              (fun st e2 => if st.1.getD e2.1 false = true then st
                else dfsVisit adj names fuel e2.1 st) (vis1, res1) =
            es2.foldl
              (fun st e2 => if st.1.getD e2.1 false = true then st
                else dfsVisit adj names fuel e2.1 st)
              (if vis1.getD e.1 false = true then (vis1, res1)
                else dfsVisit adj names fuel e.1 (vis1, res1)) := rfl
        rw [hfstep]
        by_cases hev : vis1.getD e.1 false = true
        · rw [if_pos hev]
          rcases ihes (fun e2 he2 => htges e2 (List.mem_cons_of_mem _ he2))
            vis1 res1 hlen1 hfr with
            ⟨more, vis3, f1, f2, f3, f4, f5, f6, f7, f8, f9⟩
          refine ⟨more, vis3, f1, f2, f3, f4, f5, f6, f7, f8, ?_⟩
          intro e2 he2
          rcases List.mem_cons.mp he2 with heq | hm
          · rw [heq]
            exact f5 _ hev
          · exact f9 e2 hm
        · have hevf : vis1.getD e.1 false = false := by
            cases hb : vis1.getD e.1 false with
            | true => exact absurd hb hev
            | false => rfl
          rw [if_neg hev]
          rcases ih e.1 vis1 res1 hlen1
            (htges e (List.mem_cons_self _ _)) hevf hfr with
            ⟨mids, vis2x, g1, g2, g3, g4, g5, g6, g7, g8, g9⟩
          rw [g1]
          have hmidsne : 1 ≤ mids.length := by
            cases mids with
            | nil => simp at g4
            | cons a t => simp
          rcases ihes (fun e2 he2 => htges e2 (List.mem_cons_of_mem _ he2))
            vis2x (res1 ++ mids.map (fun i => names.getD i "")) g2
            (by omega) with
            ⟨more2, vis3, f1, f2, f3, f4, f5, f6, f7, f8, f9⟩
          refine ⟨mids ++ more2, vis3, ?_, f2, ?_, ?_, ?_, ?_, ?_, ?_, ?_⟩
          · rw [f1, List.map_append, List.append_assoc]
          · rw [List.nodup_append]
            refine ⟨g3, f3, ?_⟩
            intro a ha hamem
            have h1 := (g5 a ha).2.2
            have h2 := (f4 a hamem).2.1
            rw [h1] at h2
            exact absurd h2 (by simp)
          · intro i hi
            rcases List.mem_append.mp hi with hi1 | hi1
            · exact ⟨(g5 i hi1).1, (g5 i hi1).2.1, f5 _ (g5 i hi1).2.2⟩
            · refine ⟨(f4 i hi1).1, ?_, (f4 i hi1).2.2⟩
              cases hb : vis1.getD i false with
              | false => rfl
              | true =>
                have hm2 := g6 i hb
                rw [(f4 i hi1).2.1] at hm2
                exact absurd hm2 (by simp)
          · intro i hi
            exact f5 i (g6 i hi)
          · intro i hi
            rcases f6 i hi with hi1 | hi1
            · rcases g7 i hi1 with hi2 | hi2
              · exact Or.inl hi2
              · exact Or.inr (List.mem_append_left _ hi2)
            · exact Or.inr (List.mem_append_right _ hi1)
          · rw [List.length_append]
            omega
          · intro i hi e2 he2
            rcases List.mem_append.mp hi with hi1 | hi1
            · exact f5 _ (g9 i hi1 e2 he2)
            · exact f8 i hi1 e2 he2
          · intro e2 he2
            rcases List.mem_cons.mp he2 with heq | hm
            · rw [heq]
              exact f5 _ (g5 e.1 g4).2.2
            · exact f9 e2 hm
    have htgu : ∀ e ∈ adj.getD u [], e.1 < n := by
      intro e he
      rcases getD_mem_or_default adj u [] with hm | hm
      · exact htargets _ hm e he
      · rw [hm] at he
        simp at he
    have hsetc := trueCount_set_true vis u (by rw [hlen]; exact hu) hunvis
    have hfr2 : n - trueCount (vis.set u true) ≤ fuel := by omega
    rcases hfold (adj.getD u []) htgu (vis.set u true)
      (res ++ [names.getD u ""]) (by simpa using hlen) hfr2 with
      ⟨more, vis3, f1, f2, f3, f4, f5, f6, f7, f8, f9⟩
    have hself : (vis.set u true).getD u false = true :=
      getD_set_self _ _ _ _ (by rw [hlen]; exact hu)
    refine ⟨u :: more, vis3, ?_, f2, ?_, List.mem_cons_self _ _, ?_, ?_, ?_,
      ?_, ?_⟩
    · rw [hstep, f1]
      simp
    · rw [List.nodup_cons]
      refine ⟨?_, f3⟩
      intro hc
      have h1 := (f4 u hc).2.1
      rw [hself] at h1
      exact absurd h1 (by simp)
    · intro i hi
      rcases List.mem_cons.mp hi with heq | hm
      · subst heq
        exact ⟨hu, hunvis, f5 _ hself⟩
      · refine ⟨(f4 i hm).1, ?_, (f4 i hm).2.2⟩
        have h1 := (f4 i hm).2.1
        by_cases hiu : i = u
        · subst hiu
          rw [hself] at h1
          exact absurd h1 (by simp)
        · rw [getD_set_ne _ _ _ _ _ (fun hc => hiu hc.symm)] at h1
          exact h1
    · intro i hi
      refine f5 i ?_
      by_cases hiu : i = u
      · subst hiu
        exact hself
      · rw [getD_set_ne _ _ _ _ _ (fun hc => hiu hc.symm)]
        exact hi
    · intro i hi
      rcases f6 i hi with hi1 | hi1
      · by_cases hiu : i = u
        · subst hiu
          exact Or.inr (List.mem_cons_self _ _)
        · rw [getD_set_ne _ _ _ _ _ (fun hc => hiu hc.symm)] at hi1
          exact Or.inl hi1
      · exact Or.inr (List.mem_cons_of_mem _ hi1)
    · simp only [List.length_cons]
      omega
    · intro i hi e2 he2
      rcases List.mem_cons.mp hi with heq | hm
      · subst heq
        exact f9 e2 he2
      · exact f8 i hm e2 he2

theorem dfs_perm_of_reach {g : Graph} (hwf : Graph.wfB g = true)
    {s : Nat} (hs : s < g.nodeToName.length)
    (hreach : ∀ i < g.nodeToName.length, Reach g.adj s i) :
    List.Perm
      (dfsVisit g.adj g.nodeToName (g.nodeToName.length + 1) s
        (List.replicate g.nodeToName.length false, [])).2
      g.nodeToName := by
  rcases Graph.wfB_iff.mp hwf with ⟨-, hlen, htg, -⟩
  rcases @dfsVisit_spec g.nodeToName.length g.adj g.nodeToName htg
      (g.nodeToName.length + 1) s (List.replicate g.nodeToName.length false)
      [] (by simp) hs (getD_replicate_self false _ s) (by omega) with
    ⟨newIds, vis2, f1, f2, f3, f4, f5, f6, f7, f8, f9⟩
  have hres : (dfsVisit g.adj g.nodeToName (g.nodeToName.length + 1) s
      (List.replicate g.nodeToName.length false, [])).2 =
      newIds.map (fun i => g.nodeToName.getD i "") := by
    rw [f1]
    rfl
  rw [hres]
  have hperm : newIds.Perm (List.range g.nodeToName.length) := by
    rw [List.perm_ext_iff_of_nodup f3 (List.nodup_range _)]
    intro a
    rw [List.mem_range]
    constructor
    · intro ha
      exact (f5 a ha).1
    · intro ha
      have hvis2 : ∀ b, Reach g.adj s b → vis2.getD b false = true := by
        intro b hr
        induction hr with
        | refl => exact (f5 s f4).2.2
        | step h he ih2 =>
          rcases f7 _ ih2 with h1 | h1
          · rw [getD_replicate_self] at h1
            exact absurd h1 (by simp)
          · exact f9 _ h1 _ he
      rcases f7 a (hvis2 a (hreach a ha)) with h1 | h1
      · rw [getD_replicate_self] at h1
        exact absurd h1 (by simp)
      · exact h1
  have hmap := hperm.map (fun i => g.nodeToName.getD i "")
  rw [range_map_getD] at hmap
  exact hmap

/-- C9: on every reachable graph state that `isConnected` reports connected,
both `BFS(start)` and `DFS(start)` for a start name resolving to an existing
location return a permutation of the stored location list — every location
exactly once — and when the start name does not resolve to any location both
return the empty sequence. -/
theorem graph_bfs_dfs_complete (ops : List GraphOp) (startName : String)
    (hconn : (buildGraph ops).isConnected = true) :
    ((buildGraph ops).hasLocation startName = true →
      List.Perm ((buildGraph ops).BFS startName)
        (buildGraph ops).nodeToName ∧
      List.Perm ((buildGraph ops).DFS startName)
        (buildGraph ops).nodeToName) ∧
    ((buildGraph ops).hasLocation startName = false →
      (buildGraph ops).BFS startName = [] ∧
      (buildGraph ops).DFS startName = []) := by
  have hwf := Graph.buildGraph_wf ops
  have hsym := buildGraph_edgeSym ops
  set G := buildGraph ops with hG
  constructor
  · intro hloc
    rcases Option.isSome_iff_exists.mp (Graph.hasLocation_iff_find?.mp hloc)
      with ⟨q, hfind⟩
    rcases Graph.lookupId_of_find? hwf hfind with ⟨hlook, hlt, hnameq⟩
    have hsrc : G.getActualLocationName startName = q.1 := by
      rw [Graph.getActualLocationName, hfind]
    have hreach0 := isConnected_reach hwf hconn
    have hreach : ∀ i < G.nodeToName.length, Reach G.adj q.2 i :=
      fun i hi => (reach_symm hsym (hreach0 q.2 hlt)).trans' (hreach0 i hi)
    constructor
    · simp only [Graph.BFS, hloc, eq_self_iff_true, if_true]
      rw [hsrc, hlook]
      exact bfs_perm_of_reach hwf hlt hreach
    · simp only [Graph.DFS, hloc, eq_self_iff_true, if_true]
      rw [hsrc, hlook]
      exact dfs_perm_of_reach hwf hlt hreach
  · intro hloc
    constructor
    · rw [Graph.BFS, if_neg (by rw [hloc]; simp)]
    · rw [Graph.DFS, if_neg (by rw [hloc]; simp)]

/-- Witness for `graph_bfs_dfs_complete` on a concrete connected
two-location graph. -/
theorem graph_bfs_dfs_complete_witness :
    (buildGraph [GraphOp.addLocation "A", GraphOp.addLocation "B",
      GraphOp.addEdge "A" "B" 3]).isConnected = true ∧
    (((buildGraph [GraphOp.addLocation "A", GraphOp.addLocation "B",
      GraphOp.addEdge "A" "B" 3]).hasLocation "B" = true →
        List.Perm ((buildGraph [GraphOp.addLocation "A", GraphOp.addLocation "B",
      GraphOp.addEdge "A" "B" 3]).BFS "B")
          (buildGraph [GraphOp.addLocation "A", GraphOp.addLocation "B",
      GraphOp.addEdge "A" "B" 3]).nodeToName ∧
        List.Perm ((buildGraph [GraphOp.addLocation "A", GraphOp.addLocation "B",
      GraphOp.addEdge "A" "B" 3]).DFS "B")
          (buildGraph [GraphOp.addLocation "A", GraphOp.addLocation "B",
      GraphOp.addEdge "A" "B" 3]).nodeToName) ∧
      ((buildGraph [GraphOp.addLocation "A", GraphOp.addLocation "B",
      GraphOp.addEdge "A" "B" 3]).hasLocation "B" = false →
        (buildGraph [GraphOp.addLocation "A", GraphOp.addLocation "B",
      GraphOp.addEdge "A" "B" 3]).BFS "B" = [] ∧
        (buildGraph [GraphOp.addLocation "A", GraphOp.addLocation "B",
      GraphOp.addEdge "A" "B" 3]).DFS "B" = [])) :=
  ⟨by decide, graph_bfs_dfs_complete [GraphOp.addLocation "A", GraphOp.addLocation "B",
      GraphOp.addEdge "A" "B" 3] "B" (by decide)⟩

end NavigateX
